import Mathlib

/-!
Verification of the schema-normalization, key-restoration, backend-client
and pairing-repository layers of the Jig repository (`src/jig/utils.py`,
`src/jig/client.py`, `src/jig/ollama_client.py`, `src/jig/repository.py`).

JSON values are embedded as the inductive type `Json`; Python dicts become
ordered association lists (Python 3.7+ dicts preserve insertion order, and
assignment to an existing key keeps its position).  Python code that can
raise an exception is embedded as an `Option`-returning function where
`none` models the exception escaping the function.
-/

namespace Jig

/-- A JSON value. Objects are ordered association lists, mirroring the
insertion order of Python dicts; numbers are integers (no claim touches
non-integral numerics). -/
inductive Json where
  | null : Json
  | bool (b : Bool) : Json
  | num (n : Int) : Json
  | str (s : String) : Json
  | arr (xs : List Json) : Json
  | obj (kvs : List (String × Json)) : Json
deriving Repr

mutual

/-- Structural equality test for `Json` (nested inductive, so the instance
is built by hand). -/
def Json.beq : Json → Json → Bool
  | .null, .null => true
  | .bool a, .bool b => a = b
  | .num a, .num b => a = b
  | .str a, .str b => a = b
  | .arr a, .arr b => Json.beqList a b
  | .obj a, .obj b => Json.beqKvs a b
  | _, _ => false

def Json.beqList : List Json → List Json → Bool
  | [], [] => true
  | a :: as, b :: bs => Json.beq a b && Json.beqList as bs
  | _, _ => false

def Json.beqKvs : List (String × Json) → List (String × Json) → Bool
  | [], [] => true
  | (ka, va) :: as, (kb, vb) :: bs =>
      ka = kb && Json.beq va vb && Json.beqKvs as bs
  | _, _ => false

end

mutual

theorem Json.beq_iff : ∀ a b : Json, Json.beq a b = true ↔ a = b
  | .null, b => by cases b <;> simp [Json.beq]
  | .bool x, b => by cases b <;> simp [Json.beq]
  | .num x, b => by cases b <;> simp [Json.beq]
  | .str x, b => by cases b <;> simp [Json.beq]
  | .arr xs, b => by
      cases b <;> simp [Json.beq]
      exact Json.beqList_iff xs _
  | .obj kvs, b => by
      cases b <;> simp [Json.beq]
      exact Json.beqKvs_iff kvs _

theorem Json.beqList_iff : ∀ a b : List Json, Json.beqList a b = true ↔ a = b
  | [], b => by cases b <;> simp [Json.beqList]
  | x :: xs, b => by
      cases b with
      | nil => simp [Json.beqList]
      | cons y ys =>
        simp [Json.beqList, Json.beq_iff x y, Json.beqList_iff xs ys]

theorem Json.beqKvs_iff :
    ∀ a b : List (String × Json), Json.beqKvs a b = true ↔ a = b
  | [], b => by cases b <;> simp [Json.beqKvs]
  | (k, v) :: xs, b => by
      cases b with
      | nil => simp [Json.beqKvs]
      | cons y ys =>
        obtain ⟨k2, v2⟩ := y
        simp [Json.beqKvs, Json.beq_iff v v2, Json.beqKvs_iff xs ys]

end

instance : DecidableEq Json := fun a b =>
  decidable_of_iff (Json.beq a b = true) (Json.beq_iff a b)

/-- First value stored under `key`, like Python `d.get(key)` (a real dict
has no duplicate keys, so "first" is "the" entry). -/
def getKey : List (String × Json) → String → Option Json
  | [], _ => none
  | (k, v) :: rest, key => if k = key then some v else getKey rest key

/-- Python `d[key] = val`: overwrite in place when the key exists (keeping
its position), append otherwise. -/
def setKey : List (String × Json) → String → Json → List (String × Json)
  | [], key, val => [(key, val)]
  | (k, v) :: rest, key, val =>
      if k = key then (key, val) :: rest else (k, v) :: setKey rest key val

/-- Python truthiness of a JSON value (`bool(x)`). -/
def truthy : Json → Bool
  | .null => false
  | .bool b => b
  | .num n => n != 0
  | .str s => s != ""
  | .arr xs => !xs.isEmpty
  | .obj kvs => !kvs.isEmpty

/-- Whether a JSON value is a string (Python `isinstance(x, str)`). -/
def Json.isStr : Json → Bool
  | .str _ => true
  | _ => false

mutual

/-- An executable size of a JSON value, used as the recursion budget of
the fuel-indexed functions below (the derived `sizeOf` of a nested
inductive has no executable code). -/
def jsize : Json → Nat
  | .null => 1
  | .bool _ => 1
  | .num _ => 1
  | .str _ => 1
  | .arr xs => 1 + lsize xs
  | .obj kvs => 2 + ksize kvs

/-- Size of a JSON list (positive, so one budget step can consume `[]`). -/
def lsize : List Json → Nat
  | [] => 1
  | x :: xs => 1 + jsize x + lsize xs

/-- Size of a JSON object's entry list. -/
def ksize : List (String × Json) → Nat
  | [] => 1
  | (_, v) :: rest => 1 + jsize v + ksize rest

end

theorem getKey_jsize_lt {l : List (String × Json)} {k : String} {v : Json}
    (h : getKey l k = some v) : jsize v < ksize l := by
  induction l with
  | nil => simp [getKey] at h
  | cons p rest ih =>
    obtain ⟨pk, pv⟩ := p
    simp only [getKey] at h
    by_cases hk : pk = k
    · subst hk
      rw [if_pos rfl, Option.some.injEq] at h
      subst h
      simp [ksize, jsize]
      omega
    · rw [if_neg hk] at h
      have := ih h
      simp [ksize]
      omega

/-- Property names that conflict with JSON Schema keywords
(`_RESERVED_PROP_NAMES` in `src/jig/utils.py`; the Python frozenset is
used only for membership, so a list works). -/
def reservedPropNames : List String :=
  ["required", "properties", "type", "items", "additionalProperties"]

/-- The fixed rename marker (`_RESERVED_RENAME_PREFIX` in `src/jig/utils.py`). -/
def renameMarker : String := "_prop_"

/-- The rename map built by normalization: new name to original name,
in insertion order like a Python dict. -/
abbrev RenameMap := List (String × String)

/-- Python `rename_map[new_name] = k`: overwrite in place when the key is
present, append otherwise. -/
def insertRename : RenameMap → String → String → RenameMap
  | [], nk, ok => [(nk, ok)]
  | (k, v) :: rest, nk, ok =>
      if k = nk then (nk, ok) :: rest else (k, v) :: insertRename rest nk ok

/-- Lookup in a string-to-string map (Python `d.get(k)`). -/
def lookupStr : List (String × String) → String → Option String
  | [], _ => none
  | (k, v) :: rest, key => if k = key then some v else lookupStr rest key

/-- Models `out["required"] = list(out.get("properties", {}).keys())`
(src/jig/utils.py line 122, the `required: true` branch): an absent
`properties` defaults to `{}`, a present non-dict raises `AttributeError`
(`none`). -/
def requiredFromProps (out : List (String × Json)) :
    Option (List (String × Json)) :=
  match getKey out "properties" with
  | none => some (setKey out "required" (.arr []))
  | some (.obj npvs) =>
      some (setKey out "required" (.arr (npvs.map (fun p => Json.str p.1))))
  | some _ => none

/-- Models src/jig/utils.py lines 126-130 (the catch-all `required`
branch): `list(out.get("properties", {}).keys()) if out.get("properties")
else []`.  A truthy non-dict `properties` raises `AttributeError`. -/
def requiredOtherShape (out : List (String × Json)) :
    Option (List (String × Json)) :=
  match getKey out "properties" with
  | some pv =>
      if truthy pv then
        match pv with
        | .obj npvs =>
            some (setKey out "required" (.arr (npvs.map (fun p => Json.str p.1))))
        | _ => none
      else some (setKey out "required" (.arr []))
  | none => some (setKey out "required" (.arr []))

/-- The `required` section of `_norm` (src/jig/utils.py lines 117-132):
`kvs` is the original node, whose `required` is read; `s.1` is the partly
rebuilt node, whose (already renamed) `properties` is read.  Not
recursive, so it carries no budget.  `req = out.get("required")` followed
by `if req is not None:` (line 118) means a present `required: null`
takes the same absent-`required` path as a missing key. -/
def normStepRequired (kvs : List (String × Json)) (s : List (String × Json) × RenameMap) :
    Option (List (String × Json) × RenameMap) :=
  match getKey kvs "required" with
  | some (.arr rs) =>
      if rs.all Json.isStr then some s
      else do
        let o ← requiredOtherShape s.1
        pure (o, s.2)
  | some (.bool b) =>
      if b then do
        let o ← requiredFromProps s.1
        pure (o, s.2)
      else some (setKey s.1 "required" (Json.arr []), s.2)
  | some (.obj rkvs) =>
      some (setKey s.1 "required"
        (Json.arr ((rkvs.filter (fun p => truthy p.2)).map
          (fun p => Json.str p.1))), s.2)
  | some .null =>
      match getKey s.1 "properties" with
      | some (.obj npvs) =>
          if npvs.isEmpty then some s
          else some (setKey s.1 "required" (Json.arr []), s.2)
      | _ => some s
  | some _ => do
      let o ← requiredOtherShape s.1
      pure (o, s.2)
  | none =>
      match getKey s.1 "properties" with
      | some (.obj npvs) =>
          if npvs.isEmpty then some s
          else some (setKey s.1 "required" (Json.arr []), s.2)
      | _ => some s

mutual

/-- The inner `_norm` of `normalize_schema_for_backend` (src/jig/utils.py
lines 97-141), with an explicit recursion budget so the definitions are
structurally recursive (on the budget) and compute by kernel reduction.
`jsize` of the argument is always a sufficient budget (the budget drops
by one per section and `jsize` charges two per object node), and `norm`
below instantiates it so; the out-of-budget `none` is never reached from
`norm`.

The Python body copies the node and re-assigns the keys `properties`,
`items`, `required`, `anyOf`, `oneOf`, `allOf` and `$defs` one after the
other; every read below is on a key that has not been re-assigned yet
(they are distinct), so the sections read the original `kvs`, except the
`required` section, which reads the renamed `properties` from the partly
rebuilt node.  `none` models an uncaught Python exception. -/
def normF : Nat → Json → RenameMap → Option (Json × RenameMap)
  | 0, _, _ => none
  | n + 1, .obj kvs, m => do
    let s1 ← normStepProps n kvs m
    let s2 ← normStepItems n kvs s1
    let s3 ← normStepRequired kvs s2
    let s4 ← normStepComp n kvs "anyOf" s3
    let s5 ← normStepComp n kvs "oneOf" s4
    let s6 ← normStepComp n kvs "allOf" s5
    normStepDefs n kvs s6
  | _ + 1, j, m => some (j, m)

/-- The `properties` section of `_norm` (src/jig/utils.py lines
101-111): rename reserved keys, recurse into every property value. -/
def normStepProps : Nat → List (String × Json) → RenameMap →
    Option (List (String × Json) × RenameMap)
  | 0, _, _ => none
  | n + 1, kvs, m =>
    match getKey kvs "properties" with
    | some (.obj pvs) => do
        let r ← normPropsF n pvs m []
        pure (setKey kvs "properties" (Json.obj r.1), r.2)
    | _ => some (kvs, m)

/-- The `items` section of `_norm` (src/jig/utils.py lines 112-116):
recurse into a dict `items` or into the dict elements of a sequence
`items`. -/
def normStepItems : Nat → List (String × Json) →
    List (String × Json) × RenameMap →
    Option (List (String × Json) × RenameMap)
  | 0, _, _ => none
  | n + 1, kvs, s =>
    match getKey kvs "items" with
    | some (.obj ikvs) => do
        let r ← normF n (.obj ikvs) s.2
        pure (setKey s.1 "items" r.1, r.2)
    | some (.arr xs) => do
        let r ← normListF n xs s.2
        pure (setKey s.1 "items" (Json.arr r.1), r.2)
    | _ => some s

/-- One `anyOf`/`oneOf`/`allOf` section of `_norm` (src/jig/utils.py
lines 133-135). -/
def normStepComp : Nat → List (String × Json) → String →
    List (String × Json) × RenameMap →
    Option (List (String × Json) × RenameMap)
  | 0, _, _, _ => none
  | n + 1, kvs, key, s =>
    match getKey kvs key with
    | some (.arr xs) => do
        let r ← normListF n xs s.2
        pure (setKey s.1 key (Json.arr r.1), r.2)
    | _ => some s

/-- The `$defs` section of `_norm` (src/jig/utils.py lines 136-140),
closing the rebuilt node. -/
def normStepDefs : Nat → List (String × Json) →
    List (String × Json) × RenameMap → Option (Json × RenameMap)
  | 0, _, _ => none
  | n + 1, kvs, s =>
    match getKey kvs "$defs" with
    | some (.obj dvs) => do
        let r ← normDefsF n dvs s.2
        pure (Json.obj (setKey s.1 "$defs" (Json.obj r.1)), r.2)
    | _ => some (Json.obj s.1, s.2)

/-- The properties loop of `_norm` (src/jig/utils.py lines 103-111):
reserved keys are renamed (registering the rename first), every value is
recursed into.  `new_props` is a Python dict built by assignment, so the
accumulator grows with `setKey`: a renamed key that collides with a later
key is overwritten in place, exactly as `new_props[new_name] = ...`
behaves. -/
def normPropsF : Nat → List (String × Json) → RenameMap →
    List (String × Json) → Option (List (String × Json) × RenameMap)
  | 0, _, _, _ => none
  | _ + 1, [], m, acc => some (acc, m)
  | n + 1, (k, v) :: rest, m, acc =>
    if k ∈ reservedPropNames then do
      let r ← normF n v (insertRename m (renameMarker ++ k) k)
      normPropsF n rest r.2 (setKey acc (renameMarker ++ k) r.1)
    else do
      let r ← normF n v m
      normPropsF n rest r.2 (setKey acc k r.1)

/-- A sequence whose dict elements are normalized and whose other
elements pass through (`[_norm(x) if isinstance(x, dict) else x ...]`,
src/jig/utils.py lines 116 and 135). -/
def normListF : Nat → List Json → RenameMap →
    Option (List Json × RenameMap)
  | 0, _, _ => none
  | _ + 1, [], m => some ([], m)
  | n + 1, x :: xs, m =>
    match x with
    | .obj kvs => do
        let r ← normF n (.obj kvs) m
        let r2 ← normListF n xs r.2
        pure (r.1 :: r2.1, r2.2)
    | _ => do
        let r ← normListF n xs m
        pure (x :: r.1, r.2)

/-- The `$defs` loop of `_norm` (src/jig/utils.py lines 136-140). -/
def normDefsF : Nat → List (String × Json) → RenameMap →
    Option (List (String × Json) × RenameMap)
  | 0, _, _ => none
  | _ + 1, [], m => some ([], m)
  | n + 1, (k, v) :: rest, m =>
    match v with
    | .obj kvs => do
        let r ← normF n (.obj kvs) m
        let r2 ← normDefsF n rest r.2
        pure ((k, r.1) :: r2.1, r2.2)
    | _ => do
        let r ← normDefsF n rest m
        pure ((k, v) :: r.1, r.2)

end

/-- `_norm` with its budget instantiated: `normF` never runs out. -/
def norm (j : Json) (m : RenameMap) : Option (Json × RenameMap) :=
  normF (jsize j) j m

/-- The entry-rewriting loop of `_fix_required` (src/jig/utils.py lines
156-161): a reserved string entry gets the rename marker, other hashable
entries pass through; an unhashable entry (list or dict) raises
`TypeError` from the frozenset membership test (`none`). -/
def fixEntries : List Json → Option (List Json)
  | [] => some []
  | .str s :: rest => do
      let r ← fixEntries rest
      pure ((if s ∈ reservedPropNames then Json.str (renameMarker ++ s)
             else Json.str s) :: r)
  | .arr _ :: _ => none
  | .obj _ :: _ => none
  | x :: rest => do
      let r ← fixEntries rest
      pure (x :: r)

mutual

/-- `_fix_required` (src/jig/utils.py lines 149-166), as a pure rebuild
(the Python version mutates the tree in place), with the same explicit
recursion budget scheme as `normF`.  Reads are on the original `kvs`: the
keys written before each read (`required`, then `properties`) are
distinct from the keys read after them.  `none` models an uncaught
exception: `.values()` on a truthy non-dict `properties` (line 163) or an
unhashable `required` entry (line 158), and the never-reached budget
exhaustion. -/
def fixReqF : Nat → Json → Option Json
  | 0, _ => none
  | n + 1, .obj kvs => do
    -- rewrite reserved names in `required` when `properties` is a dict
    let kvs1 ←
      match getKey kvs "properties" with
      | some (.obj _) =>
        match getKey kvs "required" with
        | some (.arr rs) => do
            let nrs ← fixEntries rs
            pure (setKey kvs "required" (Json.arr nrs))
        | _ => pure kvs
      | _ => pure kvs
    -- recurse into every property value
    let kvs2 ←
      match getKey kvs "properties" with
      | some (.obj pvs) => do
          let npvs ← fixPropsF n pvs
          pure (setKey kvs1 "properties" (Json.obj npvs))
      | some pv => if truthy pv then none else pure kvs1
      | none => pure kvs1
    -- recurse into a dict-shaped `items`
    match getKey kvs "items" with
    | some (.obj ikvs) => do
        let ni ← fixReqF n (.obj ikvs)
        pure (Json.obj (setKey kvs2 "items" ni))
    | _ => pure (Json.obj kvs2)
  | _ + 1, j => some j

/-- The properties loop of `_fix_required` (src/jig/utils.py lines
163-164). -/
def fixPropsF : Nat → List (String × Json) → Option (List (String × Json))
  | 0, _ => none
  | _ + 1, [] => some []
  | n + 1, (k, v) :: rest => do
      let nv ← fixReqF n v
      let r ← fixPropsF n rest
      pure ((k, nv) :: r)

end

/-- `_fix_required` with its budget instantiated: `fixReqF` never runs
out. -/
def fixReq (j : Json) : Option Json :=
  fixReqF (jsize j) j

/-- `normalize_schema_for_backend` (src/jig/utils.py lines 84-169): the
guard `if not schema or not isinstance(schema, dict)` returns a falsy or
non-dict input unchanged with an empty rename map; otherwise `_norm` runs
with an initially empty rename map and `_fix_required` re-walks the
result.  `none` models an uncaught exception. -/
def normalize_schema_for_backend (schema : Json) :
    Option (Json × RenameMap) :=
  match schema with
  | .obj kvs =>
    if kvs.isEmpty then some (schema, [])
    else do
      let r ← norm (.obj kvs) []
      let t ← fixReq r.1
      pure (t, r.2)
  | _ => some (schema, [])

mutual

/-- `restore_response_keys` (src/jig/utils.py lines 172-184): with an
empty rename map the value passes through unchanged; every mapping key is
looked up in the rename map (`rename_map.get(k, k)`) and the result built
by dict assignment, so a restored key colliding with a later key is
overwritten in place. -/
def restore_response_keys : Json → RenameMap → Json
  | d, [] => d
  | .obj kvs, m => .obj (restoreKvs kvs m [])
  | .arr xs, m => .arr (restoreList xs m)
  | d, _ => d

/-- The dict loop of `restore_response_keys` (src/jig/utils.py lines
177-181), with the output dict as accumulator. -/
def restoreKvs : List (String × Json) → RenameMap →
    List (String × Json) → List (String × Json)
  | [], _, out => out
  | (k, v) :: rest, m, out =>
      let key := (lookupStr m k).getD k
      restoreKvs rest m (setKey out key (restore_response_keys v m))

/-- The list branch of `restore_response_keys` (src/jig/utils.py line 183). -/
def restoreList : List Json → RenameMap → List Json
  | [], _ => []
  | x :: xs, m => restore_response_keys x m :: restoreList xs m

end

/-! Backend clients (`src/jig/client.py`, `src/jig/ollama_client.py`).
The HTTP layer is abstracted: `ensure_model` is modelled as a function of
the configured model and the list of available ids (the Python code
extracts that list from the `/models` or `/api/tags` payload before the
resolution logic starts); `preflight` as a function of the outcome of the
model-list request. -/

/-- A whitespace character of Python's `str.strip` / `\s` (ASCII
reading). -/
def pyIsSpace (c : Char) : Bool :=
  c = ' ' || c = '\t' || c = '\n' || c = '\r' || c = '\x0b' || c = '\x0c'

/-- Python `s.lower()` (ASCII reading; built from characters so it
computes by kernel reduction, unlike `String.toLower`). -/
def strLower (s : String) : String := String.mk (s.toList.map Char.toLower)

/-- Python `not s.strip()`: the string is empty or all whitespace. -/
def strBlank (s : String) : Bool := s.toList.all pyIsSpace

/-- Python `s.strip()`. -/
def pyStrip (s : String) : String :=
  String.mk (((s.toList.dropWhile pyIsSpace).reverse.dropWhile pyIsSpace).reverse)

/-- Python `s.split(":")[0]`: the prefix of `s` before the first colon. -/
def colonShort (s : String) : String :=
  String.mk (s.toList.takeWhile (fun c => c ≠ ':'))

/-- Whether `needle` starts `hay` (character lists). -/
def listStarts : List Char → List Char → Bool
  | [], _ => true
  | _ :: _, [] => false
  | a :: as, b :: bs => a = b && listStarts as bs

/-- Whether `needle` occurs somewhere in `hay` (character lists). -/
def listSub : List Char → List Char → Bool
  | n, [] => n.isEmpty
  | n, h :: t => listStarts n (h :: t) || listSub n t

/-- Python `needle in hay` for strings. -/
def strIn (needle hay : String) : Bool := listSub needle.toList hay.toList

/-- `LMStudioClient.ensure_model` (src/jig/client.py lines 58-80) as a
function of the configured model (`self.model`; `none` or the empty
string are falsy) and the available ids.  On success it returns the
resolved id together with the value remembered in `self.model`
afterwards. -/
def ensureModelLM (baseUrl : String) (model : Option String)
    (ids : List String) : Except String (String × String) :=
  match ids with
  | [] => .error ("No models found at " ++ baseUrl ++
      "/models. Load a model in LM Studio first.")
  | i0 :: _ =>
    match model with
    | some mdl =>
      if mdl = "" then .ok (i0, i0)
      else if mdl ∈ ids then .ok (mdl, mdl)
      else
        match ids.filter (fun mid => strIn (strLower mdl) (strLower mid)) with
        | [p] => .ok (p, p)
        | _ => .error ("Model '" ++ mdl ++ "' not found. Available: " ++
            String.intercalate ", " ids)
    | none => .ok (i0, i0)

/-- `OllamaClient.ensure_model` (src/jig/ollama_client.py lines 57-89):
the substring needle is `self.model.split(":")[0].lower()`, and the
filter also admits ids that start with that needle. -/
def ensureModelOllama (baseUrl : String) (model : Option String)
    (ids : List String) : Except String (String × String) :=
  match ids with
  | [] => .error ("No models found at " ++ baseUrl ++
      "/api/tags. Pull a model first: ollama pull zai-org/GLM-4.6")
  | i0 :: _ =>
    match model with
    | some mdl =>
      if mdl = "" then .ok (i0, i0)
      else if mdl ∈ ids then .ok (mdl, mdl)
      else
        let short := strLower (colonShort mdl)
        match ids.filter (fun mid =>
            strIn short (strLower mid) || listStarts short.toList (strLower mid).toList) with
        | [p] => .ok (p, p)
        | _ => .error ("Model '" ++ mdl ++ "' not found. Available: " ++
            String.intercalate ", " ids)
    | none => .ok (i0, i0)

/-- Modelled from the spec (section 4.3, `ensureModel` resolution policy):
exact match wins; else a unique available id containing the configured
name as a case-insensitive substring; zero or several matches fail; with
no configured model the first available id is used.  `none` is failure. -/
def resolvePolicy (model : Option String) (ids : List String) :
    Option String :=
  match ids with
  | [] => none
  | i0 :: _ =>
    match model with
    | some mdl =>
      if mdl = "" then some i0
      else if mdl ∈ ids then some mdl
      else
        match ids.filter (fun mid => strIn (strLower mdl) (strLower mid)) with
        | [u] => some u
        | _ => none
    | none => some i0

/-- The resolved id of an `ensure_model` outcome, `none` on error. -/
def resolvedId (r : Except String (String × String)) : Option String :=
  match r with
  | .ok p => some p.1
  | .error _ => none

/-- Outcome of the model-list HTTP request (`_get_models`): a
`requests.RequestException` (connection failure or bad HTTP status), any
other exception (e.g. an unparseable body), or a decoded JSON payload. -/
inductive Fetch where
  | reqError (msg : String) : Fetch
  | excError (msg : String) : Fetch
  | payload (body : Json) : Fetch

/-- Exceptions distinguished by `preflight`'s two handlers. -/
inductive PyExc where
  | reqExc (msg : String) : PyExc
  | otherExc (msg : String) : PyExc

/-- `LMStudioClient._get_models` (src/jig/client.py lines 32-38):
`data.get("data", [])` on a non-dict payload raises `AttributeError`; a
missing or non-list `data` field yields `[]`. -/
def getModelsLM : Fetch → Except PyExc (List Json)
  | .reqError m => .error (.reqExc m)
  | .excError m => .error (.otherExc m)
  | .payload (.obj kvs) =>
      match getKey kvs "data" with
      | some (.arr xs) => .ok xs
      | _ => .ok []
  | .payload _ => .error (.otherExc "AttributeError")

/-- The name list of `LMStudioClient.preflight` (src/jig/client.py line
46): `m.get("id", "unknown")` raises on a non-dict entry, and
`", ".join` raises on a non-string name; both surface as the generic
exception handler (`none`). -/
def modelNamesLM : List Json → Option (List String)
  | [] => some []
  | .obj kvs :: rest => do
      let r ← modelNamesLM rest
      match (getKey kvs "id").getD (.str "unknown") with
      | .str s => pure (s :: r)
      | _ => none
  | _ :: _ => none

/-- `LMStudioClient.preflight` (src/jig/client.py lines 40-51). -/
def preflightLM (baseUrl : String) (f : Fetch) : Bool × String :=
  match getModelsLM f with
  | .error (.reqExc m) => (false, "Connection failed: " ++ m)
  | .error (.otherExc m) => (false, "Error: " ++ m)
  | .ok models =>
    if models.isEmpty then
      (false, "Reached " ++ baseUrl ++ " but no models loaded")
    else
      match modelNamesLM models with
      | some names =>
          (true, "Connected | Models: " ++ String.intercalate ", " (names.take 3))
      | none => (false, "Error: TypeError")

/-- `OllamaClient._get_models` (src/jig/ollama_client.py lines 27-32). -/
def getModelsOllama : Fetch → Except PyExc (List Json)
  | .reqError m => .error (.reqExc m)
  | .excError m => .error (.otherExc m)
  | .payload (.obj kvs) =>
      match getKey kvs "models" with
      | some (.arr xs) => .ok xs
      | _ => .ok []
  | .payload _ => .error (.otherExc "AttributeError")

/-- The name list of `OllamaClient.preflight` (src/jig/ollama_client.py
line 40): `m.get("name", m.get("model", "unknown"))`. -/
def modelNamesOllama : List Json → Option (List String)
  | [] => some []
  | .obj kvs :: rest => do
      let r ← modelNamesOllama rest
      let v := match getKey kvs "name" with
        | some v => v
        | none => (getKey kvs "model").getD (.str "unknown")
      match v with
      | .str s => pure (s :: r)
      | _ => none
  | _ :: _ => none

/-- `OllamaClient.preflight` (src/jig/ollama_client.py lines 34-45). -/
def preflightOllama (baseUrl : String) (f : Fetch) : Bool × String :=
  match getModelsOllama f with
  | .error (.reqExc m) => (false, "Connection failed: " ++ m)
  | .error (.otherExc m) => (false, "Error: " ++ m)
  | .ok models =>
    if models.isEmpty then
      (false, "Reached " ++ baseUrl ++ " but no models found")
    else
      match modelNamesOllama models with
      | some names =>
          (true, "Connected | Models: " ++ String.intercalate ", " (names.take 3))
      | none => (false, "Error: TypeError")

/-- The good case of the LM Studio preflight: a dict payload whose
model entries are dicts with string (or absent) ids and at least one
entry. -/
def lmFetchGood : Fetch → Bool
  | .payload (.obj kvs) =>
      match getKey kvs "data" with
      | some (.arr xs) => !xs.isEmpty && (modelNamesLM xs).isSome
      | _ => false
  | _ => false

/-- The good case of the Ollama preflight. -/
def ollamaFetchGood : Fetch → Bool
  | .payload (.obj kvs) =>
      match getKey kvs "models" with
      | some (.arr xs) => !xs.isEmpty && (modelNamesOllama xs).isSome
      | _ => false
  | _ => false

/-! Streaming generation.  `generate_structured_stream` is modelled as a
function of the sequence of received chunks: for LM Studio the extracted
delta strings (`chunk.choices[0].delta.content or ""` when present, `""`
for a chunk without choices), for Ollama the raw response lines.  The
result is the list of yielded `(accumulated_text, parsed?)` pairs and,
when the generator raises instead of finishing, the error.  `json.loads`
is abstracted as the `parse` argument (`none` = `JSONDecodeError`). -/

/-- The chunk loop of `LMStudioClient.generate_structured_stream`
(src/jig/client.py lines 212-218), with the accumulated content as
parameter. -/
def lmStreamGo (parse : String → Option Json) (content : String) :
    List String → List (String × Option Json) × Option String
  | [] =>
    if strBlank content then ([(content, some (Json.obj []))], none)
    else
      match parse content with
      | some j => ([(content, some j)], none)
      | none => ([], some "Inference error: JSONDecodeError")
  | c :: cs =>
    let content2 := content ++ c
    let r := lmStreamGo parse content2 cs
    ((content2, none) :: r.1, r.2)

/-- `LMStudioClient.generate_structured_stream`, from the first received
chunk on. -/
def lmStream (parse : String → Option Json) (chunks : List String) :
    List (String × Option Json) × Option String :=
  lmStreamGo parse "" chunks

/-- Field extraction for one parsed Ollama stream line
(src/jig/ollama_client.py lines 192-194): `msg = data.get("message") or
{}`, `part = msg.get("content") or ""`, `done = data.get("done")`.
`none` models an uncaught exception: attribute access on a truthy
non-dict, or `content += part` with a truthy non-string part. -/
def ollamaExtract : Json → Option (String × Bool)
  | .obj kvs =>
    let doneFlag := truthy ((getKey kvs "done").getD .null)
    match getKey kvs "message" with
    | none => some ("", doneFlag)
    | some msgv =>
      if truthy msgv then
        match msgv with
        | .obj mkvs =>
          match getKey mkvs "content" with
          | none => some ("", doneFlag)
          | some cv =>
            if truthy cv then
              match cv with
              | .str s => some (s, doneFlag)
              | _ => none
            else some ("", doneFlag)
        | _ => none
      else some ("", doneFlag)
  | _ => none

/-- The line loop of `OllamaClient.generate_structured_stream`
(src/jig/ollama_client.py lines 185-201): empty and unparseable lines
are skipped, a line with the `done` flag emits the terminal pair and
stops reading, and stream end without `done` also emits the terminal
pair. -/
def ollamaStreamGo (parse : String → Option Json) (content : String) :
    List String → List (String × Option Json) × Option String
  | [] =>
    if strBlank content then ([(content, some (Json.obj []))], none)
    else
      match parse content with
      | some j => ([(content, some j)], none)
      | none => ([], some "JSONDecodeError")
  | line :: rest =>
    if line = "" then ollamaStreamGo parse content rest
    else
      match parse line with
      | none => ollamaStreamGo parse content rest
      | some data =>
        match ollamaExtract data with
        | none => ([], some "AttributeError")
        | some (part, doneFlag) =>
          let content2 := content ++ part
          if doneFlag then
            (if strBlank content2 then ([(content2, some (Json.obj []))], none)
             else
               match parse content2 with
               | some j => ([(content2, some j)], none)
               | none => ([], some "JSONDecodeError"))
          else
            let r := ollamaStreamGo parse content2 rest
            ((content2, none) :: r.1, r.2)

/-- `OllamaClient.generate_structured_stream`, from the first received
line on. -/
def ollamaStream (parse : String → Option Json) (lines : List String) :
    List (String × Option Json) × Option String :=
  ollamaStreamGo parse "" lines

/-! Pairing repository (`src/jig/repository.py`).  The directory tree
under `base_dir` is modelled as an association list from directory name
to its files (name and content); file contents are the serialized texts,
their serialization (`json.dumps`, meta defaulting) abstracted. -/

/-- A word character of the sanitizer's regex `[^\w\s-]` (ASCII reading
of `\w`). -/
def isWordChar (c : Char) : Bool := c.isAlphanum || c = '_'

/-- A separator of the sanitizer's regex `[-\s]+`. -/
def isSepChar (c : Char) : Bool := c = '-' || pyIsSpace c

/-- Replace every run of separators by one underscore (the second
`re.sub` of `sanitize_filename`); `prevSep` records whether the previous
character belonged to a run. -/
def collapseSeps : List Char → Bool → List Char
  | [], _ => []
  | c :: rest, prevSep =>
    if isSepChar c then
      (if prevSep then [] else ['_']) ++ collapseSeps rest true
    else c :: collapseSeps rest false

/-- `sanitize_filename` (src/jig/utils.py lines 23-27): drop characters
that are neither word characters, whitespace nor `-`; strip; lowercase;
collapse separator runs to `_`; fall back to "untitled" when empty. -/
def sanitize_filename (name : String) : String :=
  let kept := name.toList.filter (fun c => isWordChar c || pyIsSpace c || c = '-')
  let lowered := strLower (pyStrip (String.mk kept))
  let collapsed := String.mk (collapseSeps lowered.toList false)
  if collapsed = "" then "untitled" else collapsed

/-- The directory tree under the repository's `base_dir`: directory name
to list of (file name, file content). -/
abbrev FS := List (String × List (String × String))

/-- Files of a directory, `none` when the directory does not exist. -/
def lookupFiles : FS → String → Option (List (String × String))
  | [], _ => none
  | (d, files) :: rest, name => if d = name then some files else lookupFiles rest name

/-- Replace a directory's files in place, or append the directory. -/
def setFiles : FS → String → List (String × String) → FS
  | [], name, files => [(name, files)]
  | (d, fd) :: rest, name, files =>
      if d = name then (name, files) :: rest else (d, fd) :: setFiles rest name files

/-- The three files written by `PairingRepository.save`
(src/jig/repository.py lines 90-100). -/
def pairingFiles (schemaText promptText metaText : String) :
    List (String × String) :=
  [("schema.json", schemaText), ("prompt.txt", promptText), ("meta.json", metaText)]

/-- `Path.rename` on the directory tree: every directory entry named
`target` now answers to `backup`. -/
def renameDirs : FS → String → String → FS
  | [], _, _ => []
  | (d, fd) :: rest, target, backup =>
      (if d = target then (backup, fd) else (d, fd)) :: renameDirs rest target backup

/-- `PairingRepository.save` (src/jig/repository.py lines 69-102): when
the target directory exists with content it is renamed to
`<name>_backup_<timestamp>` first (`Path.rename`, which fails when the
backup name is taken by a non-empty directory), then a fresh target
directory receives the three files.  `now` is the formatted timestamp. -/
def PairingRepository.save (fs : FS) (name : String)
    (schemaText promptText metaText : String) (now : String) :
    Except String FS :=
  let target := sanitize_filename name
  let newFiles := pairingFiles schemaText promptText metaText
  match lookupFiles fs target with
  | some files =>
    if files.isEmpty then .ok (setFiles fs target newFiles)
    else
      let backup := target ++ "_backup_" ++ now
      match lookupFiles fs backup with
      | some bfiles =>
        if bfiles.isEmpty then
          let fs0 := fs.filter (fun d => d.1 ≠ backup)
          .ok (renameDirs fs0 target backup ++ [(target, newFiles)])
        else .error "OSError: Directory not empty"
      | none =>
        .ok (renameDirs fs target backup ++ [(target, newFiles)])
  | none => .ok (fs ++ [(target, newFiles)])

end Jig

namespace Jig

/-! ## Reachability relations for the normalized tree

`_fix_required` re-walks the tree through `properties` values and
dict-shaped `items` only; the specification claims the re-walk covers
every node reachable through `properties`, `items` (object or sequence
form), `anyOf`/`oneOf`/`allOf` and `$defs`.  Both edge sets are modelled
as inductive reachability relations so that statements quantify over the
nodes of a tree without re-walking it by a function. -/

/-- Reachability along the edges `_fix_required` actually follows
(src/jig/utils.py lines 163-166): values of a dict `properties`, and a
dict-shaped `items`. -/
inductive ReachFix : Json → Json → Prop where
  | refl (j : Json) : ReachFix j j
  | prop {kvs : List (String × Json)} {pvs : List (String × Json)}
      {k : String} {v node : Json} :
      getKey kvs "properties" = some (Json.obj pvs) → (k, v) ∈ pvs →
      ReachFix v node → ReachFix (Json.obj kvs) node
  | items {kvs ikvs : List (String × Json)} {node : Json} :
      getKey kvs "items" = some (Json.obj ikvs) →
      ReachFix (Json.obj ikvs) node → ReachFix (Json.obj kvs) node

/-- Reachability along every edge named by the claim: `properties`
values, `items` in object or sequence form, `anyOf`/`oneOf`/`allOf`
elements, and `$defs` values. -/
inductive ReachAll : Json → Json → Prop where
  | refl (j : Json) : ReachAll j j
  | prop {kvs pvs : List (String × Json)} {k : String} {v node : Json} :
      getKey kvs "properties" = some (Json.obj pvs) → (k, v) ∈ pvs →
      ReachAll v node → ReachAll (Json.obj kvs) node
  | items {kvs ikvs : List (String × Json)} {node : Json} :
      getKey kvs "items" = some (Json.obj ikvs) →
      ReachAll (Json.obj ikvs) node → ReachAll (Json.obj kvs) node
  | itemsSeq {kvs : List (String × Json)} {xs : List Json} {x node : Json} :
      getKey kvs "items" = some (Json.arr xs) → x ∈ xs →
      ReachAll x node → ReachAll (Json.obj kvs) node
  | comp {kvs : List (String × Json)} {key : String} {xs : List Json}
      {x node : Json} :
      key ∈ ["anyOf", "oneOf", "allOf"] →
      getKey kvs key = some (Json.arr xs) → x ∈ xs →
      ReachAll x node → ReachAll (Json.obj kvs) node
  | defs {kvs dvs : List (String × Json)} {k : String} {v node : Json} :
      getKey kvs "$defs" = some (Json.obj dvs) → (k, v) ∈ dvs →
      ReachAll v node → ReachAll (Json.obj kvs) node

/-- The local property the claim asserts of every (reached) object node
after normalization: when the node has a dict `properties` and a
sequence `required`, no entry of `required` still names a reserved
property (a rewritten entry carries the `_prop_` marker and a
non-reserved entry was never to be rewritten). -/
def entryNotReserved (r : Json) : Bool :=
  match r with
  | .str s => decide (s ∉ reservedPropNames)
  | _ => true

/-- The claimed local shape of a (reached) object node after
normalization: when the node has a dict `properties` and a sequence
`required`, no entry of `required` still names a reserved property. -/
def localReqOk (node : Json) : Bool :=
  match node with
  | .obj kvs =>
    match getKey kvs "properties", getKey kvs "required" with
    | some (.obj _), some (.arr rs) => rs.all entryNotReserved
    | _, _ => true
  | _ => true

end Jig

namespace Jig

/-! ## Claims -/

/-- C2: normalizing the schema with a property literally named `required`
and `required: true` yields exactly the properties `_prop_required` and
`name` (in declaration order), `required = ["_prop_required", "name"]`
and the rename map `{"_prop_required": "required"}`; restoring the
response `{"_prop_required": "x", "name": "y"}` through that map gives
`{"required": "x", "name": "y"}`. -/
theorem claim_C2_end_to_end :
    normalize_schema_for_backend (.obj [("type", .str "object"),
        ("properties", .obj [("required", .obj [("type", .str "string")]),
                             ("name", .obj [("type", .str "string")])]),
        ("required", .bool true)])
      = some (.obj [("type", .str "object"),
            ("properties", .obj [("_prop_required", .obj [("type", .str "string")]),
                                 ("name", .obj [("type", .str "string")])]),
            ("required", .arr [.str "_prop_required", .str "name"])],
          [("_prop_required", "required")])
    ∧ restore_response_keys
        (.obj [("_prop_required", .str "x"), ("name", .str "y")])
        [("_prop_required", "required")]
      = .obj [("required", .str "x"), ("name", .str "y")] :=
  ⟨by decide, by decide⟩

/-- C10: `restore_response_keys` renames keys at every depth of the
value, and when a renamed key collides with a key already named like the
original, the two entries collapse into one (the later entry in
iteration order overwrites the earlier), so the restored mapping has
strictly fewer entries than its input: here at depth (inside `wrap`)
`{"_prop_required": "x", "required": "z"}` collapses to
`{"required": "z"}`, and at the top level the three entries collapse to
two. -/
theorem claim_C10_restore_collision :
    restore_response_keys
        (.obj [("wrap", .arr [.obj [("_prop_required", .str "x"),
                                    ("required", .str "z")]]),
               ("_prop_required", .str "a"), ("required", .str "b")])
        [("_prop_required", "required")]
      = .obj [("wrap", .arr [.obj [("required", .str "z")]]),
              ("required", .str "b")]
    ∧ [("wrap", Json.arr [.obj [("required", Json.str "z")]]),
       ("required", Json.str "b")].length
      < [("wrap", Json.arr [.obj [("_prop_required", Json.str "x"),
                                  ("required", Json.str "z")]]),
         ("_prop_required", Json.str "a"), ("required", Json.str "b")].length
    ∧ [("required", Json.str "z")].length
      < [("_prop_required", Json.str "x"), ("required", Json.str "z")].length :=
  ⟨by decide, by decide, by decide⟩

end Jig

namespace Jig

theorem getKey_setKey_self (l : List (String × Json)) (k : String) (v : Json) :
    getKey (setKey l k v) k = some v := by
  induction l with
  | nil => simp [setKey, getKey]
  | cons p rest ih =>
    obtain ⟨pk, pv⟩ := p
    by_cases h : pk = k <;> simp [setKey, getKey, h, ih]

theorem getKey_setKey_ne (l : List (String × Json)) {k k' : String} (v : Json)
    (h : k ≠ k') : getKey (setKey l k v) k' = getKey l k' := by
  induction l with
  | nil => simp [setKey, getKey, h]
  | cons p rest ih =>
    obtain ⟨pk, pv⟩ := p
    by_cases hk : pk = k
    · subst hk
      simp [setKey, getKey, h]
    · simp [setKey, getKey, hk, ih]

theorem marker_not_reserved (s : String) :
    renameMarker ++ s ∉ reservedPropNames := by
  intro h
  simp [reservedPropNames, renameMarker] at h
  rcases h with h | h | h | h | h <;>
    (have hq := congrArg String.data h; simp [String.data_append] at hq)

theorem fixEntries_ok : ∀ {rs nrs : List Json}, fixEntries rs = some nrs →
    nrs.all entryNotReserved = true := by
  intro rs
  induction rs with
  | nil =>
    intro nrs h
    simp [fixEntries] at h
    subst h
    simp
  | cons x rest ih =>
    intro nrs h
    cases x with
    | arr xs => simp [fixEntries] at h
    | obj kvs => simp [fixEntries] at h
    | null =>
      cases hfe : fixEntries rest with
      | none => simp [fixEntries, hfe] at h
      | some r =>
        simp [fixEntries, hfe] at h
        subst h
        simp [entryNotReserved, ih hfe]
    | bool b =>
      cases hfe : fixEntries rest with
      | none => simp [fixEntries, hfe] at h
      | some r =>
        simp [fixEntries, hfe] at h
        subst h
        simp [entryNotReserved, ih hfe]
    | num i =>
      cases hfe : fixEntries rest with
      | none => simp [fixEntries, hfe] at h
      | some r =>
        simp [fixEntries, hfe] at h
        subst h
        simp [entryNotReserved, ih hfe]
    | str s =>
      cases hfe : fixEntries rest with
      | none => simp [fixEntries, hfe] at h
      | some r =>
        simp [fixEntries, hfe] at h
        subst h
        by_cases hs : s ∈ reservedPropNames
        · simp [hs, entryNotReserved, ih hfe, marker_not_reserved]
        · simp [hs, entryNotReserved, ih hfe]

end Jig

namespace Jig

theorem getKey_items_setKey_props (l : List (String × Json)) (v : Json) :
    getKey (setKey l "properties" v) "items" = getKey l "items" :=
  getKey_setKey_ne l v (by decide)

theorem getKey_props_setKey_items (l : List (String × Json)) (v : Json) :
    getKey (setKey l "items" v) "properties" = getKey l "properties" :=
  getKey_setKey_ne l v (by decide)

theorem getKey_req_setKey_items (l : List (String × Json)) (v : Json) :
    getKey (setKey l "items" v) "required" = getKey l "required" :=
  getKey_setKey_ne l v (by decide)

theorem getKey_req_setKey_props (l : List (String × Json)) (v : Json) :
    getKey (setKey l "properties" v) "required" = getKey l "required" :=
  getKey_setKey_ne l v (by decide)

theorem getKey_props_setKey_req (l : List (String × Json)) (v : Json) :
    getKey (setKey l "required" v) "properties" = getKey l "properties" :=
  getKey_setKey_ne l v (by decide)

theorem getKey_items_setKey_req (l : List (String × Json)) (v : Json) :
    getKey (setKey l "required" v) "items" = getKey l "items" :=
  getKey_setKey_ne l v (by decide)

end Jig

namespace Jig

/-- What one step of `_fix_required` does to an object node: the output
is an object whose dict `properties` (when the input had one) holds the
recursively rewritten property values, whose `required` (when
`properties` was a dict and `required` a list) is the entry-rewritten
list and is otherwise untouched, and whose dict `items` (when the input
had one) is recursively rewritten. -/
theorem fixReqF_shape {n : Nat} {kvs : List (String × Json)} {t : Json}
    (h : fixReqF (n + 1) (.obj kvs) = some t) :
    ∃ t2, t = Json.obj t2
      ∧ ((∃ pvs npvs, getKey kvs "properties" = some (Json.obj pvs)
            ∧ fixPropsF n pvs = some npvs
            ∧ getKey t2 "properties" = some (Json.obj npvs)
            ∧ ((∃ rs nrs, getKey kvs "required" = some (Json.arr rs)
                  ∧ fixEntries rs = some nrs
                  ∧ getKey t2 "required" = some (Json.arr nrs))
               ∨ ((∀ rs, getKey kvs "required" ≠ some (Json.arr rs))
                  ∧ getKey t2 "required" = getKey kvs "required")))
         ∨ ((∀ pvs, getKey kvs "properties" ≠ some (Json.obj pvs))
            ∧ getKey t2 "properties" = getKey kvs "properties"
            ∧ getKey t2 "required" = getKey kvs "required"))
      ∧ ((∃ ikvs ni, getKey kvs "items" = some (Json.obj ikvs)
            ∧ fixReqF n (Json.obj ikvs) = some ni
            ∧ getKey t2 "items" = some ni)
         ∨ ((∀ ikvs, getKey kvs "items" ≠ some (Json.obj ikvs))
            ∧ getKey t2 "items" = getKey kvs "items")) := by
  cases hp : getKey kvs "properties" with
  | some pv =>
    cases pv
    case obj pvs =>
      cases hfp : fixPropsF n pvs with
      | none =>
        cases hr0 : getKey kvs "required" with
        | none => simp [fixReqF, hp, hr0, hfp] at h
        | some rv =>
          cases rv
          case arr rs =>
            cases hfe : fixEntries rs with
            | none => simp [fixReqF, hp, hr0, hfe] at h
            | some nrs => simp [fixReqF, hp, hr0, hfe, hfp] at h
          all_goals simp [fixReqF, hp, hr0, hfp] at h
      | some npvs =>
        cases hr0 : getKey kvs "required" with
        | some rv =>
          cases rv
          case arr rs =>
            cases hfe : fixEntries rs with
            | none => simp [fixReqF, hp, hr0, hfe] at h
            | some nrs =>
              simp [fixReqF, hp, hr0, hfe, hfp] at h
              cases hi : getKey kvs "items" with
              | none =>
                simp [hi] at h
                exact ⟨setKey (setKey kvs "required" (Json.arr nrs))
                    "properties" (Json.obj npvs), h.symm,
                  Or.inl ⟨pvs, npvs, rfl, hfp, by rw [getKey_setKey_self],
                    Or.inl ⟨rs, nrs, rfl, hfe,
                      by rw [getKey_req_setKey_props, getKey_setKey_self]⟩⟩,
                  Or.inr ⟨by simp,
                    by rw [getKey_items_setKey_props, getKey_items_setKey_req]; exact hi⟩⟩
              | some iv =>
                cases iv
                case obj ikvs =>
                  cases hni : fixReqF n (.obj ikvs) with
                  | none => simp [hi, hni] at h
                  | some ni =>
                    simp [hi, hni] at h
                    exact ⟨setKey (setKey (setKey kvs "required" (Json.arr nrs))
                        "properties" (Json.obj npvs)) "items" ni, h.symm,
                      Or.inl ⟨pvs, npvs, rfl, hfp,
                        by rw [getKey_props_setKey_items, getKey_setKey_self],
                        Or.inl ⟨rs, nrs, rfl, hfe,
                          by rw [getKey_req_setKey_items, getKey_req_setKey_props,
                            getKey_setKey_self]⟩⟩,
                      Or.inl ⟨ikvs, ni, rfl, hni, by rw [getKey_setKey_self]⟩⟩
                all_goals
                  (simp [hi] at h
                   exact ⟨setKey (setKey kvs "required" (Json.arr nrs))
                       "properties" (Json.obj npvs), h.symm,
                     Or.inl ⟨pvs, npvs, rfl, hfp, by rw [getKey_setKey_self],
                       Or.inl ⟨rs, nrs, rfl, hfe,
                         by rw [getKey_req_setKey_props, getKey_setKey_self]⟩⟩,
                     Or.inr ⟨by simp,
                       by rw [getKey_items_setKey_props, getKey_items_setKey_req]; exact hi⟩⟩)
          all_goals
            (simp [fixReqF, hp, hr0, hfp] at h
             cases hi : getKey kvs "items" with
             | none =>
               simp [hi] at h
               exact ⟨setKey kvs "properties" (Json.obj npvs), h.symm,
                 Or.inl ⟨pvs, npvs, rfl, hfp, by rw [getKey_setKey_self],
                   Or.inr ⟨by simp,
                     by rw [getKey_req_setKey_props]; exact hr0⟩⟩,
                 Or.inr ⟨by simp, by rw [getKey_items_setKey_props]; exact hi⟩⟩
             | some iv =>
               cases iv
               case obj ikvs =>
                 cases hni : fixReqF n (.obj ikvs) with
                 | none => simp [hi, hni] at h
                 | some ni =>
                   simp [hi, hni] at h
                   exact ⟨setKey (setKey kvs "properties" (Json.obj npvs))
                       "items" ni, h.symm,
                     Or.inl ⟨pvs, npvs, rfl, hfp,
                       by rw [getKey_props_setKey_items, getKey_setKey_self],
                       Or.inr ⟨by simp,
                         by rw [getKey_req_setKey_items, getKey_req_setKey_props]
                            exact hr0⟩⟩,
                     Or.inl ⟨ikvs, ni, rfl, hni, by rw [getKey_setKey_self]⟩⟩
               all_goals
                 (simp [hi] at h
                  exact ⟨setKey kvs "properties" (Json.obj npvs), h.symm,
                    Or.inl ⟨pvs, npvs, rfl, hfp, by rw [getKey_setKey_self],
                      Or.inr ⟨by simp,
                        by rw [getKey_req_setKey_props]; exact hr0⟩⟩,
                    Or.inr ⟨by simp, by rw [getKey_items_setKey_props]; exact hi⟩⟩))
        | none =>
          simp [fixReqF, hp, hr0, hfp] at h
          cases hi : getKey kvs "items" with
          | none =>
            simp [hi] at h
            exact ⟨setKey kvs "properties" (Json.obj npvs), h.symm,
              Or.inl ⟨pvs, npvs, rfl, hfp, by rw [getKey_setKey_self],
                Or.inr ⟨by simp,
                  by rw [getKey_req_setKey_props]; exact hr0⟩⟩,
              Or.inr ⟨by simp, by rw [getKey_items_setKey_props]; exact hi⟩⟩
          | some iv =>
            cases iv
            case obj ikvs =>
              cases hni : fixReqF n (.obj ikvs) with
              | none => simp [hi, hni] at h
              | some ni =>
                simp [hi, hni] at h
                exact ⟨setKey (setKey kvs "properties" (Json.obj npvs))
                    "items" ni, h.symm,
                  Or.inl ⟨pvs, npvs, rfl, hfp,
                    by rw [getKey_props_setKey_items, getKey_setKey_self],
                    Or.inr ⟨by simp,
                      by rw [getKey_req_setKey_items, getKey_req_setKey_props]
                         exact hr0⟩⟩,
                  Or.inl ⟨ikvs, ni, rfl, hni, by rw [getKey_setKey_self]⟩⟩
            all_goals
              (simp [hi] at h
               exact ⟨setKey kvs "properties" (Json.obj npvs), h.symm,
                 Or.inl ⟨pvs, npvs, rfl, hfp, by rw [getKey_setKey_self],
                   Or.inr ⟨by simp,
                     by rw [getKey_req_setKey_props]; exact hr0⟩⟩,
                 Or.inr ⟨by simp, by rw [getKey_items_setKey_props]; exact hi⟩⟩)
    all_goals
      (simp [fixReqF, hp] at h
       try obtain ⟨htf, h⟩ := h
       cases hi : getKey kvs "items" with
       | none =>
         simp [hi] at h
         exact ⟨kvs, h.symm, Or.inr ⟨by simp, hp, rfl⟩, Or.inr ⟨by simp, hi⟩⟩
       | some iv =>
         cases iv
         case obj ikvs =>
           cases hni : fixReqF n (.obj ikvs) with
           | none => simp [hi, hni] at h
           | some ni =>
             simp [hi, hni] at h
             exact ⟨setKey kvs "items" ni, h.symm,
               Or.inr ⟨by simp, by rw [getKey_props_setKey_items]; exact hp,
                 by rw [getKey_req_setKey_items]⟩,
               Or.inl ⟨ikvs, ni, rfl, hni, by rw [getKey_setKey_self]⟩⟩
         all_goals
           (simp [hi] at h
            exact ⟨kvs, h.symm, Or.inr ⟨by simp, hp, rfl⟩,
              Or.inr ⟨by simp, hi⟩⟩))
  | none =>
    simp [fixReqF, hp] at h
    cases hi : getKey kvs "items" with
    | none =>
      simp [hi] at h
      exact ⟨kvs, h.symm, Or.inr ⟨by simp, hp, rfl⟩, Or.inr ⟨by simp, hi⟩⟩
    | some iv =>
      cases iv
      case obj ikvs =>
        cases hni : fixReqF n (.obj ikvs) with
        | none => simp [hi, hni] at h
        | some ni =>
          simp [hi, hni] at h
          exact ⟨setKey kvs "items" ni, h.symm,
            Or.inr ⟨by simp, by rw [getKey_props_setKey_items]; exact hp,
              by rw [getKey_req_setKey_items]⟩,
            Or.inl ⟨ikvs, ni, rfl, hni, by rw [getKey_setKey_self]⟩⟩
      all_goals
        (simp [hi] at h
         exact ⟨kvs, h.symm, Or.inr ⟨by simp, hp, rfl⟩,
           Or.inr ⟨by simp, hi⟩⟩)

end Jig

namespace Jig

/-- Every node reachable (through `properties` values and dict `items`)
from the output of `_fix_required` has its reserved `required` entries
rewritten. -/
theorem fixReqF_reach : ∀ n : Nat,
    (∀ j t, fixReqF n j = some t →
      ∀ node, ReachFix t node → localReqOk node = true)
    ∧ (∀ l nl, fixPropsF n l = some nl → ∀ k v node, (k, v) ∈ nl →
        ReachFix v node → localReqOk node = true) := by
  intro n
  induction n with
  | zero =>
    refine ⟨?_, ?_⟩
    · intro j t h
      simp [fixReqF] at h
    · intro l nl h
      simp [fixPropsF] at h
  | succ n ih =>
    obtain ⟨ihR, ihP⟩ := ih
    refine ⟨?_, ?_⟩
    · intro j t h node hreach
      cases j with
      | obj kvs =>
        obtain ⟨t2, rfl, hprops, hitems⟩ := fixReqF_shape h
        cases hreach with
        | refl =>
          simp only [localReqOk]
          rcases hprops with ⟨pvs, npvs, hp, hfp, htp, hreq⟩ | ⟨hnp, htp, htr⟩
          · rw [htp]
            rcases hreq with ⟨rs, nrs, hr0, hfe, htr⟩ | ⟨hnr, htr⟩
            · rw [htr]
              exact fixEntries_ok hfe
            · rw [htr]
              cases hr : getKey kvs "required" with
              | none => simp
              | some rv =>
                cases rv
                case arr rs => exact absurd hr (hnr rs)
                all_goals simp
          · rw [htp]
            cases hgp : getKey kvs "properties" with
            | none => simp
            | some pv =>
              cases pv
              case obj pvs => exact absurd hgp (hnp pvs)
              all_goals simp
        | prop hgp hmem hrest =>
          rcases hprops with ⟨pvs, npvs, hp, hfp, htp, hreq⟩ | ⟨hnp, htp, htr⟩
          · rw [htp] at hgp
            injection hgp with hgp
            injection hgp with hgp
            subst hgp
            exact ihP pvs npvs hfp _ _ node hmem hrest
          · rw [htp] at hgp
            exact absurd hgp (hnp _)
        | items hgi hrest =>
          rcases hitems with ⟨ikvs, ni, hi, hni, hti⟩ | ⟨hni, hti⟩
          · rw [hti] at hgi
            injection hgi with hgi
            subst hgi
            exact ihR _ _ hni node hrest
          · rw [hti] at hgi
            exact absurd hgi (hni _)
      | null =>
        simp [fixReqF] at h
        subst h
        cases hreach
        rfl
      | bool b =>
        simp [fixReqF] at h
        subst h
        cases hreach
        rfl
      | num i =>
        simp [fixReqF] at h
        subst h
        cases hreach
        rfl
      | str s =>
        simp [fixReqF] at h
        subst h
        cases hreach
        rfl
      | arr xs =>
        simp [fixReqF] at h
        subst h
        cases hreach
        rfl
    · intro l nl h k v node hmem hrest
      cases l with
      | nil =>
        simp [fixPropsF] at h
        subst h
        simp at hmem
      | cons p rest =>
        obtain ⟨k0, v0⟩ := p
        cases hnv : fixReqF n v0 with
        | none => simp [fixPropsF, hnv] at h
        | some nv =>
          cases hrest0 : fixPropsF n rest with
          | none => simp [fixPropsF, hnv, hrest0] at h
          | some r =>
            simp [fixPropsF, hnv, hrest0] at h
            subst h
            rcases List.mem_cons.mp hmem with hmem | hmem
            · injection hmem with h1 h2
              subst h2
              exact ihR _ _ hnv node hrest
            · exact ihP rest r hrest0 k v node hmem hrest

end Jig

namespace Jig

/-- C1 (amended): after `normalize_schema_for_backend`, every object node
reachable through `properties` values and object-form `items` — the
edges `_fix_required` actually re-walks — that itself carries a
dictionary `properties` and a sequence `required` (the guard of the
rewrite at src/jig/utils.py lines 153-158) has no reserved name left in
its `required` sequence; a reached node without its own dictionary
`properties` is not rewritten and may keep reserved entries. -/
theorem claim_C1_required_rewritten (s t : Json) (m : RenameMap) (node : Json)
    (h : normalize_schema_for_backend s = some (t, m))
    (hr : ReachFix t node) : localReqOk node = true := by
  cases s with
  | obj kvs =>
    by_cases hk : kvs.isEmpty
    · simp [normalize_schema_for_backend, hk] at h
      obtain ⟨rfl, rfl⟩ := h
      rw [List.isEmpty_iff] at hk
      subst hk
      cases hr with
      | refl => rfl
      | prop hgp hmem hrest => simp [getKey] at hgp
      | items hgp hrest => simp [getKey] at hgp
    · cases hn : norm (.obj kvs) [] with
      | none => simp [normalize_schema_for_backend, hk, hn] at h
      | some r =>
        cases hfx : fixReq r.1 with
        | none => simp [normalize_schema_for_backend, hk, hn, hfx] at h
        | some t0 =>
          simp [normalize_schema_for_backend, hk, hn, hfx] at h
          obtain ⟨rfl, rfl⟩ := h
          simp only [fixReq] at hfx
          exact (fixReqF_reach (jsize r.1)).1 r.1 t0 hfx node hr
  | null =>
    simp [normalize_schema_for_backend] at h
    obtain ⟨rfl, rfl⟩ := h
    cases hr
    rfl
  | bool b =>
    simp [normalize_schema_for_backend] at h
    obtain ⟨rfl, rfl⟩ := h
    cases hr
    rfl
  | num i =>
    simp [normalize_schema_for_backend] at h
    obtain ⟨rfl, rfl⟩ := h
    cases hr
    rfl
  | str s2 =>
    simp [normalize_schema_for_backend] at h
    obtain ⟨rfl, rfl⟩ := h
    cases hr
    rfl
  | arr xs =>
    simp [normalize_schema_for_backend] at h
    obtain ⟨rfl, rfl⟩ := h
    cases hr
    rfl

end Jig

namespace Jig

/-- C1 is false as stated: in the normalized output of a schema whose
object node sits under `anyOf`, that node's property `type` is renamed
to `_prop_type` but its `required` entry `"type"` is not rewritten
(`_fix_required` never descends into `anyOf`), so a node reachable
through the claim's listed edges violates the claimed invariant. -/
theorem claim_C1_counterexample :
    normalize_schema_for_backend
        (.obj [("anyOf", .arr [.obj [("type", .str "object"),
          ("properties", .obj [("type", .obj [("type", .str "string")])]),
          ("required", .arr [.str "type"])]])])
      = some (.obj [("anyOf", .arr [.obj [("type", .str "object"),
          ("properties", .obj [("_prop_type", .obj [("type", .str "string")])]),
          ("required", .arr [.str "type"])]])], [("_prop_type", "type")])
    ∧ ReachAll
        (.obj [("anyOf", .arr [.obj [("type", .str "object"),
          ("properties", .obj [("_prop_type", .obj [("type", .str "string")])]),
          ("required", .arr [.str "type"])]])])
        (.obj [("type", .str "object"),
          ("properties", .obj [("_prop_type", .obj [("type", .str "string")])]),
          ("required", .arr [.str "type"])])
    ∧ localReqOk (.obj [("type", .str "object"),
          ("properties", .obj [("_prop_type", .obj [("type", .str "string")])]),
          ("required", .arr [.str "type"])]) = false :=
  ⟨by decide,
   @ReachAll.comp
     [("anyOf", .arr [.obj [("type", .str "object"),
       ("properties", .obj [("_prop_type", .obj [("type", .str "string")])]),
       ("required", .arr [.str "type"])]])]
     "anyOf"
     [.obj [("type", .str "object"),
       ("properties", .obj [("_prop_type", .obj [("type", .str "string")])]),
       ("required", .arr [.str "type"])]]
     (.obj [("type", .str "object"),
       ("properties", .obj [("_prop_type", .obj [("type", .str "string")])]),
       ("required", .arr [.str "type"])])
     (.obj [("type", .str "object"),
       ("properties", .obj [("_prop_type", .obj [("type", .str "string")])]),
       ("required", .arr [.str "type"])])
     (by decide) (by decide) (List.mem_singleton.mpr rfl) (ReachAll.refl _),
   by decide⟩

/-- Witness for the amended C1: at a concrete schema with a reserved
property name in `required`, the normalized root (reached by the
reflexivity edge) has the entry rewritten. -/
theorem claim_C1_required_rewritten_witness :
    localReqOk (.obj [("properties", .obj [("_prop_type", .null)]),
      ("required", .arr [.str "_prop_type"])]) = true :=
  claim_C1_required_rewritten
    (.obj [("properties", .obj [("type", .null)]),
      ("required", .arr [.str "type"])])
    (.obj [("properties", .obj [("_prop_type", .null)]),
      ("required", .arr [.str "_prop_type"])])
    [("_prop_type", "type")]
    (.obj [("properties", .obj [("_prop_type", .null)]),
      ("required", .arr [.str "_prop_type"])])
    (by decide) (ReachFix.refl _)

end Jig

namespace Jig

/-- The key rewrite of the properties loop: reserved names get the
marker, others pass through. -/
def renameKey (k : String) : String :=
  if k ∈ reservedPropNames then renameMarker ++ k else k

theorem renameKey_not_reserved (k : String) :
    renameKey k ∉ reservedPropNames := by
  unfold renameKey
  split
  · exact marker_not_reserved k
  · assumption

theorem setKey_of_fresh {l : List (String × Json)} {k : String} (v : Json)
    (h : ∀ p ∈ l, p.1 ≠ k) : setKey l k v = l ++ [(k, v)] := by
  induction l with
  | nil => simp [setKey]
  | cons p rest ih =>
    obtain ⟨pk, pv⟩ := p
    have hpk : pk ≠ k := h (pk, pv) (List.mem_cons_self _ _)
    simp only [setKey, if_neg hpk, List.cons_append, List.cons.injEq, true_and]
    exact ih fun q hq => h q (List.mem_cons_of_mem _ hq)

/-- The keys an accumulator-run of the properties loop produces: the
accumulator's keys followed by the renamed property keys in declaration
order, provided the renamed keys are fresh for the accumulator and
mutually distinct (no rename collision). -/
theorem normPropsF_keys : ∀ {n : Nat} {pvs : List (String × Json)}
    {m : RenameMap} {acc r},
    normPropsF n pvs m acc = some r →
    (∀ p ∈ pvs, ∀ q ∈ acc, q.1 ≠ renameKey p.1) →
    (pvs.map (fun p => renameKey p.1)).Nodup →
    r.1.map Prod.fst = acc.map Prod.fst ++ pvs.map (fun p => renameKey p.1) := by
  intro n
  induction n with
  | zero =>
    intro pvs m acc r h
    simp [normPropsF] at h
  | succ n ih =>
    intro pvs m acc r h hfresh hnodup
    cases pvs with
    | nil =>
      simp [normPropsF] at h
      subst h
      simp
    | cons p rest =>
      obtain ⟨k, v⟩ := p
      by_cases hres : k ∈ reservedPropNames
      · have hrk : renameKey k = renameMarker ++ k := by
          simp [renameKey, hres]
        cases hnv : normF n v (insertRename m (renameMarker ++ k) k) with
        | none => simp [normPropsF, hres, hnv] at h
        | some rv =>
          simp [normPropsF, hres, hnv] at h
          have hacc : setKey acc (renameMarker ++ k) rv.1
              = acc ++ [(renameMarker ++ k, rv.1)] := by
            apply setKey_of_fresh
            intro q hq he
            exact hfresh (k, v) (List.mem_cons_self _ _) q hq (by rw [hrk, he])
          rw [hacc] at h
          have := ih h ?_ ?_
          · rw [this]
            simp [hrk]
          · intro p2 hp2 q hq
            rcases List.mem_append.mp hq with hq | hq
            · exact hfresh p2 (List.mem_cons_of_mem _ hp2) q hq
            · simp only [List.mem_singleton] at hq
              subst hq
              rw [List.map_cons, List.nodup_cons] at hnodup
              intro he
              have hx : renameKey k ∈ List.map (fun p => renameKey p.1) rest := by
                rw [hrk]
                have he2 : renameMarker ++ k = renameKey p2.1 := he
                rw [he2]
                exact List.mem_map_of_mem _ hp2
              exact hnodup.1 hx
          · rw [List.map_cons, List.nodup_cons] at hnodup
            exact hnodup.2
      · have hrk : renameKey k = k := by simp [renameKey, hres]
        cases hnv : normF n v m with
        | none => simp [normPropsF, hres, hnv] at h
        | some rv =>
          simp [normPropsF, hres, hnv] at h
          have hacc : setKey acc k rv.1 = acc ++ [(k, rv.1)] := by
            apply setKey_of_fresh
            intro q hq he
            exact hfresh (k, v) (List.mem_cons_self _ _) q hq (by rw [hrk, he])
          rw [hacc] at h
          have := ih h ?_ ?_
          · rw [this]
            simp [hrk]
          · intro p2 hp2 q hq
            rcases List.mem_append.mp hq with hq | hq
            · exact hfresh p2 (List.mem_cons_of_mem _ hp2) q hq
            · simp only [List.mem_singleton] at hq
              subst hq
              rw [List.map_cons, List.nodup_cons] at hnodup
              intro he
              have hx : renameKey k ∈ List.map (fun p => renameKey p.1) rest := by
                rw [hrk]
                have he2 : k = renameKey p2.1 := he
                rw [he2]
                exact List.mem_map_of_mem _ hp2
              exact hnodup.1 hx
          · rw [List.map_cons, List.nodup_cons] at hnodup
            exact hnodup.2

end Jig

namespace Jig
theorem normStepProps_obj {n : Nat} {kvs : List (String × Json)}
    {m : RenameMap} {pvs : List (String × Json)} {s1}
    (h : normStepProps n kvs m = some s1)
    (hp : getKey kvs "properties" = some (.obj pvs)) :
    ∃ n' r, n = n' + 1 ∧ normPropsF n' pvs m [] = some r
      ∧ getKey s1.1 "properties" = some (Json.obj r.1)
      ∧ getKey s1.1 "required" = getKey kvs "required" := by
  cases n with
  | zero => simp [normStepProps] at h
  | succ n =>
    cases hr : normPropsF n pvs m [] with
    | none => simp [normStepProps, hp, hr] at h
    | some r =>
      simp [normStepProps, hp, hr] at h
      subst h
      exact ⟨n, r, rfl, hr, by rw [getKey_setKey_self],
        by rw [getKey_req_setKey_props]⟩

theorem normStepProps_none {n : Nat} {kvs : List (String × Json)}
    {m : RenameMap} {s1} (h : normStepProps n kvs m = some s1)
    (hp : getKey kvs "properties" = none) : s1 = (kvs, m) := by
  cases n with
  | zero => simp [normStepProps] at h
  | succ n =>
    simp [normStepProps, hp] at h
    exact h.symm

theorem normStepItems_preserves {n : Nat} {kvs : List (String × Json)}
    {s s2} (h : normStepItems n kvs s = some s2) :
    getKey s2.1 "properties" = getKey s.1 "properties"
      ∧ getKey s2.1 "required" = getKey s.1 "required" := by
  cases n with
  | zero => simp [normStepItems] at h
  | succ n =>
    cases hi : getKey kvs "items" with
    | none =>
      simp [normStepItems, hi] at h
      subst h
      exact ⟨rfl, rfl⟩
    | some iv =>
      cases iv with
      | obj ikvs =>
        cases hr : normF n (.obj ikvs) s.2 with
        | none => simp [normStepItems, hi, hr] at h
        | some r =>
          simp [normStepItems, hi, hr] at h
          subst h
          exact ⟨by rw [getKey_props_setKey_items],
            by rw [getKey_req_setKey_items]⟩
      | arr xs =>
        cases hr : normListF n xs s.2 with
        | none => simp [normStepItems, hi, hr] at h
        | some r =>
          simp [normStepItems, hi, hr] at h
          subst h
          exact ⟨by rw [getKey_props_setKey_items],
            by rw [getKey_req_setKey_items]⟩
      | null =>
        simp [normStepItems, hi] at h
        subst h
        exact ⟨rfl, rfl⟩
      | bool b =>
        simp [normStepItems, hi] at h
        subst h
        exact ⟨rfl, rfl⟩
      | num i =>
        simp [normStepItems, hi] at h
        subst h
        exact ⟨rfl, rfl⟩
      | str s0 =>
        simp [normStepItems, hi] at h
        subst h
        exact ⟨rfl, rfl⟩

theorem normStepComp_preserves {n : Nat} {kvs : List (String × Json)}
    {key : String} {s s2} (h : normStepComp n kvs key s = some s2)
    (hk1 : key ≠ "properties") (hk2 : key ≠ "required") :
    getKey s2.1 "properties" = getKey s.1 "properties"
      ∧ getKey s2.1 "required" = getKey s.1 "required" := by
  cases n with
  | zero => simp [normStepComp] at h
  | succ n =>
    cases hi : getKey kvs key with
    | none =>
      simp [normStepComp, hi] at h
      subst h
      exact ⟨rfl, rfl⟩
    | some iv =>
      cases iv with
      | arr xs =>
        cases hr : normListF n xs s.2 with
        | none => simp [normStepComp, hi, hr] at h
        | some r =>
          simp [normStepComp, hi, hr] at h
          subst h
          exact ⟨getKey_setKey_ne _ _ hk1, getKey_setKey_ne _ _ hk2⟩
      | obj kvs2 =>
        simp [normStepComp, hi] at h
        subst h
        exact ⟨rfl, rfl⟩
      | null =>
        simp [normStepComp, hi] at h
        subst h
        exact ⟨rfl, rfl⟩
      | bool b =>
        simp [normStepComp, hi] at h
        subst h
        exact ⟨rfl, rfl⟩
      | num i =>
        simp [normStepComp, hi] at h
        subst h
        exact ⟨rfl, rfl⟩
      | str s0 =>
        simp [normStepComp, hi] at h
        subst h
        exact ⟨rfl, rfl⟩

theorem normStepDefs_elim {n : Nat} {kvs : List (String × Json)}
    {s : List (String × Json) × RenameMap} {t : Json} {m' : RenameMap}
    (h : normStepDefs n kvs s = some (t, m')) :
    ∃ t2, t = Json.obj t2 ∧ getKey t2 "properties" = getKey s.1 "properties"
      ∧ getKey t2 "required" = getKey s.1 "required" := by
  cases n with
  | zero => simp [normStepDefs] at h
  | succ n =>
    cases hd : getKey kvs "$defs" with
    | none =>
      simp [normStepDefs, hd] at h
      exact ⟨s.1, h.1.symm, rfl, rfl⟩
    | some dv =>
      cases dv with
      | obj dvs =>
        cases hr : normDefsF n dvs s.2 with
        | none => simp [normStepDefs, hd, hr] at h
        | some r =>
          simp [normStepDefs, hd, hr] at h
          exact ⟨setKey s.1 "$defs" (Json.obj r.1), h.1.symm,
            getKey_setKey_ne _ _ (by decide), getKey_setKey_ne _ _ (by decide)⟩
      | null =>
        simp [normStepDefs, hd] at h
        exact ⟨s.1, h.1.symm, rfl, rfl⟩
      | bool b =>
        simp [normStepDefs, hd] at h
        exact ⟨s.1, h.1.symm, rfl, rfl⟩
      | num i =>
        simp [normStepDefs, hd] at h
        exact ⟨s.1, h.1.symm, rfl, rfl⟩
      | str s0 =>
        simp [normStepDefs, hd] at h
        exact ⟨s.1, h.1.symm, rfl, rfl⟩
      | arr xs =>
        simp [normStepDefs, hd] at h
        exact ⟨s.1, h.1.symm, rfl, rfl⟩

theorem normStepRequired_true {kvs : List (String × Json)} {s s3}
    (h : normStepRequired kvs s = some s3)
    (hreq : getKey kvs "required" = some (.bool true)) :
    (∃ npvs, getKey s.1 "properties" = some (Json.obj npvs)
       ∧ getKey s3.1 "required"
           = some (Json.arr (npvs.map (fun p => Json.str p.1)))
       ∧ getKey s3.1 "properties" = getKey s.1 "properties")
    ∨ (getKey s.1 "properties" = none
       ∧ getKey s3.1 "required" = some (Json.arr [])
       ∧ getKey s3.1 "properties" = getKey s.1 "properties") := by
  cases hgp : getKey s.1 "properties" with
  | none =>
    simp [normStepRequired, hreq, requiredFromProps, hgp] at h
    subst h
    exact Or.inr ⟨rfl, by rw [getKey_setKey_self],
      by rw [getKey_props_setKey_req, hgp]⟩
  | some pv =>
    cases pv with
    | obj npvs =>
      simp [normStepRequired, hreq, requiredFromProps, hgp] at h
      subst h
      exact Or.inl ⟨npvs, rfl, by rw [getKey_setKey_self],
        by rw [getKey_props_setKey_req, hgp]⟩
    | null => simp [normStepRequired, hreq, requiredFromProps, hgp] at h
    | bool b => simp [normStepRequired, hreq, requiredFromProps, hgp] at h
    | num i => simp [normStepRequired, hreq, requiredFromProps, hgp] at h
    | str s0 => simp [normStepRequired, hreq, requiredFromProps, hgp] at h
    | arr xs => simp [normStepRequired, hreq, requiredFromProps, hgp] at h

theorem fixEntries_id : ∀ {rs : List Json},
    (∀ e ∈ rs, ∃ s2, e = Json.str s2 ∧ s2 ∉ reservedPropNames) →
    fixEntries rs = some rs := by
  intro rs
  induction rs with
  | nil => intro _; rfl
  | cons x rest ih =>
    intro hall
    obtain ⟨s2, rfl, hs2⟩ := hall x (List.mem_cons_self _ _)
    have := ih fun e he => hall e (List.mem_cons_of_mem _ he)
    simp [fixEntries, this, hs2]



end Jig

namespace Jig

theorem normStepProps_other {n : Nat} {kvs : List (String × Json)}
    {m : RenameMap} {s1} (h : normStepProps n kvs m = some s1)
    (hp : ∀ pvs, getKey kvs "properties" ≠ some (.obj pvs)) :
    s1 = (kvs, m) := by
  cases n with
  | zero => simp [normStepProps] at h
  | succ n =>
    cases hg : getKey kvs "properties" with
    | none =>
      simp [normStepProps, hg] at h
      exact h.symm
    | some pv =>
      cases pv
      case obj pvs => exact (hp pvs hg).elim
      all_goals
        simp [normStepProps, hg] at h
        exact h.symm

/-- What `_norm` does to an object node whose original `required` is the
boolean `true` (src/jig/utils.py lines 120-122): the output is an object
whose `required` lists the keys of the renamed `properties` dict, in
order, or the empty sequence when `properties` is absent. -/
theorem normF_required_true {n : Nat} {kvs : List (String × Json)}
    {m : RenameMap} {t : Json} {m' : RenameMap}
    (h : normF n (.obj kvs) m = some (t, m'))
    (hreq : getKey kvs "required" = some (.bool true)) :
    ∃ t2, t = Json.obj t2
      ∧ ((∃ n2 pvs r, getKey kvs "properties" = some (Json.obj pvs)
            ∧ normPropsF n2 pvs m [] = some r
            ∧ getKey t2 "properties" = some (Json.obj r.1)
            ∧ getKey t2 "required"
                = some (Json.arr (r.1.map (fun p => Json.str p.1))))
         ∨ (getKey kvs "properties" = none
            ∧ getKey t2 "properties" = none
            ∧ getKey t2 "required" = some (Json.arr []))) := by
  cases n with
  | zero => simp [normF] at h
  | succ n =>
    simp only [normF, bind, Option.bind] at h
    cases h1 : normStepProps n kvs m with
    | none => simp [h1] at h
    | some s1 =>
    simp only [h1] at h
    cases h2 : normStepItems n kvs s1 with
    | none => simp [h2] at h
    | some s2 =>
    simp only [h2] at h
    cases h3 : normStepRequired kvs s2 with
    | none => simp [h3] at h
    | some s3 =>
    simp only [h3] at h
    cases h4 : normStepComp n kvs "anyOf" s3 with
    | none => simp [h4] at h
    | some s4 =>
    simp only [h4] at h
    cases h5 : normStepComp n kvs "oneOf" s4 with
    | none => simp [h5] at h
    | some s5 =>
    simp only [h5] at h
    cases h6 : normStepComp n kvs "allOf" s5 with
    | none => simp [h6] at h
    | some s6 =>
    simp only [h6] at h
    obtain ⟨t2, rfl, hp7, hr7⟩ := normStepDefs_elim h
    have hi2 := normStepItems_preserves h2
    have hc4 := normStepComp_preserves h4 (by decide) (by decide)
    have hc5 := normStepComp_preserves h5 (by decide) (by decide)
    have hc6 := normStepComp_preserves h6 (by decide) (by decide)
    have hreq3 := normStepRequired_true h3 hreq
    refine ⟨t2, rfl, ?_⟩
    cases hg : getKey kvs "properties" with
    | some pv =>
      cases pv
      case obj pvs =>
        obtain ⟨n2, r, hn2, hnp, hs1p, hs1r⟩ := normStepProps_obj h1 hg
        have hs2p : getKey s2.1 "properties" = some (Json.obj r.1) := by
          rw [hi2.1, hs1p]
        cases hreq3 with
        | inr hcase => rw [hcase.1] at hs2p; exact absurd hs2p (by simp)
        | inl hcase =>
          obtain ⟨npvs, hnpvs, hs3r, hs3p⟩ := hcase
          rw [hs2p] at hnpvs
          have hnp2 : npvs = r.1 := by
            have := Option.some.inj hnpvs
            exact (Json.obj.inj this).symm
          subst hnp2
          refine Or.inl ⟨n2, pvs, r, rfl, hnp, ?_, ?_⟩
          · rw [hp7, hc6.1, hc5.1, hc4.1, hs3p, hs2p]
          · rw [hr7, hc6.2, hc5.2, hc4.2, hs3r]
      all_goals
        have hs1e : s1 = (kvs, m) := normStepProps_other h1 (by rw [hg]; intro pvs hx; exact absurd (Option.some.inj hx) (by simp))
        have hs2p : getKey s2.1 "properties" = getKey kvs "properties" := by
          rw [hi2.1, hs1e]
        cases hreq3 with
        | inl hcase =>
          obtain ⟨npvs, hnpvs, _, _⟩ := hcase
          rw [hs2p, hg] at hnpvs
          exact absurd (Option.some.inj hnpvs) (by simp)
        | inr hcase =>
          rw [hcase.1, hg] at hs2p
          exact absurd hs2p.symm (by simp)
    | none =>
      have hs1e : s1 = (kvs, m) := normStepProps_other h1 (by rw [hg]; intro pvs hx; exact absurd hx (by simp))
      have hs2p : getKey s2.1 "properties" = none := by
        rw [hi2.1, hs1e]; exact hg
      cases hreq3 with
      | inl hcase =>
        obtain ⟨npvs, hnpvs, _, _⟩ := hcase
        rw [hs2p] at hnpvs
        exact absurd hnpvs (by simp)
      | inr hcase =>
        obtain ⟨_, hs3r, hs3p⟩ := hcase
        refine Or.inr ⟨rfl, ?_, ?_⟩
        · rw [hp7, hc6.1, hc5.1, hc4.1, hs3p, hs2p]
        · rw [hr7, hc6.2, hc5.2, hc4.2, hs3r]

end Jig

namespace Jig
end Jig

namespace Jig

/-- The invariant maintained on the rename map while `_norm` runs: every
entry maps `_prop_<k>` back to a reserved `k` (the only insertion site is
`rename_map[new_name] = k` with `k in _RESERVED_PROP_NAMES`,
src/jig/utils.py lines 104-107), and the keys are distinct (it is a
Python dict). -/
def renameOk (m : RenameMap) : Prop :=
  (∀ p ∈ m, p.2 ∈ reservedPropNames ∧ p.1 = renameMarker ++ p.2)
  ∧ (m.map Prod.fst).Nodup

theorem insertRename_keys_sub : ∀ {m : RenameMap} {nk ok x : String},
    x ∈ (insertRename m nk ok).map Prod.fst →
    x ∈ m.map Prod.fst ∨ x = nk := by
  intro m
  induction m with
  | nil =>
    intro nk ok x hx
    simp only [insertRename, List.map_cons, List.map_nil,
      List.mem_singleton] at hx
    exact Or.inr hx
  | cons a rest ih =>
    obtain ⟨k0, v0⟩ := a
    intro nk ok x hx
    by_cases hk : k0 = nk
    · rw [show insertRename ((k0, v0) :: rest) nk ok = (nk, ok) :: rest
          from by simp [insertRename, hk]] at hx
      rw [List.map_cons] at hx
      cases List.mem_cons.mp hx with
      | inl h => exact Or.inr h
      | inr h =>
        exact Or.inl (by rw [List.map_cons]; exact List.mem_cons_of_mem _ h)
    · rw [show insertRename ((k0, v0) :: rest) nk ok
            = (k0, v0) :: insertRename rest nk ok
          from by simp [insertRename, hk]] at hx
      rw [List.map_cons] at hx
      cases List.mem_cons.mp hx with
      | inl h =>
        exact Or.inl (by rw [List.map_cons, h]; exact List.mem_cons_self _ _)
      | inr h =>
        cases ih h with
        | inl h2 =>
          exact Or.inl (by rw [List.map_cons]; exact List.mem_cons_of_mem _ h2)
        | inr h2 => exact Or.inr h2

theorem renameOk_insert : ∀ {m : RenameMap} {k : String},
    renameOk m → k ∈ reservedPropNames →
    renameOk (insertRename m (renameMarker ++ k) k) := by
  intro m
  induction m with
  | nil =>
    intro k _ hk
    constructor
    · intro p hp
      simp only [insertRename, List.mem_singleton] at hp
      subst hp
      exact ⟨hk, rfl⟩
    · simp [insertRename]
  | cons a rest ih =>
    obtain ⟨k0, v0⟩ := a
    intro k hm hk
    have hmr : renameOk rest :=
      ⟨fun p hp => hm.1 p (List.mem_cons_of_mem _ hp),
       (List.nodup_cons.mp hm.2).2⟩
    have hk0 : k0 ∉ rest.map Prod.fst :=
      (List.nodup_cons.mp hm.2).1
    by_cases hak : k0 = renameMarker ++ k
    · rw [show insertRename ((k0, v0) :: rest) (renameMarker ++ k) k
            = (renameMarker ++ k, k) :: rest
          from by simp [insertRename, hak]]
      constructor
      · intro p hp
        cases List.mem_cons.mp hp with
        | inl h => subst h; exact ⟨hk, rfl⟩
        | inr h => exact hm.1 p (List.mem_cons_of_mem _ h)
      · rw [List.map_cons]
        exact List.nodup_cons.mpr ⟨by rw [← hak]; exact hk0, hmr.2⟩
    · rw [show insertRename ((k0, v0) :: rest) (renameMarker ++ k) k
            = (k0, v0) :: insertRename rest (renameMarker ++ k) k
          from by simp [insertRename, hak]]
      have hir := ih hmr hk
      constructor
      · intro p hp
        cases List.mem_cons.mp hp with
        | inl h => subst h; exact hm.1 (k0, v0) (List.mem_cons_self _ _)
        | inr h => exact hir.1 p h
      · rw [List.map_cons]
        refine List.nodup_cons.mpr ⟨?_, hir.2⟩
        intro hx
        cases insertRename_keys_sub hx with
        | inl h2 => exact hk0 h2
        | inr h2 => exact hak h2

end Jig

namespace Jig

theorem normStepRequired_map {kvs : List (String × Json)} {s s3}
    (h : normStepRequired kvs s = some s3) : s3.2 = s.2 := by
  unfold normStepRequired at h
  cases hr : getKey kvs "required" with
  | none =>
    rw [hr] at h
    cases hp : getKey s.1 "properties" with
    | none => simp [hp] at h; rw [← h]
    | some pv =>
      cases pv <;> rw [hp] at h <;> simp at h <;> first
        | (rw [← h])
        | (split at h <;> simp at h <;> rw [← h])
  | some rv =>
    rw [hr] at h
    cases rv with
    | arr rs =>
      simp at h
      split at h
      · simp at h; rw [← h]
      · cases ho : requiredOtherShape s.1 with
        | none => simp [ho] at h
        | some o => simp [ho] at h; rw [← h]
    | bool b =>
      simp at h
      cases b with
      | true =>
        simp at h
        cases ho : requiredFromProps s.1 with
        | none => simp [ho] at h
        | some o => simp [ho] at h; rw [← h]
      | false => simp at h; rw [← h]
    | obj rkvs => simp at h; rw [← h]
    | null =>
      cases hp : getKey s.1 "properties" with
      | none => simp [hp] at h; rw [← h]
      | some pv =>
        cases pv <;> rw [hp] at h <;> simp at h <;> first
          | (rw [← h])
          | (split at h <;> simp at h <;> rw [← h])
    | num i =>
      simp at h
      cases ho : requiredOtherShape s.1 with
      | none => simp [ho] at h
      | some o => simp [ho] at h; rw [← h]
    | str s0 =>
      simp at h
      cases ho : requiredOtherShape s.1 with
      | none => simp [ho] at h
      | some o => simp [ho] at h; rw [← h]

end Jig

namespace Jig

/-- The whole `_norm` family preserves the rename-map invariant: the only
write to the map is the reserved-key insertion inside the properties
loop. -/
theorem renameOk_norm : ∀ n : Nat,
    (∀ j m r, normF n j m = some r → renameOk m → renameOk r.2)
    ∧ (∀ kvs m s1, normStepProps n kvs m = some s1 → renameOk m → renameOk s1.2)
    ∧ (∀ kvs s s2, normStepItems n kvs s = some s2 → renameOk s.2 → renameOk s2.2)
    ∧ (∀ kvs key s s2, normStepComp n kvs key s = some s2 → renameOk s.2 → renameOk s2.2)
    ∧ (∀ kvs s s2, normStepDefs n kvs s = some s2 → renameOk s.2 → renameOk s2.2)
    ∧ (∀ pvs m acc r, normPropsF n pvs m acc = some r → renameOk m → renameOk r.2)
    ∧ (∀ xs m r, normListF n xs m = some r → renameOk m → renameOk r.2)
    ∧ (∀ dvs m r, normDefsF n dvs m = some r → renameOk m → renameOk r.2) := by
  intro n
  induction n with
  | zero =>
    refine ⟨?_, ?_, ?_, ?_, ?_, ?_, ?_, ?_⟩
    · intro j m r h; simp [normF] at h
    · intro kvs m s1 h; simp [normStepProps] at h
    · intro kvs s s2 h; simp [normStepItems] at h
    · intro kvs key s s2 h; simp [normStepComp] at h
    · intro kvs s s2 h; simp [normStepDefs] at h
    · intro pvs m acc r h; simp [normPropsF] at h
    · intro xs m r h; simp [normListF] at h
    · intro dvs m r h; simp [normDefsF] at h
  | succ n ih =>
    obtain ⟨ihF, ihP, ihI, ihC, ihD, ihPr, ihL, ihDf⟩ := ih
    refine ⟨?_, ?_, ?_, ?_, ?_, ?_, ?_, ?_⟩
    · -- normF
      intro j m r h hm
      cases j with
      | obj kvs =>
        simp only [normF, bind, Option.bind] at h
        cases h1 : normStepProps n kvs m with
        | none => simp [h1] at h
        | some s1 =>
        simp only [h1] at h
        cases h2 : normStepItems n kvs s1 with
        | none => simp [h2] at h
        | some s2 =>
        simp only [h2] at h
        cases h3 : normStepRequired kvs s2 with
        | none => simp [h3] at h
        | some s3 =>
        simp only [h3] at h
        cases h4 : normStepComp n kvs "anyOf" s3 with
        | none => simp [h4] at h
        | some s4 =>
        simp only [h4] at h
        cases h5 : normStepComp n kvs "oneOf" s4 with
        | none => simp [h5] at h
        | some s5 =>
        simp only [h5] at h
        cases h6 : normStepComp n kvs "allOf" s5 with
        | none => simp [h6] at h
        | some s6 =>
        simp only [h6] at h
        have g1 := ihP kvs m s1 h1 hm
        have g2 := ihI kvs s1 s2 h2 g1
        have g3 : renameOk s3.2 := by rw [normStepRequired_map h3]; exact g2
        have g4 := ihC kvs "anyOf" s3 s4 h4 g3
        have g5 := ihC kvs "oneOf" s4 s5 h5 g4
        have g6 := ihC kvs "allOf" s5 s6 h6 g5
        exact ihD kvs s6 r h g6
      | null => simp [normF] at h; rw [← h]; exact hm
      | bool b => simp [normF] at h; rw [← h]; exact hm
      | num i => simp [normF] at h; rw [← h]; exact hm
      | str s0 => simp [normF] at h; rw [← h]; exact hm
      | arr xs => simp [normF] at h; rw [← h]; exact hm
    · -- normStepProps
      intro kvs m s1 h hm
      cases hp : getKey kvs "properties" with
      | none =>
        simp [normStepProps, hp] at h
        rw [← h]; exact hm
      | some pv =>
        cases pv
        case obj pvs =>
          cases hr : normPropsF n pvs m [] with
          | none => simp [normStepProps, hp, hr] at h
          | some r =>
            simp [normStepProps, hp, hr] at h
            rw [← h]
            exact ihPr pvs m [] r hr hm
        all_goals
          simp [normStepProps, hp] at h
          rw [← h]; exact hm
    · -- normStepItems
      intro kvs s s2 h hm
      cases hi : getKey kvs "items" with
      | none =>
        simp [normStepItems, hi] at h
        rw [← h]; exact hm
      | some iv =>
        cases iv
        case obj ikvs =>
          cases hr : normF n (.obj ikvs) s.2 with
          | none => simp [normStepItems, hi, hr] at h
          | some r =>
            simp [normStepItems, hi, hr] at h
            rw [← h]
            exact ihF (.obj ikvs) s.2 r hr hm
        case arr xs =>
          cases hr : normListF n xs s.2 with
          | none => simp [normStepItems, hi, hr] at h
          | some r =>
            simp [normStepItems, hi, hr] at h
            rw [← h]
            exact ihL xs s.2 r hr hm
        all_goals
          simp [normStepItems, hi] at h
          rw [← h]; exact hm
    · -- normStepComp
      intro kvs key s s2 h hm
      cases hi : getKey kvs key with
      | none =>
        simp [normStepComp, hi] at h
        rw [← h]; exact hm
      | some iv =>
        cases iv
        case arr xs =>
          cases hr : normListF n xs s.2 with
          | none => simp [normStepComp, hi, hr] at h
          | some r =>
            simp [normStepComp, hi, hr] at h
            rw [← h]
            exact ihL xs s.2 r hr hm
        all_goals
          simp [normStepComp, hi] at h
          rw [← h]; exact hm
    · -- normStepDefs
      intro kvs s s2 h hm
      cases hd : getKey kvs "$defs" with
      | none =>
        simp [normStepDefs, hd] at h
        rw [← h]; exact hm
      | some dv =>
        cases dv
        case obj dvs =>
          cases hr : normDefsF n dvs s.2 with
          | none => simp [normStepDefs, hd, hr] at h
          | some r =>
            simp [normStepDefs, hd, hr] at h
            rw [← h]
            exact ihDf dvs s.2 r hr hm
        all_goals
          simp [normStepDefs, hd] at h
          rw [← h]; exact hm
    · -- normPropsF
      intro pvs m acc r h hm
      cases pvs with
      | nil =>
        simp [normPropsF] at h
        rw [← h]; exact hm
      | cons p rest =>
        obtain ⟨k, v⟩ := p
        by_cases hk : k ∈ reservedPropNames
        · cases hr : normF n v (insertRename m (renameMarker ++ k) k) with
          | none => simp [normPropsF, hk, hr] at h
          | some r1 =>
            simp only [normPropsF, hk, if_pos hk, hr, Option.bind,
              bind] at h
            exact ihPr rest r1.2 _ r h
              (ihF v _ r1 hr (renameOk_insert hm hk))
        · cases hr : normF n v m with
          | none => simp [normPropsF, hk, hr] at h
          | some r1 =>
            simp only [normPropsF, hk, if_neg hk, hr, Option.bind,
              bind] at h
            exact ihPr rest r1.2 _ r h (ihF v m r1 hr hm)
    · -- normListF
      intro xs m r h hm
      cases xs with
      | nil =>
        simp [normListF] at h
        rw [← h]; exact hm
      | cons x rest =>
        cases x
        case obj kvs =>
          cases hr : normF n (.obj kvs) m with
          | none => simp [normListF, hr] at h
          | some r1 =>
            cases hr2 : normListF n rest r1.2 with
            | none => simp [normListF, hr, hr2] at h
            | some r2 =>
              simp [normListF, hr, hr2] at h
              rw [← h]
              exact ihL rest r1.2 r2 hr2 (ihF (.obj kvs) m r1 hr hm)
        all_goals
          cases hr2 : normListF n rest m with
          | none => simp [normListF, hr2] at h
          | some r2 =>
            simp [normListF, hr2] at h
            rw [← h]
            exact ihL rest m r2 hr2 hm
    · -- normDefsF
      intro dvs m r h hm
      cases dvs with
      | nil =>
        simp [normDefsF] at h
        rw [← h]; exact hm
      | cons p rest =>
        obtain ⟨k, v⟩ := p
        cases v
        case obj kvs =>
          cases hr : normF n (.obj kvs) m with
          | none => simp [normDefsF, hr] at h
          | some r1 =>
            cases hr2 : normDefsF n rest r1.2 with
            | none => simp [normDefsF, hr, hr2] at h
            | some r2 =>
              simp [normDefsF, hr, hr2] at h
              rw [← h]
              exact ihDf rest r1.2 r2 hr2 (ihF (.obj kvs) m r1 hr hm)
        all_goals
          cases hr2 : normDefsF n rest m with
          | none => simp [normDefsF, hr2] at h
          | some r2 =>
            simp [normDefsF, hr2] at h
            rw [← h]
            exact ihDf rest m r2 hr2 hm

end Jig

namespace Jig

theorem renameOk_length {m : RenameMap} (hm : renameOk m) :
    m.length ≤ 5 := by
  have hmap : m.map Prod.fst
      = (m.map Prod.snd).map (fun s => renameMarker ++ s) := by
    rw [List.map_map]
    apply List.map_congr_left
    intro p hp
    exact (hm.1 p hp).2
  have hsnd : (m.map Prod.snd).Nodup := by
    have h2 := hm.2
    rw [hmap] at h2
    exact h2.of_map _
  have hsub : m.map Prod.snd ⊆ reservedPropNames := by
    intro x hx
    obtain ⟨p, hp, rfl⟩ := List.mem_map.mp hx
    exact (hm.1 p hp).1
  have hlen : (m.map Prod.snd).length ≤ reservedPropNames.length :=
    (List.subperm_of_subset hsnd hsub).length_le
  rw [List.length_map] at hlen
  exact le_trans hlen (by decide)

/-- C9: every entry of the rename map returned by
`normalize_schema_for_backend` sends `_prop_<k>` back to a reserved name
`k`, so the map can have at most five entries. -/
theorem claim_C9_rename_map {s t : Json} {m : RenameMap}
    (h : normalize_schema_for_backend s = some (t, m)) :
    (∀ p ∈ m, p.2 ∈ reservedPropNames ∧ p.1 = renameMarker ++ p.2)
    ∧ m.length ≤ 5 := by
  have hok : renameOk m := by
    cases s with
    | obj kvs =>
      by_cases he : kvs.isEmpty
      · simp [normalize_schema_for_backend, he] at h
        rw [h.2]
        exact ⟨by simp, by simp⟩
      · cases hn : norm (.obj kvs) [] with
        | none =>
          simp [normalize_schema_for_backend, he, hn] at h
        | some r =>
          cases hf : fixReq r.1 with
          | none =>
            simp [normalize_schema_for_backend, he, hn, hf] at h
          | some tf =>
            simp [normalize_schema_for_backend, he, hn, hf] at h
            rw [← h.2]
            cases r with
            | mk r1 r2 =>
              exact (renameOk_norm _).1 _ _ _ hn ⟨by simp, by simp⟩
    | null =>
      simp [normalize_schema_for_backend] at h
      rw [h.2]
      exact ⟨by simp, by simp⟩
    | bool b =>
      simp [normalize_schema_for_backend] at h
      rw [h.2]
      exact ⟨by simp, by simp⟩
    | num i =>
      simp [normalize_schema_for_backend] at h
      rw [h.2]
      exact ⟨by simp, by simp⟩
    | str s0 =>
      simp [normalize_schema_for_backend] at h
      rw [h.2]
      exact ⟨by simp, by simp⟩
    | arr xs =>
      simp [normalize_schema_for_backend] at h
      rw [h.2]
      exact ⟨by simp, by simp⟩
  exact ⟨hok.1, renameOk_length hok⟩

/-- Witness for C9 at the schema of C2, whose rename map is the
single entry `_prop_required -> required`. -/
theorem claim_C9_rename_map_witness :
    (∀ p ∈ ([("_prop_required", "required")] : RenameMap),
        p.2 ∈ reservedPropNames ∧ p.1 = renameMarker ++ p.2)
    ∧ ([("_prop_required", "required")] : RenameMap).length ≤ 5 :=
  @claim_C9_rename_map
    (Json.obj [("type", Json.str "object"),
      ("properties", Json.obj [("required", Json.obj [("type", Json.str "string")]),
                               ("name", Json.obj [("type", Json.str "string")])]),
      ("required", Json.bool true)])
    (Json.obj [("type", Json.str "object"),
      ("properties", Json.obj [("_prop_required", Json.obj [("type", Json.str "string")]),
                               ("name", Json.obj [("type", Json.str "string")])]),
      ("required", Json.arr [Json.str "_prop_required", Json.str "name"])])
    [("_prop_required", "required")]
    (by decide)

end Jig

namespace Jig

/-- C7: `preflight` of both clients is a total function of the request
outcome: every branch (connection error, any other exception, empty model
list, bad entry, success) lands in one of the two `except` handlers or a
`return`, producing a `(bool, message)` pair, and the boolean is `true`
exactly on the good case (non-empty well-formed model list). -/
theorem claim_C7_preflight_total (bu : String) (f : Fetch) :
    (preflightLM bu f).1 = lmFetchGood f
    ∧ (preflightOllama bu f).1 = ollamaFetchGood f := by
  constructor
  · cases f with
    | reqError m => rfl
    | excError m => rfl
    | payload body =>
      cases body
      case obj kvs =>
        cases hd : getKey kvs "data" with
        | none => simp [preflightLM, lmFetchGood, getModelsLM, hd]
        | some dv =>
          cases dv
          case arr xs =>
            cases hxe : xs.isEmpty with
            | true => simp [preflightLM, lmFetchGood, getModelsLM, hd, hxe]
            | false =>
              cases hn : modelNamesLM xs with
              | none =>
                simp [preflightLM, lmFetchGood, getModelsLM, hd, hxe, hn]
              | some names =>
                simp [preflightLM, lmFetchGood, getModelsLM, hd, hxe, hn]
          all_goals simp [preflightLM, lmFetchGood, getModelsLM, hd]
      all_goals rfl
  · cases f with
    | reqError m => rfl
    | excError m => rfl
    | payload body =>
      cases body
      case obj kvs =>
        cases hd : getKey kvs "models" with
        | none => simp [preflightOllama, ollamaFetchGood, getModelsOllama, hd]
        | some dv =>
          cases dv
          case arr xs =>
            cases hxe : xs.isEmpty with
            | true =>
              simp [preflightOllama, ollamaFetchGood, getModelsOllama, hd, hxe]
            | false =>
              cases hn : modelNamesOllama xs with
              | none =>
                simp [preflightOllama, ollamaFetchGood, getModelsOllama,
                  hd, hxe, hn]
              | some names =>
                simp [preflightOllama, ollamaFetchGood, getModelsOllama,
                  hd, hxe, hn]
          all_goals simp [preflightOllama, ollamaFetchGood, getModelsOllama, hd]
      all_goals rfl

end Jig

namespace Jig

theorem lookupFiles_append_left : ∀ {l1 : FS} {name : String} {v} (l2 : FS),
    lookupFiles l1 name = some v →
    lookupFiles (l1 ++ l2) name = some v := by
  intro l1
  induction l1 with
  | nil => intro name v l2 h; simp [lookupFiles] at h
  | cons d rest ih =>
    intro name v l2 h
    obtain ⟨d1, d2⟩ := d
    by_cases hd : d1 = name
    · subst hd
      simp [lookupFiles] at h ⊢
      exact h
    · simp [lookupFiles, hd] at h ⊢
      exact ih l2 h

theorem lookupFiles_append_right : ∀ {l1 : FS} {name : String} (l2 : FS),
    lookupFiles l1 name = none →
    lookupFiles (l1 ++ l2) name = lookupFiles l2 name := by
  intro l1
  induction l1 with
  | nil => intro name l2 _; rfl
  | cons d rest ih =>
    intro name l2 h
    obtain ⟨d1, d2⟩ := d
    by_cases hd : d1 = name
    · simp [lookupFiles, hd] at h
    · simp [lookupFiles, hd] at h ⊢
      exact ih l2 h

theorem lookupFiles_rename : ∀ {fs : FS} {target backup : String},
    backup ≠ target →
    lookupFiles fs backup = none →
    lookupFiles (renameDirs fs target backup) backup = lookupFiles fs target
    ∧ lookupFiles (renameDirs fs target backup) target = none := by
  intro fs
  induction fs with
  | nil => intro target backup _ _; exact ⟨rfl, rfl⟩
  | cons d rest ih =>
    intro target backup hne hfresh
    obtain ⟨d1, d2⟩ := d
    have hd1b : d1 ≠ backup := by
      intro hx
      simp [lookupFiles, hx] at hfresh
    have hfresh' : lookupFiles rest backup = none := by
      simp only [lookupFiles, if_neg hd1b] at hfresh
      exact hfresh
    obtain ⟨ih1, ih2⟩ := ih hne hfresh'
    by_cases hd : d1 = target
    · subst hd
      have hhd : renameDirs ((d1, d2) :: rest) d1 backup
          = (backup, d2) :: renameDirs rest d1 backup := by
        rw [renameDirs, if_pos rfl]
      rw [hhd]
      constructor
      · simp [lookupFiles]
      · simp [lookupFiles, hne]
        exact ih2
    · have hhd : renameDirs ((d1, d2) :: rest) target backup
          = (d1, d2) :: renameDirs rest target backup := by
        rw [renameDirs, if_neg hd]
      rw [hhd]
      constructor
      · simp [lookupFiles, hd, hd1b]
        exact ih1
      · simp [lookupFiles, hd]
        exact ih2

theorem backup_ne_target (target now : String) :
    target ++ "_backup_" ++ now ≠ target := by
  intro h
  have hlen := congrArg String.length h
  rw [String.length_append, String.length_append] at hlen
  have h8 : ("_backup_" : String).length = 8 := by decide
  omega

/-- C8: when the target directory exists with content,
`PairingRepository.save` first renames it to the timestamped backup name
and then writes into a fresh directory: afterwards the old files are all
present under the backup name and the target holds exactly the three new
files, so nothing is overwritten in place (provided the backup name
itself is not taken, in which case `Path.rename` would raise instead of
overwriting). -/
theorem claim_C8_save_backs_up {fs : FS} {name st pt mt now : String}
    {files : List (String × String)}
    (hfs : lookupFiles fs (sanitize_filename name) = some files)
    (hne : files.isEmpty = false)
    (hfresh : lookupFiles fs
        (sanitize_filename name ++ "_backup_" ++ now) = none) :
    ∃ fs2, PairingRepository.save fs name st pt mt now = .ok fs2
      ∧ lookupFiles fs2 (sanitize_filename name ++ "_backup_" ++ now)
          = some files
      ∧ lookupFiles fs2 (sanitize_filename name)
          = some (pairingFiles st pt mt) := by
  have hb := backup_ne_target (sanitize_filename name) now
  obtain ⟨hr1, hr2⟩ := lookupFiles_rename hb hfresh
  refine ⟨renameDirs fs (sanitize_filename name)
        (sanitize_filename name ++ "_backup_" ++ now)
      ++ [(sanitize_filename name, pairingFiles st pt mt)], ?_, ?_, ?_⟩
  · simp only [PairingRepository.save, hfs, hne, hfresh]
    simp
  · rw [lookupFiles_append_left _ (by rw [hr1]; exact hfs)]
  · rw [lookupFiles_append_right _ hr2]
    simp [lookupFiles]

/-- Witness for C8: saving over the existing non-empty pairing `demo`
moves its old file under `demo_backup_20250101_000000` and writes the
three fresh files. -/
theorem claim_C8_save_backs_up_witness :
    ∃ fs2, PairingRepository.save
        [("demo", [("schema.json", "old")])] "Demo" "S" "P" "M"
        "20250101_000000"
      = .ok fs2
      ∧ lookupFiles fs2 ("demo" ++ "_backup_" ++ "20250101_000000")
          = some [("schema.json", "old")]
      ∧ lookupFiles fs2 "demo" = some (pairingFiles "S" "P" "M") := by
  have h := @claim_C8_save_backs_up
    [("demo", [("schema.json", "old")])] "Demo" "S" "P" "M"
    "20250101_000000" [("schema.json", "old")]
    (by decide) (by decide) (by decide)
  have hsan : sanitize_filename "Demo" = "demo" := by decide
  rw [hsan] at h
  exact h

end Jig

namespace Jig

/-- Modelled from the corrected wording for the Ollama client: the
needle is the configured name cut at the first colon and lowercased, and
an id matches when its lowercase form contains the needle or starts with
it. -/
def resolvePolicyOllamaNeedle (model : Option String) (ids : List String) :
    Option String :=
  match ids with
  | [] => none
  | i0 :: _ =>
    match model with
    | some mdl =>
      if mdl = "" then some i0
      else if mdl ∈ ids then some mdl
      else
        let short := strLower (colonShort mdl)
        match ids.filter (fun mid =>
            strIn short (strLower mid)
              || listStarts short.toList (strLower mid).toList) with
        | [u] => some u
        | _ => none
    | none => some i0

theorem lm_follows_policy (bu : String) (model : Option String)
    (ids : List String) :
    resolvedId (ensureModelLM bu model ids) = resolvePolicy model ids := by
  cases ids with
  | nil => cases model <;> rfl
  | cons i0 rest =>
    cases model with
    | none => rfl
    | some mdl =>
      by_cases h1 : mdl = ""
      · simp [ensureModelLM, resolvePolicy, h1, resolvedId]
      · by_cases h2 : mdl ∈ i0 :: rest
        · simp [ensureModelLM, resolvePolicy, h1, h2, resolvedId]
        · cases hf : (i0 :: rest).filter
              (fun mid => strIn (strLower mdl) (strLower mid)) with
          | nil =>
            simp [ensureModelLM, resolvePolicy, h1, h2, hf, resolvedId]
          | cons p ps =>
            cases ps with
            | nil =>
              simp [ensureModelLM, resolvePolicy, h1, h2, hf, resolvedId]
            | cons q qs =>
              simp [ensureModelLM, resolvePolicy, h1, h2, hf, resolvedId]

theorem ollama_follows_needle_policy (bu : String) (model : Option String)
    (ids : List String) :
    resolvedId (ensureModelOllama bu model ids)
      = resolvePolicyOllamaNeedle model ids := by
  cases ids with
  | nil => cases model <;> rfl
  | cons i0 rest =>
    cases model with
    | none => rfl
    | some mdl =>
      by_cases h1 : mdl = ""
      · simp [ensureModelOllama, resolvePolicyOllamaNeedle, h1, resolvedId]
      · by_cases h2 : mdl ∈ i0 :: rest
        · simp [ensureModelOllama, resolvePolicyOllamaNeedle, h1, h2,
            resolvedId]
        · cases hf : (i0 :: rest).filter
              (fun mid => strIn (strLower (colonShort mdl)) (strLower mid)
                || listStarts (strLower (colonShort mdl)).data
                     (strLower mid).data) with
          | nil =>
            simp [ensureModelOllama, resolvePolicyOllamaNeedle, h1, h2, hf,
              resolvedId]
          | cons p ps =>
            cases ps with
            | nil =>
              simp [ensureModelOllama, resolvePolicyOllamaNeedle, h1, h2, hf,
                resolvedId]
            | cons q qs =>
              simp [ensureModelOllama, resolvePolicyOllamaNeedle, h1, h2, hf,
                resolvedId]

theorem lm_remembers (bu : String) (model : Option String)
    (ids : List String) (p : String × String)
    (h : ensureModelLM bu model ids = .ok p) : p.2 = p.1 := by
  cases ids with
  | nil => cases model <;> simp [ensureModelLM] at h
  | cons i0 rest =>
    cases model with
    | none =>
      simp [ensureModelLM] at h
      rw [← h]
    | some mdl =>
      by_cases h1 : mdl = ""
      · simp [ensureModelLM, h1] at h
        rw [← h]
      · by_cases h2 : mdl ∈ i0 :: rest
        · simp [ensureModelLM, h1, h2] at h
          rw [← h]
        · cases hf : (i0 :: rest).filter
              (fun mid => strIn (strLower mdl) (strLower mid)) with
          | nil => simp [ensureModelLM, h1, h2, hf] at h
          | cons q qs =>
            cases qs with
            | nil =>
              simp [ensureModelLM, h1, h2, hf] at h
              rw [← h]
            | cons q2 qs2 => simp [ensureModelLM, h1, h2, hf] at h

theorem ollama_remembers (bu : String) (model : Option String)
    (ids : List String) (p : String × String)
    (h : ensureModelOllama bu model ids = .ok p) : p.2 = p.1 := by
  cases ids with
  | nil => cases model <;> simp [ensureModelOllama] at h
  | cons i0 rest =>
    cases model with
    | none =>
      simp [ensureModelOllama] at h
      rw [← h]
    | some mdl =>
      by_cases h1 : mdl = ""
      · simp [ensureModelOllama, h1] at h
        rw [← h]
      · by_cases h2 : mdl ∈ i0 :: rest
        · simp [ensureModelOllama, h1, h2] at h
          rw [← h]
        · cases hf : (i0 :: rest).filter
              (fun mid => strIn (strLower (colonShort mdl)) (strLower mid)
                || listStarts (strLower (colonShort mdl)).data
                     (strLower mid).data) with
          | nil => simp [ensureModelOllama, h1, h2, hf] at h
          | cons q qs =>
            cases qs with
            | nil =>
              simp [ensureModelOllama, h1, h2, hf] at h
              rw [← h]
            | cons q2 qs2 => simp [ensureModelOllama, h1, h2, hf] at h

end Jig

namespace Jig

/-- C5 (amended): the LM Studio client follows the stated policy exactly
(exact id match, else unique case-insensitive substring of the configured
name, else error naming all ids, no configured model resolves to the
first id); the Ollama client follows the same shape but its needle is
the configured name cut at the first colon, matched by substring or
prefix; a successful resolution is remembered (`self.model` ends equal to
the returned id); and the two concrete scenarios of the claim hold. -/
theorem claim_C5_model_resolution :
    (∀ bu model ids,
        resolvedId (ensureModelLM bu model ids) = resolvePolicy model ids)
    ∧ (∀ bu model ids,
        resolvedId (ensureModelOllama bu model ids)
          = resolvePolicyOllamaNeedle model ids)
    ∧ (∀ bu model ids p,
        ensureModelLM bu model ids = .ok p → p.2 = p.1)
    ∧ (∀ bu model ids p,
        ensureModelOllama bu model ids = .ok p → p.2 = p.1)
    ∧ (∀ bu, ensureModelLM bu (some "glm") ["zai-org/GLM-4.6", "llama3.1"]
        = .ok ("zai-org/GLM-4.6", "zai-org/GLM-4.6"))
    ∧ (∀ bu, ensureModelOllama bu (some "glm") ["zai-org/GLM-4.6", "llama3.1"]
        = .ok ("zai-org/GLM-4.6", "zai-org/GLM-4.6"))
    ∧ (∀ bu, ensureModelLM bu (some "a") ["zai-org/GLM-4.6", "llama3.1"]
        = .error "Model 'a' not found. Available: zai-org/GLM-4.6, llama3.1")
    ∧ (∀ bu, ensureModelOllama bu (some "a") ["zai-org/GLM-4.6", "llama3.1"]
        = .error "Model 'a' not found. Available: zai-org/GLM-4.6, llama3.1") :=
  ⟨lm_follows_policy, ollama_follows_needle_policy,
   lm_remembers, ollama_remembers,
   fun bu => rfl, fun bu => rfl, fun bu => rfl, fun bu => rfl⟩

/-- C5 counterexample: the Ollama client cuts the configured name at the
first colon before matching, so `GLM:Q4` resolves to `glm-4.6` even
though no id contains `GLM:Q4` as a case-insensitive substring — under
the claimed policy this configuration must fail. -/
theorem claim_C5_counterexample :
    resolvedId (ensureModelOllama "http://localhost:11434"
        (some "GLM:Q4") ["glm-4.6", "llama3.1"]) = some "glm-4.6"
    ∧ resolvePolicy (some "GLM:Q4") ["glm-4.6", "llama3.1"] = none :=
  ⟨by decide, by decide⟩

end Jig

namespace Jig

/-- Cumulative contents yielded by the chunk loop (`content += delta;
yield content, None`), starting from `content`. -/
def accumFrom (content : String) : List String → List String
  | [] => []
  | c :: cs => (content ++ c) :: accumFrom (content ++ c) cs

/-- The accumulated content at the end of the chunk loop. -/
def finalContent (content : String) : List String → String
  | [] => content
  | c :: cs => finalContent (content ++ c) cs

/-- The epilogue of `LMStudioClient.generate_structured_stream`
(src/jig/client.py lines 217-218): `result = json.loads(content) if
content.strip() else {}; yield content, result`, a `JSONDecodeError`
landing in the generic handler. -/
def lmTerminal (parse : String → Option Json) (content : String) :
    List (String × Option Json) × Option String :=
  if strBlank content then ([(content, some (Json.obj []))], none)
  else
    match parse content with
    | some j => ([(content, some j)], none)
    | none => ([], some "Inference error: JSONDecodeError")

theorem lmStreamGo_spec : ∀ (chunks : List String)
    (parse : String → Option Json) (content : String),
    lmStreamGo parse content chunks
      = ((accumFrom content chunks).map (fun t => (t, none))
           ++ (lmTerminal parse (finalContent content chunks)).1,
         (lmTerminal parse (finalContent content chunks)).2) := by
  intro chunks
  induction chunks with
  | nil =>
    intro parse content
    show lmTerminal parse content = _
    simp [accumFrom, finalContent]
  | cons c cs ih =>
    intro parse content
    show ((content ++ c, none) :: (lmStreamGo parse (content ++ c) cs).1,
        (lmStreamGo parse (content ++ c) cs).2) = _
    rw [ih]
    simp [accumFrom, finalContent]

/-- The emission shape asserted for a structured stream: while the
generator is still accumulating, every yielded pair carries no parsed
value; when it finishes normally, the single terminal pair is last and
carries the parsed accumulated text — the empty object when that text is
blank; when it raises instead, no terminal pair was yielded. -/
def streamOk (parse : String → Option Json)
    (r : List (String × Option Json) × Option String) : Prop :=
  match r with
  | (ems, none) => ∃ pre t j, ems = pre ++ [(t, some j)]
      ∧ (∀ q ∈ pre, q.2 = none)
      ∧ ((strBlank t = true ∧ j = Json.obj [])
         ∨ (strBlank t = false ∧ parse t = some j))
  | (ems, some _) => ∀ q ∈ ems, q.2 = none

theorem streamOk_lmTerminal (parse : String → Option Json)
    (content : String) : streamOk parse (lmTerminal parse content) := by
  by_cases hb : strBlank content
  · rw [show lmTerminal parse content = ([(content, some (Json.obj []))], none)
        from by simp [lmTerminal, hb]]
    exact ⟨[], content, Json.obj [], by simp, by simp, Or.inl ⟨hb, rfl⟩⟩
  · cases hp : parse content with
    | some j =>
      rw [show lmTerminal parse content = ([(content, some j)], none)
          from by simp [lmTerminal, hb, hp]]
      exact ⟨[], content, j, by simp, by simp, Or.inr ⟨by simp [hb], hp⟩⟩
    | none =>
      rw [show lmTerminal parse content
            = ([], some "Inference error: JSONDecodeError")
          from by simp [lmTerminal, hb, hp]]
      intro q hq
      simp at hq

theorem streamOk_lmGo : ∀ (chunks : List String)
    (parse : String → Option Json) (content : String),
    streamOk parse (lmStreamGo parse content chunks) := by
  intro chunks
  induction chunks with
  | nil =>
    intro parse content
    exact streamOk_lmTerminal parse content
  | cons c cs ih =>
    intro parse content
    have h := ih parse (content ++ c)
    show streamOk parse
      ((content ++ c, none) :: (lmStreamGo parse (content ++ c) cs).1,
       (lmStreamGo parse (content ++ c) cs).2)
    cases hr : lmStreamGo parse (content ++ c) cs with
    | mk ems err =>
      rw [hr] at h
      cases err with
      | none =>
        obtain ⟨pre, t, j, he, hpre, hj⟩ := h
        refine ⟨(content ++ c, none) :: pre, t, j, ?_, ?_, hj⟩
        · rw [he]
          exact (List.cons_append _ _ _).symm
        · intro q hq
          cases List.mem_cons.mp hq with
          | inl h2 => rw [h2]
          | inr h2 => exact hpre q h2
      | some e =>
        intro q hq
        cases List.mem_cons.mp hq with
        | inl h2 => rw [h2]
        | inr h2 => exact h q h2

end Jig

namespace Jig

theorem streamOk_ollamaTerminal (parse : String → Option Json)
    (content : String) :
    streamOk parse
      (if strBlank content then ([(content, some (Json.obj []))], none)
       else
         match parse content with
         | some j => ([(content, some j)], none)
         | none => ([], some "JSONDecodeError")) := by
  by_cases hb : strBlank content
  · rw [if_pos hb]
    exact ⟨[], content, Json.obj [], by simp, by simp, Or.inl ⟨hb, rfl⟩⟩
  · rw [if_neg hb]
    cases hp : parse content with
    | some j =>
      exact ⟨[], content, j, by simp, by simp,
        Or.inr ⟨by simp [hb], hp⟩⟩
    | none =>
      intro q hq
      simp at hq

theorem streamOk_ollamaGo : ∀ (lines : List String)
    (parse : String → Option Json) (content : String),
    streamOk parse (ollamaStreamGo parse content lines) := by
  intro lines
  induction lines with
  | nil =>
    intro parse content
    exact streamOk_ollamaTerminal parse content
  | cons line rest ih =>
    intro parse content
    by_cases hl : line = ""
    · rw [show ollamaStreamGo parse content (line :: rest)
            = ollamaStreamGo parse content rest
          from by simp [ollamaStreamGo, hl]]
      exact ih parse content
    · cases hp : parse line with
      | none =>
        rw [show ollamaStreamGo parse content (line :: rest)
              = ollamaStreamGo parse content rest
            from by simp [ollamaStreamGo, hl, hp]]
        exact ih parse content
      | some data =>
        cases he : ollamaExtract data with
        | none =>
          rw [show ollamaStreamGo parse content (line :: rest)
                = ([], some "AttributeError")
              from by simp [ollamaStreamGo, hl, hp, he]]
          intro q hq
          simp at hq
        | some pd =>
          obtain ⟨part, doneFlag⟩ := pd
          cases doneFlag with
          | true =>
            rw [show ollamaStreamGo parse content (line :: rest)
                = (if strBlank (content ++ part)
                   then ([(content ++ part, some (Json.obj []))], none)
                   else
                     match parse (content ++ part) with
                     | some j => ([(content ++ part, some j)], none)
                     | none => ([], some "JSONDecodeError"))
              from by simp [ollamaStreamGo, hl, hp, he]]
            exact streamOk_ollamaTerminal parse (content ++ part)
          | false =>
            rw [show ollamaStreamGo parse content (line :: rest)
                = ((content ++ part, none)
                    :: (ollamaStreamGo parse (content ++ part) rest).1,
                   (ollamaStreamGo parse (content ++ part) rest).2)
              from by simp [ollamaStreamGo, hl, hp, he]]
            have h := ih parse (content ++ part)
            cases hr : ollamaStreamGo parse (content ++ part) rest with
            | mk ems err =>
              rw [hr] at h
              cases err with
              | none =>
                obtain ⟨pre, t, j, he2, hpre, hj⟩ := h
                refine ⟨(content ++ part, none) :: pre, t, j, ?_, ?_, hj⟩
                · rw [he2]
                  exact (List.cons_append _ _ _).symm
                · intro q hq
                  cases List.mem_cons.mp hq with
                  | inl h2 => rw [h2]
                  | inr h2 => exact hpre q h2
              | some e =>
                intro q hq
                cases List.mem_cons.mp hq with
                | inl h2 => rw [h2]
                | inr h2 => exact h q h2

/-- A parse function agreeing with `json.loads` on the strings involved:
the single received line decodes to a content-bearing `done` message and
the accumulated text `hi` does not decode. -/
def parseDoneLine : String → Option Json :=
  fun s =>
    if s = "\x7b\"message\":\x7b\"content\":\"hi\"\x7d,\"done\":true\x7d" then
      some (.obj [("message", .obj [("content", .str "hi")]),
                  ("done", .bool true)])
    else none

/-- C6 counterexample: an Ollama line carrying both content and the done
flag yields no incremental `(accumulatedText, absent)` pair at all — and
since the accumulated `hi` does not parse, the generator raises with no
terminal pair either; the LM Studio stream likewise ends with an
exception instead of a terminal pair when the accumulated text does not
parse. -/
theorem claim_C6_counterexample :
    ollamaStream parseDoneLine
        ["\x7b\"message\":\x7b\"content\":\"hi\"\x7d,\"done\":true\x7d"]
      = ([], some "JSONDecodeError")
    ∧ lmStream (fun _ => none) ["x"]
      = ([("x", none)], some "Inference error: JSONDecodeError") :=
  ⟨by decide, by decide⟩

/-- C6 (amended): the LM Studio stream yields the running accumulation
with no parsed value for every chunk and then the terminal behaviour of
`lmTerminal`; for both clients, every pre-terminal emission carries no
parsed value, a normal finish ends with exactly one terminal pair whose
parsed value is the empty object when the accumulated text is blank and
the parse of that text otherwise, and a raising finish (unparseable
accumulated text) yields no terminal pair. -/
theorem claim_C6_stream_shape :
    (∀ (parse : String → Option Json) (chunks : List String),
        lmStream parse chunks
          = ((accumFrom "" chunks).map (fun t => (t, none))
               ++ (lmTerminal parse (finalContent "" chunks)).1,
             (lmTerminal parse (finalContent "" chunks)).2))
    ∧ (∀ (parse : String → Option Json) (chunks : List String),
        streamOk parse (lmStream parse chunks))
    ∧ (∀ (parse : String → Option Json) (lines : List String),
        streamOk parse (ollamaStream parse lines)) :=
  ⟨fun parse chunks => lmStreamGo_spec chunks parse "",
   fun parse chunks => streamOk_lmGo chunks parse "",
   fun parse lines => streamOk_ollamaGo lines parse ""⟩

end Jig

namespace Jig

/-- Duplicate-free keys of a Python-dict node (a real `dict` cannot carry
two equal keys). -/
def nodupKeysB : List (String × Json) → Bool
  | [] => true
  | (k, _) :: rest => !((rest.map Prod.fst).contains k) && nodupKeysB rest

/-- The node's `properties`, when a dict, has no reserved key (the
claim's hypothesis) and no duplicate key. -/
def propsOkB (kvs : List (String × Json)) : Bool :=
  match getKey kvs "properties" with
  | some (.obj pvs) =>
      pvs.all (fun p => !(reservedPropNames.contains p.1)) && nodupKeysB pvs
  | _ => true

mutual

/-- The claim's hypothesis, checked on the whole tree: no `properties`
dict anywhere carries a reserved (or duplicate) key. -/
def schemaOkJ : Json → Bool
  | .obj kvs => propsOkB kvs && schemaOkKvs kvs
  | .arr xs => schemaOkList xs
  | _ => true

def schemaOkKvs : List (String × Json) → Bool
  | [] => true
  | (_, v) :: rest => schemaOkJ v && schemaOkKvs rest

def schemaOkList : List Json → Bool
  | [] => true
  | x :: xs => schemaOkJ x && schemaOkList xs

end

mutual

/-- Structural identity up to the `required` fields: both trees have the
same shape and contents, except that at each object node the value under
a `required` key is unconstrained and the right tree may carry one extra
trailing `required` entry (the coercion inserts `required` when it was
absent). -/
def serJ : Json → Json → Bool
  | .obj kvs, .obj kvs2 => serKvs kvs kvs2
  | .arr xs, .arr ys => serList xs ys
  | a, b => Json.beq a b

def serList : List Json → List Json → Bool
  | [], [] => true
  | x :: xs, y :: ys => serJ x y && serList xs ys
  | _, _ => false

def serKvs : List (String × Json) → List (String × Json) → Bool
  | [], [] => true
  | [], [(k, _)] => k = "required"
  | (k, v) :: r, (k2, v2) :: r2 =>
      k = k2 && (k = "required" || serJ v v2) && serKvs r r2
  | _, _ => false

end

/-- The node-level canonical form `_norm` leaves behind, which makes a
second `_norm` pass the identity there: `properties` (if a dict) has
unreserved, duplicate-free keys, and `required` is a sequence of strings
— or absent, when `properties` is not a non-empty dict. -/
def localNormOk (node : Json) : Bool :=
  match node with
  | .obj kvs =>
      propsOkB kvs &&
      (match getKey kvs "required" with
       | some (.arr rs) => rs.all Json.isStr
       | some .null =>
         match getKey kvs "properties" with
         | some (.obj pvs) => pvs.isEmpty
         | _ => true
       | some _ => false
       | none =>
         match getKey kvs "properties" with
         | some (.obj pvs) => pvs.isEmpty
         | _ => true)
  | _ => true

/-- Every node `_norm` visits (the `ReachAll` edges) is in canonical
form. -/
def NormdAll (t : Json) : Prop :=
  ∀ u, ReachAll t u → localNormOk u = true

/-- Every node `_fix_required` visits has no reserved `required`
entry left. -/
def FixDone (t : Json) : Prop :=
  ∀ u, ReachFix t u → localReqOk u = true

end Jig

namespace Jig

mutual

/-- Like `serJ`/`serKvs`, but without the trailing-`required` allowance:
the key lists agree exactly at every level (what `_fix_required` leaves
behind: it rewrites entries in place and never inserts a key). -/
def serJS : Json → Json → Bool
  | .obj a, .obj b => serKvsS a b
  | .arr a, .arr b => serListS a b
  | a, b => Json.beq a b

def serListS : List Json → List Json → Bool
  | [], [] => true
  | x :: xs, y :: ys => serJS x y && serListS xs ys
  | _, _ => false

def serKvsS : List (String × Json) → List (String × Json) → Bool
  | [], [] => true
  | (k, v) :: r, (k2, v2) :: r2 =>
      k = k2 && (k = "required" || serJS v v2) && serKvsS r r2
  | _, _ => false

end

mutual

theorem serJ_refl : ∀ a : Json, serJ a a = true
  | .null => rfl
  | .bool x => by simp [serJ, Json.beq]
  | .num x => by simp [serJ, Json.beq]
  | .str x => by simp [serJ, Json.beq]
  | .arr xs => serList_refl xs
  | .obj kvs => serKvs_refl kvs

theorem serList_refl : ∀ xs : List Json, serList xs xs = true
  | [] => rfl
  | x :: xs => by simp [serList, serJ_refl x, serList_refl xs]

theorem serKvs_refl : ∀ l : List (String × Json), serKvs l l = true
  | [] => rfl
  | (k, v) :: r => by simp [serKvs, serJ_refl v, serKvs_refl r]

end

mutual

theorem serJS_refl : ∀ a : Json, serJS a a = true
  | .null => rfl
  | .bool x => by simp [serJS, Json.beq]
  | .num x => by simp [serJS, Json.beq]
  | .str x => by simp [serJS, Json.beq]
  | .arr xs => serListS_refl xs
  | .obj kvs => serKvsS_refl kvs

theorem serListS_refl : ∀ xs : List Json, serListS xs xs = true
  | [] => rfl
  | x :: xs => by simp [serListS, serJS_refl x, serListS_refl xs]

theorem serKvsS_refl : ∀ l : List (String × Json), serKvsS l l = true
  | [] => rfl
  | (k, v) :: r => by simp [serKvsS, serJS_refl v, serKvsS_refl r]

end

end Jig

namespace Jig

mutual

theorem serJ_trans_S : ∀ a b c : Json,
    serJ a b = true → serJS b c = true → serJ a c = true
  | .obj l1, b, c => by
    intro h1 h2
    cases b with
    | obj l2 =>
      cases c with
      | obj l3 => exact serKvs_trans_S l1 l2 l3 h1 h2
      | null => simp [serJS, Json.beq] at h2
      | bool x => simp [serJS, Json.beq] at h2
      | num x => simp [serJS, Json.beq] at h2
      | str x => simp [serJS, Json.beq] at h2
      | arr x => simp [serJS, Json.beq] at h2
    | null => simp [serJ, Json.beq] at h1
    | bool x => simp [serJ, Json.beq] at h1
    | num x => simp [serJ, Json.beq] at h1
    | str x => simp [serJ, Json.beq] at h1
    | arr x => simp [serJ, Json.beq] at h1
  | .arr l1, b, c => by
    intro h1 h2
    cases b with
    | arr l2 =>
      cases c with
      | arr l3 => exact serList_trans_S l1 l2 l3 h1 h2
      | null => simp [serJS, Json.beq] at h2
      | bool x => simp [serJS, Json.beq] at h2
      | num x => simp [serJS, Json.beq] at h2
      | str x => simp [serJS, Json.beq] at h2
      | obj x => simp [serJS, Json.beq] at h2
    | null => simp [serJ, Json.beq] at h1
    | bool x => simp [serJ, Json.beq] at h1
    | num x => simp [serJ, Json.beq] at h1
    | str x => simp [serJ, Json.beq] at h1
    | obj x => simp [serJ, Json.beq] at h1
  | .null, b, c => by
    intro h1 h2
    have hb : Json.null = b := (Json.beq_iff _ _).mp h1
    rw [← hb] at h2
    exact h2
  | .bool x, b, c => by
    intro h1 h2
    have hb : Json.bool x = b := (Json.beq_iff _ _).mp h1
    rw [← hb] at h2
    exact h2
  | .num x, b, c => by
    intro h1 h2
    have hb : Json.num x = b := (Json.beq_iff _ _).mp h1
    rw [← hb] at h2
    exact h2
  | .str x, b, c => by
    intro h1 h2
    have hb : Json.str x = b := (Json.beq_iff _ _).mp h1
    rw [← hb] at h2
    exact h2

theorem serList_trans_S : ∀ a b c : List Json,
    serList a b = true → serListS b c = true → serList a c = true
  | [], b, c => by
    intro h1 h2
    cases b with
    | nil =>
      cases c with
      | nil => rfl
      | cons z zs => simp [serListS] at h2
    | cons y ys => simp [serList] at h1
  | x :: xs, b, c => by
    intro h1 h2
    cases b with
    | nil => simp [serList] at h1
    | cons y ys =>
      cases c with
      | nil => simp [serListS] at h2
      | cons z zs =>
        simp [serList] at h1 ⊢
        simp [serListS] at h2
        exact ⟨serJ_trans_S x y z h1.1 h2.1, serList_trans_S xs ys zs h1.2 h2.2⟩

theorem serKvs_trans_S : ∀ a b c : List (String × Json),
    serKvs a b = true → serKvsS b c = true → serKvs a c = true
  | [], b, c => by
    intro h1 h2
    cases b with
    | nil =>
      cases c with
      | nil => rfl
      | cons z zs => simp [serKvsS] at h2
    | cons y ys =>
      obtain ⟨ky, vy⟩ := y
      cases ys with
      | cons y2 ys2 => simp [serKvs] at h1
      | nil =>
        simp [serKvs] at h1
        cases c with
        | nil => simp [serKvsS] at h2
        | cons z zs =>
          obtain ⟨kz, vz⟩ := z
          simp [serKvsS] at h2
          cases zs with
          | cons z2 zs2 =>
            have hx := h2.2
            rw [show serKvsS [] (z2 :: zs2) = false from rfl] at hx
            exact absurd hx (by simp)
          | nil =>
            have : kz = "required" := by rw [← h2.1.1, h1]
            simp [serKvs, this]
  | (k, v) :: r, b, c => by
    intro h1 h2
    cases b with
    | nil => simp [serKvs] at h1
    | cons y ys =>
      obtain ⟨ky, vy⟩ := y
      cases c with
      | nil => simp [serKvsS] at h2
      | cons z zs =>
        obtain ⟨kz, vz⟩ := z
        simp only [serKvs, Bool.and_eq_true, decide_eq_true_eq,
          Bool.or_eq_true] at h1 ⊢
        simp only [serKvsS, Bool.and_eq_true, decide_eq_true_eq,
          Bool.or_eq_true] at h2
        obtain ⟨⟨hk1, hv1⟩, hr1⟩ := h1
        obtain ⟨⟨hk2, hv2⟩, hr2⟩ := h2
        refine ⟨⟨hk1.trans hk2, ?_⟩, serKvs_trans_S r ys zs hr1 hr2⟩
        cases hv1 with
        | inl hk => exact Or.inl hk
        | inr hser =>
          cases hv2 with
          | inl hk => exact Or.inl (hk1.trans hk)
          | inr hser2 => exact Or.inr (serJ_trans_S v vy vz hser hser2)

end

end Jig

namespace Jig

theorem setKey_self : ∀ {l : List (String × Json)} {k : String} {v : Json},
    getKey l k = some v → setKey l k v = l := by
  intro l
  induction l with
  | nil => intro k v h; simp [getKey] at h
  | cons p rest ih =>
    intro k v h
    obtain ⟨k1, v1⟩ := p
    by_cases hk : k1 = k
    · subst hk
      simp [getKey] at h
      simp [setKey, h]
    · simp [getKey, hk] at h
      simp [setKey, hk]
      exact ih h

theorem getKey_mem : ∀ {l : List (String × Json)} {k : String} {v : Json},
    getKey l k = some v → (k, v) ∈ l := by
  intro l
  induction l with
  | nil => intro k v h; simp [getKey] at h
  | cons p rest ih =>
    intro k v h
    obtain ⟨k1, v1⟩ := p
    by_cases hk : k1 = k
    · subst hk
      simp [getKey] at h
      subst h
      exact List.mem_cons_self _ _
    · simp [getKey, hk] at h
      exact List.mem_cons_of_mem _ (ih h)

theorem serKvs_setKey_step :
    ∀ {kvs acc : List (String × Json)} {k : String} {v w : Json},
    serKvs kvs acc = true → getKey kvs k = some v → getKey acc k = some v →
    serJ v w = true → serKvs kvs (setKey acc k w) = true := by
  intro kvs
  induction kvs with
  | nil =>
    intro acc k v w hs hk1 hk2 hvw
    simp [getKey] at hk1
  | cons p rest ih =>
    intro acc k v w hs hk1 hk2 hvw
    obtain ⟨k1, v1⟩ := p
    cases acc with
    | nil => simp [getKey] at hk2
    | cons q acc2 =>
      obtain ⟨k2, v2⟩ := q
      simp only [serKvs, Bool.and_eq_true, decide_eq_true_eq,
        Bool.or_eq_true] at hs
      obtain ⟨⟨hkk, hvv⟩, hrest⟩ := hs
      by_cases hk2k : k2 = k
      · subst hk2k
        simp only [setKey, if_pos rfl]
        simp [getKey] at hk2
        rw [← hkk] at hk1
        simp [getKey] at hk1
        simp only [serKvs, Bool.and_eq_true, decide_eq_true_eq,
          Bool.or_eq_true]
        refine ⟨⟨hkk, ?_⟩, hrest⟩
        cases hvv with
        | inl hreq => exact Or.inl hreq
        | inr _ =>
          exact Or.inr (by rw [hk1]; exact hvw)
      · simp only [setKey, if_neg hk2k]
        simp only [getKey, if_neg hk2k] at hk2
        have hk1k : ¬(k1 = k) := by rw [hkk]; exact hk2k
        simp only [getKey, if_neg hk1k] at hk1
        simp only [serKvs, Bool.and_eq_true, decide_eq_true_eq,
          Bool.or_eq_true]
        exact ⟨⟨hkk, hvv⟩, ih hrest hk1 hk2 hvw⟩

theorem serKvs_setKey_req :
    ∀ {kvs acc : List (String × Json)} {w : Json},
    serKvs kvs acc = true →
    serKvs kvs (setKey acc "required" w) = true := by
  intro kvs
  induction kvs with
  | nil =>
    intro acc w hs
    cases acc with
    | nil => simp [setKey, serKvs]
    | cons q acc2 =>
      obtain ⟨k2, v2⟩ := q
      cases acc2 with
      | cons q2 acc3 => simp [serKvs] at hs
      | nil =>
        simp [serKvs] at hs
        subst hs
        simp [setKey, serKvs]
  | cons p rest ih =>
    intro acc w hs
    obtain ⟨k1, v1⟩ := p
    cases acc with
    | nil => simp [serKvs] at hs
    | cons q acc2 =>
      obtain ⟨k2, v2⟩ := q
      simp only [serKvs, Bool.and_eq_true, decide_eq_true_eq,
        Bool.or_eq_true] at hs
      obtain ⟨⟨hkk, hvv⟩, hrest⟩ := hs
      by_cases hk2 : k2 = "required"
      · subst hk2
        simp only [setKey, if_pos rfl]
        simp only [serKvs, Bool.and_eq_true, decide_eq_true_eq,
          Bool.or_eq_true]
        exact ⟨⟨hkk, Or.inl (by rw [hkk])⟩, hrest⟩
      · simp only [setKey, if_neg hk2]
        simp only [serKvs, Bool.and_eq_true, decide_eq_true_eq,
          Bool.or_eq_true]
        exact ⟨⟨hkk, hvv⟩, ih hrest⟩

theorem serKvsS_setKey_step :
    ∀ {kvs acc : List (String × Json)} {k : String} {v w : Json},
    serKvsS kvs acc = true → getKey kvs k = some v → getKey acc k = some v →
    serJS v w = true → serKvsS kvs (setKey acc k w) = true := by
  intro kvs
  induction kvs with
  | nil =>
    intro acc k v w hs hk1 hk2 hvw
    simp [getKey] at hk1
  | cons p rest ih =>
    intro acc k v w hs hk1 hk2 hvw
    obtain ⟨k1, v1⟩ := p
    cases acc with
    | nil => simp [getKey] at hk2
    | cons q acc2 =>
      obtain ⟨k2, v2⟩ := q
      simp only [serKvsS, Bool.and_eq_true, decide_eq_true_eq,
        Bool.or_eq_true] at hs
      obtain ⟨⟨hkk, hvv⟩, hrest⟩ := hs
      by_cases hk2k : k2 = k
      · subst hk2k
        simp only [setKey, if_pos rfl]
        simp [getKey] at hk2
        rw [← hkk] at hk1
        simp [getKey] at hk1
        simp only [serKvsS, Bool.and_eq_true, decide_eq_true_eq,
          Bool.or_eq_true]
        refine ⟨⟨hkk, ?_⟩, hrest⟩
        cases hvv with
        | inl hreq => exact Or.inl hreq
        | inr _ =>
          exact Or.inr (by rw [hk1]; exact hvw)
      · simp only [setKey, if_neg hk2k]
        simp only [getKey, if_neg hk2k] at hk2
        have hk1k : ¬(k1 = k) := by rw [hkk]; exact hk2k
        simp only [getKey, if_neg hk1k] at hk1
        simp only [serKvsS, Bool.and_eq_true, decide_eq_true_eq,
          Bool.or_eq_true]
        exact ⟨⟨hkk, hvv⟩, ih hrest hk1 hk2 hvw⟩

theorem serKvsS_setKey_req :
    ∀ {kvs acc : List (String × Json)} {u w : Json},
    serKvsS kvs acc = true → getKey acc "required" = some u →
    serKvsS kvs (setKey acc "required" w) = true := by
  intro kvs
  induction kvs with
  | nil =>
    intro acc u w hs hu
    cases acc with
    | nil => simp [getKey] at hu
    | cons q acc2 => simp [serKvsS] at hs
  | cons p rest ih =>
    intro acc u w hs hu
    obtain ⟨k1, v1⟩ := p
    cases acc with
    | nil => simp [serKvsS] at hs
    | cons q acc2 =>
      obtain ⟨k2, v2⟩ := q
      simp only [serKvsS, Bool.and_eq_true, decide_eq_true_eq,
        Bool.or_eq_true] at hs
      obtain ⟨⟨hkk, hvv⟩, hrest⟩ := hs
      by_cases hk2 : k2 = "required"
      · subst hk2
        simp only [setKey, if_pos rfl]
        simp only [serKvsS, Bool.and_eq_true, decide_eq_true_eq,
          Bool.or_eq_true]
        exact ⟨⟨hkk, Or.inl (by rw [hkk])⟩, hrest⟩
      · simp only [setKey, if_neg hk2]
        simp only [getKey, if_neg hk2] at hu
        simp only [serKvsS, Bool.and_eq_true, decide_eq_true_eq,
          Bool.or_eq_true]
        exact ⟨⟨hkk, hvv⟩, ih hrest hu⟩

end Jig

namespace Jig

theorem reachAll_scalar {j u : Json} (h : ReachAll j u)
    (hnb : ∀ kvs, j ≠ Json.obj kvs) : u = j := by
  cases h with
  | refl => rfl
  | prop hp hm hsub => exact absurd rfl (hnb _)
  | items hp hsub => exact absurd rfl (hnb _)
  | itemsSeq hp hm hsub => exact absurd rfl (hnb _)
  | comp hk hp hm hsub => exact absurd rfl (hnb _)
  | defs hp hm hsub => exact absurd rfl (hnb _)

theorem normdAll_scalar {j : Json} (hnb : ∀ kvs, j ≠ Json.obj kvs)
    (hl : localNormOk j = true) : NormdAll j := by
  intro u hr
  rw [reachAll_scalar hr hnb]
  exact hl

/-- Assemble `NormdAll` at an object node from the local check and the
`NormdAll` of every child along a walk edge. -/
theorem normdAll_obj {kvs : List (String × Json)}
    (hl : localNormOk (Json.obj kvs) = true)
    (hprop : ∀ pvs k v, getKey kvs "properties" = some (Json.obj pvs) →
      (k, v) ∈ pvs → NormdAll v)
    (hitems : ∀ ikvs, getKey kvs "items" = some (Json.obj ikvs) →
      NormdAll (Json.obj ikvs))
    (hitemsSeq : ∀ xs x, getKey kvs "items" = some (Json.arr xs) →
      x ∈ xs → NormdAll x)
    (hcomp : ∀ key xs x, key ∈ ["anyOf", "oneOf", "allOf"] →
      getKey kvs key = some (Json.arr xs) → x ∈ xs → NormdAll x)
    (hdefs : ∀ dvs k v, getKey kvs "$defs" = some (Json.obj dvs) →
      (k, v) ∈ dvs → NormdAll v) :
    NormdAll (Json.obj kvs) := by
  intro u hr
  cases hr with
  | refl => exact hl
  | prop hp hm hsub => exact hprop _ _ _ hp hm u hsub
  | items hp hsub => exact hitems _ hp u hsub
  | itemsSeq hp hm hsub => exact hitemsSeq _ _ hp hm u hsub
  | comp hk hp hm hsub => exact hcomp _ _ _ hk hp hm u hsub
  | defs hp hm hsub => exact hdefs _ _ _ hp hm u hsub

theorem normdAll_local {t : Json} (h : NormdAll t) : localNormOk t = true :=
  h t (ReachAll.refl t)

theorem normdAll_prop {kvs pvs : List (String × Json)} {k : String}
    {v : Json} (h : NormdAll (Json.obj kvs))
    (hp : getKey kvs "properties" = some (Json.obj pvs))
    (hm : (k, v) ∈ pvs) : NormdAll v :=
  fun u hr => h u (ReachAll.prop hp hm hr)

theorem normdAll_items {kvs ikvs : List (String × Json)}
    (h : NormdAll (Json.obj kvs))
    (hp : getKey kvs "items" = some (Json.obj ikvs)) :
    NormdAll (Json.obj ikvs) :=
  fun u hr => h u (ReachAll.items hp hr)

theorem normdAll_itemsSeq {kvs : List (String × Json)} {xs : List Json}
    {x : Json} (h : NormdAll (Json.obj kvs))
    (hp : getKey kvs "items" = some (Json.arr xs)) (hm : x ∈ xs) :
    NormdAll x :=
  fun u hr => h u (ReachAll.itemsSeq hp hm hr)

theorem normdAll_comp {kvs : List (String × Json)} {key : String}
    {xs : List Json} {x : Json} (h : NormdAll (Json.obj kvs))
    (hk : key ∈ ["anyOf", "oneOf", "allOf"])
    (hp : getKey kvs key = some (Json.arr xs)) (hm : x ∈ xs) :
    NormdAll x :=
  fun u hr => h u (ReachAll.comp hk hp hm hr)

theorem normdAll_defs {kvs dvs : List (String × Json)} {k : String}
    {v : Json} (h : NormdAll (Json.obj kvs))
    (hp : getKey kvs "$defs" = some (Json.obj dvs)) (hm : (k, v) ∈ dvs) :
    NormdAll v :=
  fun u hr => h u (ReachAll.defs hp hm hr)

theorem schemaOkJ_obj {kvs : List (String × Json)}
    (h : schemaOkJ (Json.obj kvs) = true) :
    propsOkB kvs = true ∧ schemaOkKvs kvs = true := by
  simp only [schemaOkJ, Bool.and_eq_true] at h
  exact h

theorem schemaOkKvs_mem : ∀ {l : List (String × Json)} {k : String}
    {v : Json}, schemaOkKvs l = true → (k, v) ∈ l → schemaOkJ v = true := by
  intro l
  induction l with
  | nil => intro k v _ hm; simp at hm
  | cons p rest ih =>
    intro k v h hm
    simp only [schemaOkKvs, Bool.and_eq_true] at h
    cases List.mem_cons.mp hm with
    | inl h2 => rw [← h2] at h; exact h.1
    | inr h2 => exact ih h.2 h2

theorem schemaOkList_mem : ∀ {l : List Json} {x : Json},
    schemaOkList l = true → x ∈ l → schemaOkJ x = true := by
  intro l
  induction l with
  | nil => intro x _ hm; simp at hm
  | cons y rest ih =>
    intro x h hm
    simp only [schemaOkList, Bool.and_eq_true] at h
    cases List.mem_cons.mp hm with
    | inl h2 => rw [h2]; exact h.1
    | inr h2 => exact ih h.2 h2

theorem schemaOkJ_getKey {kvs : List (String × Json)} {k : String}
    {v : Json} (h : schemaOkJ (Json.obj kvs) = true)
    (hg : getKey kvs k = some v) : schemaOkJ v = true :=
  schemaOkKvs_mem (schemaOkJ_obj h).2 (getKey_mem hg)

end Jig

namespace Jig

/-- The output facts carried through the `_norm` sections: the rebuilt
`properties` dict has unreserved duplicate-free keys and normalized
values. -/
def PropsFact (l : List (String × Json)) : Prop :=
  ∀ pvs, getKey l "properties" = some (Json.obj pvs) →
    (pvs.all (fun p => !(reservedPropNames.contains p.1))
      && nodupKeysB pvs) = true
    ∧ ∀ p ∈ pvs, NormdAll p.2

def ItemsFactO (l : List (String × Json)) : Prop :=
  ∀ ikvs, getKey l "items" = some (Json.obj ikvs) → NormdAll (Json.obj ikvs)

def ItemsFactA (l : List (String × Json)) : Prop :=
  ∀ xs x, getKey l "items" = some (Json.arr xs) → x ∈ xs → NormdAll x

def CompFact (l : List (String × Json)) (key : String) : Prop :=
  ∀ xs x, getKey l key = some (Json.arr xs) → x ∈ xs → NormdAll x

def DefsFact (l : List (String × Json)) : Prop :=
  ∀ dvs k v, getKey l "$defs" = some (Json.obj dvs) → (k, v) ∈ dvs →
    NormdAll v

/-- The `required` field after the `required` section: a sequence of
strings, or absent while `properties` is not a non-empty dict. -/
def ReqFact (l : List (String × Json)) : Prop :=
  match getKey l "required" with
  | some (.arr rs) => rs.all Json.isStr = true
  | some .null =>
    match getKey l "properties" with
    | some (.obj pvs) => pvs.isEmpty = true
    | _ => True
  | some _ => False
  | none =>
    match getKey l "properties" with
    | some (.obj pvs) => pvs.isEmpty = true
    | _ => True

theorem propsOkB_of_fact {l : List (String × Json)} (h : PropsFact l) :
    propsOkB l = true := by
  unfold propsOkB
  cases hg : getKey l "properties" with
  | none => rfl
  | some pv =>
    cases pv with
    | obj pvs => exact (h pvs hg).1
    | null => rfl
    | bool b => rfl
    | num i => rfl
    | str s => rfl
    | arr xs => rfl

theorem localNormOk_of_facts {l : List (String × Json)}
    (hp : propsOkB l = true) (hr : ReqFact l) :
    localNormOk (Json.obj l) = true := by
  unfold localNormOk
  rw [Bool.and_eq_true]
  refine ⟨hp, ?_⟩
  unfold ReqFact at hr
  cases hg : getKey l "required" with
  | some rv =>
    rw [hg] at hr
    cases rv with
    | arr rs => exact hr
    | null =>
      cases hg2 : getKey l "properties" with
      | none => rfl
      | some pv =>
        rw [hg2] at hr
        cases pv with
        | obj pvs => exact hr
        | null => rfl
        | bool b => rfl
        | num i => rfl
        | str s => rfl
        | arr xs => rfl
    | bool b => exact hr.elim
    | num i => exact hr.elim
    | str s => exact hr.elim
    | obj kvs2 => exact hr.elim
  | none =>
    rw [hg] at hr
    cases hg2 : getKey l "properties" with
    | none => rfl
    | some pv =>
      rw [hg2] at hr
      cases pv with
      | obj pvs => exact hr
      | null => rfl
      | bool b => rfl
      | num i => rfl
      | str s => rfl
      | arr xs => rfl

theorem contains_false_not_mem {l : List String} {a : String}
    (h : l.contains a = false) : a ∉ l := by
  intro hm
  rw [List.contains_eq_any_beq] at h
  have : l.any (a == ·) = true := List.any_eq_true.mpr ⟨a, hm, by simp⟩
  rw [this] at h
  simp at h

theorem nodupKeysB_head : ∀ {k : String} {v : Json}
    {rest : List (String × Json)},
    nodupKeysB ((k, v) :: rest) = true →
    ((rest.map Prod.fst).contains k) = false ∧ nodupKeysB rest = true := by
  intro k v rest h
  simp only [nodupKeysB, Bool.and_eq_true, Bool.not_eq_true'] at h
  exact h

end Jig

namespace Jig

theorem all_isStr_map {α : Type} (f : α → String) (l : List α) :
    (l.map (fun a => Json.str (f a))).all Json.isStr = true := by
  induction l with
  | nil => rfl
  | cons x xs ih => simp [Json.isStr, ih]

/-- The `required` section of `_norm`, in the no-reserved-keys setting:
it only rewrites the `required` key (to a sequence of strings, or not at
all), keeps everything else, and leaves the node canonical. -/
theorem c3_req {kvs : List (String × Json)}
    {s s3 : List (String × Json) × RenameMap}
    (h : normStepRequired kvs s = some s3)
    (hs : serKvs kvs s.1 = true)
    (hpres : getKey s.1 "required" = getKey kvs "required") :
    s3.2 = s.2 ∧ serKvs kvs s3.1 = true ∧ ReqFact s3.1
    ∧ (∀ key, key ≠ "required" → getKey s3.1 key = getKey s.1 key) := by
  refine ⟨normStepRequired_map h, ?_⟩
  have hset : ∀ L : List Json, L.all Json.isStr = true →
      serKvs kvs (setKey s.1 "required" (Json.arr L)) = true
      ∧ ReqFact (setKey s.1 "required" (Json.arr L))
      ∧ (∀ key, key ≠ "required" →
          getKey (setKey s.1 "required" (Json.arr L)) key
            = getKey s.1 key) := by
    intro L hL
    refine ⟨serKvs_setKey_req hs, ?_, ?_⟩
    · unfold ReqFact
      rw [getKey_setKey_self]
      exact hL
    · intro key hk
      exact getKey_setKey_ne _ _ (Ne.symm hk)
  have hother : ∀ o, requiredOtherShape s.1 = some o →
      serKvs kvs o = true ∧ ReqFact o
      ∧ (∀ key, key ≠ "required" → getKey o key = getKey s.1 key) := by
    intro o ho
    unfold requiredOtherShape at ho
    cases hp2 : getKey s.1 "properties" with
    | none =>
      rw [hp2] at ho
      simp at ho
      rw [← ho]
      exact hset [] rfl
    | some pv =>
      rw [hp2] at ho
      cases htr : truthy pv with
      | false =>
        simp [htr] at ho
        rw [← ho]
        exact hset [] rfl
      | true =>
        cases pv with
        | obj npvs =>
          simp [htr] at ho
          rw [← ho]
          exact hset _ (all_isStr_map (fun p => p.1) npvs)
        | null => simp [htr] at ho
        | bool b => simp [htr] at ho
        | num i => simp [htr] at ho
        | str s0 => simp [htr] at ho
        | arr xs => simp [htr] at ho
  have hfrom : ∀ o, requiredFromProps s.1 = some o →
      serKvs kvs o = true ∧ ReqFact o
      ∧ (∀ key, key ≠ "required" → getKey o key = getKey s.1 key) := by
    intro o ho
    unfold requiredFromProps at ho
    cases hp2 : getKey s.1 "properties" with
    | none =>
      rw [hp2] at ho
      simp at ho
      rw [← ho]
      exact hset [] rfl
    | some pv =>
      rw [hp2] at ho
      cases pv with
      | obj npvs =>
        simp at ho
        rw [← ho]
        exact hset _ (all_isStr_map _ _)
      | null => simp at ho
      | bool b => simp at ho
      | num i => simp at ho
      | str s0 => simp at ho
      | arr xs => simp at ho
  cases hr : getKey kvs "required" with
  | some rv =>
    cases rv with
    | arr rs =>
      cases hall : rs.all Json.isStr with
      | true =>
        simp [normStepRequired, hr, hall] at h
        rw [← h]
        refine ⟨hs, ?_, fun key _ => rfl⟩
        unfold ReqFact
        rw [hpres, hr]
        exact hall
      | false =>
        cases ho : requiredOtherShape s.1 with
        | none => simp [normStepRequired, hr, hall, ho] at h
        | some o =>
          simp [normStepRequired, hr, hall, ho] at h
          rw [← h]
          exact hother o ho
    | bool b =>
      cases b with
      | true =>
        cases ho : requiredFromProps s.1 with
        | none => simp [normStepRequired, hr, ho] at h
        | some o =>
          simp [normStepRequired, hr, ho] at h
          rw [← h]
          exact hfrom o ho
      | false =>
        simp [normStepRequired, hr] at h
        rw [← h]
        exact hset [] rfl
    | obj rkvs =>
      simp [normStepRequired, hr] at h
      rw [← h]
      exact hset _ (all_isStr_map (fun p => p.1)
        (rkvs.filter (fun p => truthy p.2)))
    | null =>
      cases hp2 : getKey s.1 "properties" with
      | none =>
        simp [normStepRequired, hr, hp2] at h
        rw [← h]
        refine ⟨hs, ?_, fun key _ => rfl⟩
        unfold ReqFact
        rw [hpres, hr, hp2]
        simp
      | some pv =>
        cases pv with
        | obj npvs =>
          cases hemp : npvs.isEmpty with
          | true =>
            simp [normStepRequired, hr, hp2, hemp] at h
            rw [← h]
            refine ⟨hs, ?_, fun key _ => rfl⟩
            unfold ReqFact
            rw [hpres, hr, hp2]
            exact hemp
          | false =>
            simp [normStepRequired, hr, hp2, hemp] at h
            rw [← h]
            exact hset [] rfl
        | null =>
          simp [normStepRequired, hr, hp2] at h
          rw [← h]
          refine ⟨hs, ?_, fun key _ => rfl⟩
          unfold ReqFact
          rw [hpres, hr, hp2]
          simp
        | bool b =>
          simp [normStepRequired, hr, hp2] at h
          rw [← h]
          refine ⟨hs, ?_, fun key _ => rfl⟩
          unfold ReqFact
          rw [hpres, hr, hp2]
          simp
        | num i =>
          simp [normStepRequired, hr, hp2] at h
          rw [← h]
          refine ⟨hs, ?_, fun key _ => rfl⟩
          unfold ReqFact
          rw [hpres, hr, hp2]
          simp
        | str s0 =>
          simp [normStepRequired, hr, hp2] at h
          rw [← h]
          refine ⟨hs, ?_, fun key _ => rfl⟩
          unfold ReqFact
          rw [hpres, hr, hp2]
          simp
        | arr xs =>
          simp [normStepRequired, hr, hp2] at h
          rw [← h]
          refine ⟨hs, ?_, fun key _ => rfl⟩
          unfold ReqFact
          rw [hpres, hr, hp2]
          simp
    | num i =>
      cases ho : requiredOtherShape s.1 with
      | none => simp [normStepRequired, hr, ho] at h
      | some o =>
        simp [normStepRequired, hr, ho] at h
        rw [← h]
        exact hother o ho
    | str s0 =>
      cases ho : requiredOtherShape s.1 with
      | none => simp [normStepRequired, hr, ho] at h
      | some o =>
        simp [normStepRequired, hr, ho] at h
        rw [← h]
        exact hother o ho
  | none =>
    cases hp2 : getKey s.1 "properties" with
    | none =>
      simp [normStepRequired, hr, hp2] at h
      rw [← h]
      refine ⟨hs, ?_, fun key _ => rfl⟩
      unfold ReqFact
      rw [hpres, hr, hp2]
      simp
    | some pv =>
      cases pv with
      | obj npvs =>
        cases hemp : npvs.isEmpty with
        | true =>
          simp [normStepRequired, hr, hp2, hemp] at h
          rw [← h]
          refine ⟨hs, ?_, fun key _ => rfl⟩
          unfold ReqFact
          rw [hpres, hr, hp2]
          exact hemp
        | false =>
          simp [normStepRequired, hr, hp2, hemp] at h
          rw [← h]
          exact hset [] rfl
      | null =>
        simp [normStepRequired, hr, hp2] at h
        rw [← h]
        refine ⟨hs, ?_, fun key _ => rfl⟩
        unfold ReqFact
        rw [hpres, hr, hp2]
        simp
      | bool b =>
        simp [normStepRequired, hr, hp2] at h
        rw [← h]
        refine ⟨hs, ?_, fun key _ => rfl⟩
        unfold ReqFact
        rw [hpres, hr, hp2]
        simp
      | num i =>
        simp [normStepRequired, hr, hp2] at h
        rw [← h]
        refine ⟨hs, ?_, fun key _ => rfl⟩
        unfold ReqFact
        rw [hpres, hr, hp2]
        simp
      | str s0 =>
        simp [normStepRequired, hr, hp2] at h
        rw [← h]
        refine ⟨hs, ?_, fun key _ => rfl⟩
        unfold ReqFact
        rw [hpres, hr, hp2]
        simp
      | arr xs =>
        simp [normStepRequired, hr, hp2] at h
        rw [← h]
        refine ⟨hs, ?_, fun key _ => rfl⟩
        unfold ReqFact
        rw [hpres, hr, hp2]
        simp

end Jig

namespace Jig

theorem PropsFact_transfer {l l2 : List (String × Json)} (h : PropsFact l)
    (he : getKey l2 "properties" = getKey l "properties") : PropsFact l2 :=
  fun pvs hg => h pvs (he ▸ hg)

theorem ItemsFactO_transfer {l l2 : List (String × Json)} (h : ItemsFactO l)
    (he : getKey l2 "items" = getKey l "items") : ItemsFactO l2 :=
  fun ikvs hg => h ikvs (he ▸ hg)

theorem ItemsFactA_transfer {l l2 : List (String × Json)} (h : ItemsFactA l)
    (he : getKey l2 "items" = getKey l "items") : ItemsFactA l2 :=
  fun xs x hg => h xs x (he ▸ hg)

theorem CompFact_transfer {l l2 : List (String × Json)} {key : String}
    (h : CompFact l key) (he : getKey l2 key = getKey l key) :
    CompFact l2 key :=
  fun xs x hg => h xs x (he ▸ hg)

theorem DefsFact_transfer {l l2 : List (String × Json)} (h : DefsFact l)
    (he : getKey l2 "$defs" = getKey l "$defs") : DefsFact l2 :=
  fun dvs k v hg => h dvs k v (he ▸ hg)

theorem ReqFact_transfer {l l2 : List (String × Json)} (h : ReqFact l)
    (hr : getKey l2 "required" = getKey l "required")
    (hp : getKey l2 "properties" = getKey l "properties") : ReqFact l2 := by
  unfold ReqFact at h ⊢
  rw [hr, hp]
  exact h

theorem all_fst_eq : ∀ {A B : List (String × Json)},
    A.map Prod.fst = B.map Prod.fst → ∀ p : String → Bool,
    A.all (fun q => p q.1) = B.all (fun q => p q.1) := by
  intro A
  induction A with
  | nil =>
    intro B h p
    cases B with
    | nil => rfl
    | cons q B2 => simp at h
  | cons q A2 ih =>
    intro B h p
    cases B with
    | nil => simp at h
    | cons q2 B2 =>
      obtain ⟨k1, v1⟩ := q
      obtain ⟨k2, v2⟩ := q2
      simp only [List.map_cons, List.cons.injEq] at h
      obtain ⟨hk, ht⟩ := h
      subst hk
      simp only [List.all_cons, ih ht p]

theorem nodupKeysB_keys_eq : ∀ {A B : List (String × Json)},
    A.map Prod.fst = B.map Prod.fst → nodupKeysB A = nodupKeysB B := by
  intro A
  induction A with
  | nil =>
    intro B h
    cases B with
    | nil => rfl
    | cons q B2 => simp at h
  | cons p A2 ih =>
    intro B h
    cases B with
    | nil => simp at h
    | cons q B2 =>
      obtain ⟨k1, v1⟩ := p
      obtain ⟨k2, v2⟩ := q
      simp only [List.map_cons, List.cons.injEq] at h
      obtain ⟨hk, ht⟩ := h
      subst hk
      simp only [nodupKeysB, ht, ih ht]

theorem serJ_obj_shape {pvs : List (String × Json)} {w : Json}
    (h : serJ (Json.obj pvs) w = true) :
    ∃ w2, w = Json.obj w2 ∧ serKvs pvs w2 = true := by
  cases w with
  | obj w2 => exact ⟨w2, rfl, h⟩
  | null => simp [serJ, Json.beq] at h
  | bool b => simp [serJ, Json.beq] at h
  | num i => simp [serJ, Json.beq] at h
  | str s => simp [serJ, Json.beq] at h
  | arr xs => simp [serJ, Json.beq] at h

theorem propsOkB_get {kvs pvs : List (String × Json)}
    (h : propsOkB kvs = true)
    (hg : getKey kvs "properties" = some (Json.obj pvs)) :
    pvs.all (fun p => !(reservedPropNames.contains p.1)) = true
    ∧ nodupKeysB pvs = true := by
  unfold propsOkB at h
  rw [hg] at h
  rw [Bool.and_eq_true] at h
  exact h

end Jig

namespace Jig

/-- First pass of `normalize_schema_for_backend` on a schema without
reserved property keys: the rename map is untouched, the tree changes
only at `required` fields, and every visited node of the output is in
canonical form. -/
theorem c3_pass1 : ∀ n : Nat,
    (∀ j m r, normF n j m = some r → schemaOkJ j = true →
      r.2 = m ∧ serJ j r.1 = true ∧ NormdAll r.1)
    ∧ (∀ kvs m s1, normStepProps n kvs m = some s1 →
        schemaOkJ (Json.obj kvs) = true →
        s1.2 = m ∧ serKvs kvs s1.1 = true ∧ PropsFact s1.1
        ∧ (∀ key, key ≠ "properties" → getKey s1.1 key = getKey kvs key))
    ∧ (∀ kvs s s2, normStepItems n kvs s = some s2 →
        schemaOkJ (Json.obj kvs) = true → serKvs kvs s.1 = true →
        getKey s.1 "items" = getKey kvs "items" →
        s2.2 = s.2 ∧ serKvs kvs s2.1 = true ∧ ItemsFactO s2.1
        ∧ ItemsFactA s2.1
        ∧ (∀ key, key ≠ "items" → getKey s2.1 key = getKey s.1 key))
    ∧ (∀ kvs key s s2, normStepComp n kvs key s = some s2 →
        schemaOkJ (Json.obj kvs) = true → serKvs kvs s.1 = true →
        getKey s.1 key = getKey kvs key →
        s2.2 = s.2 ∧ serKvs kvs s2.1 = true ∧ CompFact s2.1 key
        ∧ (∀ key2, key2 ≠ key → getKey s2.1 key2 = getKey s.1 key2))
    ∧ (∀ kvs s r, normStepDefs n kvs s = some r →
        schemaOkJ (Json.obj kvs) = true → serKvs kvs s.1 = true →
        getKey s.1 "$defs" = getKey kvs "$defs" →
        r.2 = s.2 ∧ ∃ t2, r.1 = Json.obj t2 ∧ serKvs kvs t2 = true
          ∧ DefsFact t2
          ∧ (∀ key2, key2 ≠ "$defs" → getKey t2 key2 = getKey s.1 key2))
    ∧ (∀ pvs m acc r, normPropsF n pvs m acc = some r →
        pvs.all (fun p => !(reservedPropNames.contains p.1)) = true →
        nodupKeysB pvs = true → schemaOkKvs pvs = true →
        (∀ p ∈ pvs, p.1 ∉ acc.map Prod.fst) →
        r.2 = m ∧ ∃ pvs2, r.1 = acc ++ pvs2 ∧ serKvs pvs pvs2 = true
          ∧ pvs2.map Prod.fst = pvs.map Prod.fst
          ∧ (∀ p ∈ pvs2, NormdAll p.2))
    ∧ (∀ xs m r, normListF n xs m = some r → schemaOkList xs = true →
        r.2 = m ∧ serList xs r.1 = true ∧ (∀ x ∈ r.1, NormdAll x))
    ∧ (∀ dvs m r, normDefsF n dvs m = some r → schemaOkKvs dvs = true →
        r.2 = m ∧ serKvs dvs r.1 = true ∧ (∀ p ∈ r.1, NormdAll p.2)) := by
  intro n
  induction n with
  | zero =>
    refine ⟨?_, ?_, ?_, ?_, ?_, ?_, ?_, ?_⟩
    · intro j m r h; simp [normF] at h
    · intro kvs m s1 h; simp [normStepProps] at h
    · intro kvs s s2 h; simp [normStepItems] at h
    · intro kvs key s s2 h; simp [normStepComp] at h
    · intro kvs s r h; simp [normStepDefs] at h
    · intro pvs m acc r h; simp [normPropsF] at h
    · intro xs m r h; simp [normListF] at h
    · intro dvs m r h; simp [normDefsF] at h
  | succ n ih =>
    obtain ⟨ihF, ihP, ihI, ihC, ihD, ihPr, ihL, ihDf⟩ := ih
    refine ⟨?_, ?_, ?_, ?_, ?_, ?_, ?_, ?_⟩
    · -- normF
      intro j m r h hok
      cases j with
      | obj kvs =>
        simp only [normF, bind, Option.bind] at h
        cases h1 : normStepProps n kvs m with
        | none => simp [h1] at h
        | some s1 =>
        simp only [h1] at h
        cases h2 : normStepItems n kvs s1 with
        | none => simp [h2] at h
        | some s2 =>
        simp only [h2] at h
        cases h3 : normStepRequired kvs s2 with
        | none => simp [h3] at h
        | some s3 =>
        simp only [h3] at h
        cases h4 : normStepComp n kvs "anyOf" s3 with
        | none => simp [h4] at h
        | some s4 =>
        simp only [h4] at h
        cases h5 : normStepComp n kvs "oneOf" s4 with
        | none => simp [h5] at h
        | some s5 =>
        simp only [h5] at h
        cases h6 : normStepComp n kvs "allOf" s5 with
        | none => simp [h6] at h
        | some s6 =>
        simp only [h6] at h
        obtain ⟨hP2, hPser, hPfact, hPpres⟩ := ihP kvs m s1 h1 hok
        obtain ⟨hI2, hIser, hIFO, hIFA, hIpres⟩ :=
          ihI kvs s1 s2 h2 hok hPser (hPpres "items" (by decide))
        have hpresR : getKey s2.1 "required" = getKey kvs "required" := by
          rw [hIpres "required" (by decide), hPpres "required" (by decide)]
        obtain ⟨hR2, hRser, hRfact, hRpres⟩ := c3_req h3 hIser hpresR
        have hpres4 : getKey s3.1 "anyOf" = getKey kvs "anyOf" := by
          rw [hRpres "anyOf" (by decide), hIpres "anyOf" (by decide),
            hPpres "anyOf" (by decide)]
        obtain ⟨hC42, hC4ser, hC4fact, hC4pres⟩ :=
          ihC kvs "anyOf" s3 s4 h4 hok hRser hpres4
        have hpres5 : getKey s4.1 "oneOf" = getKey kvs "oneOf" := by
          rw [hC4pres "oneOf" (by decide), hRpres "oneOf" (by decide),
            hIpres "oneOf" (by decide), hPpres "oneOf" (by decide)]
        obtain ⟨hC52, hC5ser, hC5fact, hC5pres⟩ :=
          ihC kvs "oneOf" s4 s5 h5 hok hC4ser hpres5
        have hpres6 : getKey s5.1 "allOf" = getKey kvs "allOf" := by
          rw [hC5pres "allOf" (by decide), hC4pres "allOf" (by decide),
            hRpres "allOf" (by decide), hIpres "allOf" (by decide),
            hPpres "allOf" (by decide)]
        obtain ⟨hC62, hC6ser, hC6fact, hC6pres⟩ :=
          ihC kvs "allOf" s5 s6 h6 hok hC5ser hpres6
        have hpres7 : getKey s6.1 "$defs" = getKey kvs "$defs" := by
          rw [hC6pres "$defs" (by decide), hC5pres "$defs" (by decide),
            hC4pres "$defs" (by decide), hRpres "$defs" (by decide),
            hIpres "$defs" (by decide), hPpres "$defs" (by decide)]
        obtain ⟨hD2, t2, ht2, hDser, hDfact, hDpres⟩ :=
          ihD kvs s6 r h hok hC6ser hpres7
        have hm : r.2 = m := by rw [hD2, hC62, hC52, hC42, hR2, hI2, hP2]
        have hT_props : getKey t2 "properties" = getKey s1.1 "properties" := by
          rw [hDpres "properties" (by decide), hC6pres "properties" (by decide),
            hC5pres "properties" (by decide), hC4pres "properties" (by decide),
            hRpres "properties" (by decide), hIpres "properties" (by decide)]
        have hprops_s3 : getKey s3.1 "properties"
            = getKey s1.1 "properties" := by
          rw [hRpres "properties" (by decide), hIpres "properties" (by decide)]
        have hT_items : getKey t2 "items" = getKey s2.1 "items" := by
          rw [hDpres "items" (by decide), hC6pres "items" (by decide),
            hC5pres "items" (by decide), hC4pres "items" (by decide),
            hRpres "items" (by decide)]
        have hT_req : getKey t2 "required" = getKey s3.1 "required" := by
          rw [hDpres "required" (by decide), hC6pres "required" (by decide),
            hC5pres "required" (by decide), hC4pres "required" (by decide)]
        have hT_any : getKey t2 "anyOf" = getKey s4.1 "anyOf" := by
          rw [hDpres "anyOf" (by decide), hC6pres "anyOf" (by decide),
            hC5pres "anyOf" (by decide)]
        have hT_one : getKey t2 "oneOf" = getKey s5.1 "oneOf" := by
          rw [hDpres "oneOf" (by decide), hC6pres "oneOf" (by decide)]
        have hT_all : getKey t2 "allOf" = getKey s6.1 "allOf" :=
          hDpres "allOf" (by decide)
        have hPfact2 : PropsFact t2 := PropsFact_transfer hPfact hT_props
        have hIFO2 : ItemsFactO t2 := ItemsFactO_transfer hIFO hT_items
        have hIFA2 : ItemsFactA t2 := ItemsFactA_transfer hIFA hT_items
        have hReq2 : ReqFact t2 :=
          ReqFact_transfer hRfact hT_req (hT_props.trans hprops_s3.symm)
        have hC4f2 : CompFact t2 "anyOf" := CompFact_transfer hC4fact hT_any
        have hC5f2 : CompFact t2 "oneOf" := CompFact_transfer hC5fact hT_one
        have hC6f2 : CompFact t2 "allOf" := CompFact_transfer hC6fact hT_all
        refine ⟨hm, ?_, ?_⟩
        · rw [ht2]
          exact hDser
        · rw [ht2]
          apply normdAll_obj
          · exact localNormOk_of_facts (propsOkB_of_fact hPfact2) hReq2
          · intro pvs k v hg hm2
            exact (hPfact2 pvs hg).2 (k, v) hm2
          · intro ikvs hg
            exact hIFO2 ikvs hg
          · intro xs x hg hm2
            exact hIFA2 xs x hg hm2
          · intro key xs x hk hg hm2
            simp at hk
            rcases hk with rfl | rfl | rfl
            · exact hC4f2 xs x hg hm2
            · exact hC5f2 xs x hg hm2
            · exact hC6f2 xs x hg hm2
          · intro dvs k v hg hm2
            exact hDfact dvs k v hg hm2
      | null =>
        simp [normF] at h
        rw [← h]
        exact ⟨rfl, serJ_refl _, normdAll_scalar (by intro kvs hx; cases hx) rfl⟩
      | bool b =>
        simp [normF] at h
        rw [← h]
        exact ⟨rfl, serJ_refl _, normdAll_scalar (by intro kvs hx; cases hx) rfl⟩
      | num i =>
        simp [normF] at h
        rw [← h]
        exact ⟨rfl, serJ_refl _, normdAll_scalar (by intro kvs hx; cases hx) rfl⟩
      | str s0 =>
        simp [normF] at h
        rw [← h]
        exact ⟨rfl, serJ_refl _, normdAll_scalar (by intro kvs hx; cases hx) rfl⟩
      | arr xs =>
        simp [normF] at h
        rw [← h]
        exact ⟨rfl, serJ_refl _, normdAll_scalar (by intro kvs hx; cases hx) rfl⟩
    · -- normStepProps
      intro kvs m s1 h hok
      cases hg : getKey kvs "properties" with
      | some pv =>
        cases pv with
        | obj pvs =>
          cases hr0 : normPropsF n pvs m [] with
          | none => simp [normStepProps, hg, hr0] at h
          | some r0 =>
            simp [normStepProps, hg, hr0] at h
            rw [← h]
            have hpo := propsOkB_get (schemaOkJ_obj hok).1 hg
            have hsk : schemaOkJ (Json.obj pvs) = true :=
              schemaOkJ_getKey hok hg
            obtain ⟨hPr2, pvs2, hp2eq, hp2ser, hp2keys, hp2norm⟩ :=
              ihPr pvs m [] r0 hr0 hpo.1 hpo.2 (schemaOkJ_obj hsk).2
                (by intro p hp; simp)
            simp only [List.nil_append] at hp2eq
            refine ⟨hPr2, ?_, ?_, ?_⟩
            · apply serKvs_setKey_step (serKvs_refl kvs) hg hg
              rw [hp2eq]
              exact hp2ser
            · intro pvs' hg'
              rw [getKey_setKey_self] at hg'
              have hpv : r0.1 = pvs' := Json.obj.inj (Option.some.inj hg')
              rw [hp2eq] at hpv
              subst hpv
              refine ⟨?_, hp2norm⟩
              rw [Bool.and_eq_true]
              have hA : (pvs2.all fun p => !(reservedPropNames.contains p.1))
                  = (pvs.all fun p => !(reservedPropNames.contains p.1)) :=
                all_fst_eq hp2keys (fun k => !(reservedPropNames.contains k))
              exact ⟨hA.trans hpo.1,
                (nodupKeysB_keys_eq hp2keys).trans hpo.2⟩
            · intro key hk
              exact getKey_setKey_ne _ _ (Ne.symm hk)
        | null =>
          simp [normStepProps, hg] at h
          rw [← h]
          refine ⟨rfl, serKvs_refl _, ?_, fun key _ => rfl⟩
          intro pvs' hg'
          rw [hg] at hg'
          exact absurd (Option.some.inj hg') (by simp)
        | bool b =>
          simp [normStepProps, hg] at h
          rw [← h]
          refine ⟨rfl, serKvs_refl _, ?_, fun key _ => rfl⟩
          intro pvs' hg'
          rw [hg] at hg'
          exact absurd (Option.some.inj hg') (by simp)
        | num i =>
          simp [normStepProps, hg] at h
          rw [← h]
          refine ⟨rfl, serKvs_refl _, ?_, fun key _ => rfl⟩
          intro pvs' hg'
          rw [hg] at hg'
          exact absurd (Option.some.inj hg') (by simp)
        | str s0 =>
          simp [normStepProps, hg] at h
          rw [← h]
          refine ⟨rfl, serKvs_refl _, ?_, fun key _ => rfl⟩
          intro pvs' hg'
          rw [hg] at hg'
          exact absurd (Option.some.inj hg') (by simp)
        | arr xs =>
          simp [normStepProps, hg] at h
          rw [← h]
          refine ⟨rfl, serKvs_refl _, ?_, fun key _ => rfl⟩
          intro pvs' hg'
          rw [hg] at hg'
          exact absurd (Option.some.inj hg') (by simp)
      | none =>
        simp [normStepProps, hg] at h
        rw [← h]
        refine ⟨rfl, serKvs_refl _, ?_, fun key _ => rfl⟩
        intro pvs' hg'
        rw [hg] at hg'
        exact absurd hg' (by simp)
    · -- normStepItems
      intro kvs s s2 h hok hser hpres
      cases hi : getKey kvs "items" with
      | some iv =>
        cases iv with
        | obj ikvs =>
          cases hr0 : normF n (.obj ikvs) s.2 with
          | none => simp [normStepItems, hi, hr0] at h
          | some r0 =>
            simp [normStepItems, hi, hr0] at h
            rw [← h]
            obtain ⟨hF2, hFser, hFnorm⟩ :=
              ihF _ _ _ hr0 (schemaOkJ_getKey hok hi)
            obtain ⟨it2, hit2, hitser⟩ := serJ_obj_shape hFser
            refine ⟨hF2, ?_, ?_, ?_, ?_⟩
            · exact serKvs_setKey_step hser hi (hpres.trans hi) hFser
            · intro ikvs2 hg
              rw [getKey_setKey_self] at hg
              rw [← Option.some.inj hg]
              exact hFnorm
            · intro xs x hg hm2
              rw [getKey_setKey_self] at hg
              have := Option.some.inj hg
              rw [hit2] at this
              exact absurd this (by simp)
            · intro key hk
              exact getKey_setKey_ne _ _ (Ne.symm hk)
        | arr xs =>
          cases hr0 : normListF n xs s.2 with
          | none => simp [normStepItems, hi, hr0] at h
          | some r0 =>
            simp [normStepItems, hi, hr0] at h
            rw [← h]
            have hxs : schemaOkList xs = true := schemaOkJ_getKey hok hi
            obtain ⟨hL2, hLser, hLnorm⟩ := ihL xs s.2 r0 hr0 hxs
            refine ⟨hL2, ?_, ?_, ?_, ?_⟩
            · exact serKvs_setKey_step hser hi (hpres.trans hi) hLser
            · intro ikvs2 hg
              rw [getKey_setKey_self] at hg
              exact absurd (Option.some.inj hg) (by simp)
            · intro xs2 x hg hm2
              rw [getKey_setKey_self] at hg
              have hx := Option.some.inj hg
              have hx2 : r0.1 = xs2 := Json.arr.inj hx
              rw [← hx2] at hm2
              exact hLnorm x hm2
            · intro key hk
              exact getKey_setKey_ne _ _ (Ne.symm hk)
        | null =>
          simp [normStepItems, hi] at h
          rw [← h]
          refine ⟨rfl, hser, ?_, ?_, fun key _ => rfl⟩
          · intro ikvs2 hg
            rw [hpres, hi] at hg
            exact absurd (Option.some.inj hg) (by simp)
          · intro xs x hg hm2
            rw [hpres, hi] at hg
            exact absurd (Option.some.inj hg) (by simp)
        | bool b =>
          simp [normStepItems, hi] at h
          rw [← h]
          refine ⟨rfl, hser, ?_, ?_, fun key _ => rfl⟩
          · intro ikvs2 hg
            rw [hpres, hi] at hg
            exact absurd (Option.some.inj hg) (by simp)
          · intro xs x hg hm2
            rw [hpres, hi] at hg
            exact absurd (Option.some.inj hg) (by simp)
        | num i =>
          simp [normStepItems, hi] at h
          rw [← h]
          refine ⟨rfl, hser, ?_, ?_, fun key _ => rfl⟩
          · intro ikvs2 hg
            rw [hpres, hi] at hg
            exact absurd (Option.some.inj hg) (by simp)
          · intro xs x hg hm2
            rw [hpres, hi] at hg
            exact absurd (Option.some.inj hg) (by simp)
        | str s0 =>
          simp [normStepItems, hi] at h
          rw [← h]
          refine ⟨rfl, hser, ?_, ?_, fun key _ => rfl⟩
          · intro ikvs2 hg
            rw [hpres, hi] at hg
            exact absurd (Option.some.inj hg) (by simp)
          · intro xs x hg hm2
            rw [hpres, hi] at hg
            exact absurd (Option.some.inj hg) (by simp)
      | none =>
        simp [normStepItems, hi] at h
        rw [← h]
        refine ⟨rfl, hser, ?_, ?_, fun key _ => rfl⟩
        · intro ikvs2 hg
          rw [hpres, hi] at hg
          exact absurd hg (by simp)
        · intro xs x hg hm2
          rw [hpres, hi] at hg
          exact absurd hg (by simp)
    · -- normStepComp
      intro kvs key s s2 h hok hser hpres
      cases hi : getKey kvs key with
      | some iv =>
        cases iv with
        | arr xs =>
          cases hr0 : normListF n xs s.2 with
          | none => simp [normStepComp, hi, hr0] at h
          | some r0 =>
            simp [normStepComp, hi, hr0] at h
            rw [← h]
            have hxs : schemaOkList xs = true := schemaOkJ_getKey hok hi
            obtain ⟨hL2, hLser, hLnorm⟩ := ihL xs s.2 r0 hr0 hxs
            refine ⟨hL2, ?_, ?_, ?_⟩
            · exact serKvs_setKey_step hser hi (hpres.trans hi) hLser
            · intro xs2 x hg hm2
              rw [getKey_setKey_self] at hg
              have hx2 : r0.1 = xs2 := Json.arr.inj (Option.some.inj hg)
              rw [← hx2] at hm2
              exact hLnorm x hm2
            · intro key2 hk
              exact getKey_setKey_ne _ _ (Ne.symm hk)
        | obj kvs2 =>
          simp [normStepComp, hi] at h
          rw [← h]
          refine ⟨rfl, hser, ?_, fun key2 _ => rfl⟩
          intro xs2 x hg hm2
          rw [hpres, hi] at hg
          exact absurd (Option.some.inj hg) (by simp)
        | null =>
          simp [normStepComp, hi] at h
          rw [← h]
          refine ⟨rfl, hser, ?_, fun key2 _ => rfl⟩
          intro xs2 x hg hm2
          rw [hpres, hi] at hg
          exact absurd (Option.some.inj hg) (by simp)
        | bool b =>
          simp [normStepComp, hi] at h
          rw [← h]
          refine ⟨rfl, hser, ?_, fun key2 _ => rfl⟩
          intro xs2 x hg hm2
          rw [hpres, hi] at hg
          exact absurd (Option.some.inj hg) (by simp)
        | num i =>
          simp [normStepComp, hi] at h
          rw [← h]
          refine ⟨rfl, hser, ?_, fun key2 _ => rfl⟩
          intro xs2 x hg hm2
          rw [hpres, hi] at hg
          exact absurd (Option.some.inj hg) (by simp)
        | str s0 =>
          simp [normStepComp, hi] at h
          rw [← h]
          refine ⟨rfl, hser, ?_, fun key2 _ => rfl⟩
          intro xs2 x hg hm2
          rw [hpres, hi] at hg
          exact absurd (Option.some.inj hg) (by simp)
      | none =>
        simp [normStepComp, hi] at h
        rw [← h]
        refine ⟨rfl, hser, ?_, fun key2 _ => rfl⟩
        intro xs2 x hg hm2
        rw [hpres, hi] at hg
        exact absurd hg (by simp)
    · -- normStepDefs
      intro kvs s r h hok hser hpres
      cases hd : getKey kvs "$defs" with
      | some dv =>
        cases dv with
        | obj dvs =>
          cases hr0 : normDefsF n dvs s.2 with
          | none => simp [normStepDefs, hd, hr0] at h
          | some r0 =>
            simp [normStepDefs, hd, hr0] at h
            rw [← h]
            have hdk : schemaOkKvs dvs = true :=
              (schemaOkJ_obj (schemaOkJ_getKey hok hd)).2
            obtain ⟨hDf2, hDfser, hDfnorm⟩ := ihDf dvs s.2 r0 hr0 hdk
            refine ⟨hDf2, setKey s.1 "$defs" (Json.obj r0.1), rfl, ?_, ?_, ?_⟩
            · exact serKvs_setKey_step hser hd (hpres.trans hd) hDfser
            · intro dvs2 k v hg hm2
              rw [getKey_setKey_self] at hg
              have hx : r0.1 = dvs2 := Json.obj.inj (Option.some.inj hg)
              rw [← hx] at hm2
              exact hDfnorm (k, v) hm2
            · intro key2 hk
              exact getKey_setKey_ne _ _ (Ne.symm hk)
        | null =>
          simp [normStepDefs, hd] at h
          rw [← h]
          refine ⟨rfl, s.1, rfl, hser, ?_, fun key2 _ => rfl⟩
          intro dvs2 k v hg hm2
          rw [hpres, hd] at hg
          exact absurd (Option.some.inj hg) (by simp)
        | bool b =>
          simp [normStepDefs, hd] at h
          rw [← h]
          refine ⟨rfl, s.1, rfl, hser, ?_, fun key2 _ => rfl⟩
          intro dvs2 k v hg hm2
          rw [hpres, hd] at hg
          exact absurd (Option.some.inj hg) (by simp)
        | num i =>
          simp [normStepDefs, hd] at h
          rw [← h]
          refine ⟨rfl, s.1, rfl, hser, ?_, fun key2 _ => rfl⟩
          intro dvs2 k v hg hm2
          rw [hpres, hd] at hg
          exact absurd (Option.some.inj hg) (by simp)
        | str s0 =>
          simp [normStepDefs, hd] at h
          rw [← h]
          refine ⟨rfl, s.1, rfl, hser, ?_, fun key2 _ => rfl⟩
          intro dvs2 k v hg hm2
          rw [hpres, hd] at hg
          exact absurd (Option.some.inj hg) (by simp)
        | arr xs =>
          simp [normStepDefs, hd] at h
          rw [← h]
          refine ⟨rfl, s.1, rfl, hser, ?_, fun key2 _ => rfl⟩
          intro dvs2 k v hg hm2
          rw [hpres, hd] at hg
          exact absurd (Option.some.inj hg) (by simp)
      | none =>
        simp [normStepDefs, hd] at h
        rw [← h]
        refine ⟨rfl, s.1, rfl, hser, ?_, fun key2 _ => rfl⟩
        intro dvs2 k v hg hm2
        rw [hpres, hd] at hg
        exact absurd hg (by simp)
    · -- normPropsF
      intro pvs m acc r h hall hnodup hok hfresh
      cases pvs with
      | nil =>
        simp [normPropsF] at h
        rw [← h]
        exact ⟨rfl, [], by simp, rfl, rfl, by simp⟩
      | cons p rest =>
        obtain ⟨k, v⟩ := p
        simp only [List.all_cons, Bool.and_eq_true, Bool.not_eq_true'] at hall
        have hknotmem : k ∉ reservedPropNames :=
          contains_false_not_mem hall.1
        obtain ⟨hnd1, hnd2⟩ := nodupKeysB_head hnodup
        simp only [schemaOkKvs, Bool.and_eq_true] at hok
        cases hr0 : normF n v m with
        | none => simp [normPropsF, hknotmem, hr0] at h
        | some r1 =>
          simp only [normPropsF, if_neg hknotmem, hr0, Option.bind,
            bind] at h
          obtain ⟨hF2, hFser, hFnorm⟩ := ihF v m r1 hr0 hok.1
          have hacc : setKey acc k r1.1 = acc ++ [(k, r1.1)] := by
            apply setKey_of_fresh
            intro q hq hqk
            apply hfresh (k, v) (List.mem_cons_self _ _)
            rw [← hqk]
            exact List.mem_map.mpr ⟨q, hq, rfl⟩
          rw [hacc] at h
          have hkrest : k ∉ rest.map Prod.fst :=
            contains_false_not_mem hnd1
          obtain ⟨hPr2, pvs2, hp2eq, hp2ser, hp2keys, hp2norm⟩ :=
            ihPr rest r1.2 (acc ++ [(k, r1.1)]) r h hall.2 hnd2 hok.2
              (by
                intro q hq
                rw [List.map_append]
                intro hmem
                cases List.mem_append.mp hmem with
                | inl h2 => exact hfresh q (List.mem_cons_of_mem _ hq) h2
                | inr h2 =>
                  simp at h2
                  exact hkrest (h2 ▸ List.mem_map_of_mem _ hq))
          rw [hF2] at hPr2
          refine ⟨hPr2, (k, r1.1) :: pvs2, ?_, ?_, ?_, ?_⟩
          · rw [hp2eq, List.append_assoc]
            rfl
          · simp only [serKvs, Bool.and_eq_true, decide_eq_true_eq,
              Bool.or_eq_true]
            exact ⟨⟨by trivial, Or.inr hFser⟩, hp2ser⟩
          · simp only [List.map_cons, hp2keys]
          · intro q hq
            cases List.mem_cons.mp hq with
            | inl h2 => rw [h2]; exact hFnorm
            | inr h2 => exact hp2norm q h2
    · -- normListF
      intro xs m r h hok
      cases xs with
      | nil =>
        simp [normListF] at h
        rw [← h]
        exact ⟨rfl, rfl, by simp⟩
      | cons x rest =>
        simp only [schemaOkList, Bool.and_eq_true] at hok
        cases x with
        | obj kvs2 =>
          cases hr0 : normF n (.obj kvs2) m with
          | none => simp [normListF, hr0] at h
          | some r1 =>
            cases hr1 : normListF n rest r1.2 with
            | none => simp [normListF, hr0, hr1] at h
            | some r2 =>
              simp [normListF, hr0, hr1] at h
              rw [← h]
              obtain ⟨hF2, hFser, hFnorm⟩ := ihF _ _ _ hr0 hok.1
              obtain ⟨hL2, hLser, hLnorm⟩ := ihL rest r1.2 r2 hr1 hok.2
              rw [hF2] at hL2
              refine ⟨hL2, ?_, ?_⟩
              · simp only [serList, Bool.and_eq_true]
                exact ⟨hFser, hLser⟩
              · intro y hy
                cases List.mem_cons.mp hy with
                | inl h2 => rw [h2]; exact hFnorm
                | inr h2 => exact hLnorm y h2
        | null =>
          cases hr1 : normListF n rest m with
          | none => simp [normListF, hr1] at h
          | some r2 =>
            simp [normListF, hr1] at h
            rw [← h]
            obtain ⟨hL2, hLser, hLnorm⟩ := ihL rest m r2 hr1 hok.2
            refine ⟨hL2, ?_, ?_⟩
            · simp only [serList, Bool.and_eq_true]
              exact ⟨serJ_refl _, hLser⟩
            · intro y hy
              cases List.mem_cons.mp hy with
              | inl h2 =>
                rw [h2]
                exact normdAll_scalar (by intro kvs hx; cases hx) rfl
              | inr h2 => exact hLnorm y h2
        | bool b =>
          cases hr1 : normListF n rest m with
          | none => simp [normListF, hr1] at h
          | some r2 =>
            simp [normListF, hr1] at h
            rw [← h]
            obtain ⟨hL2, hLser, hLnorm⟩ := ihL rest m r2 hr1 hok.2
            refine ⟨hL2, ?_, ?_⟩
            · simp only [serList, Bool.and_eq_true]
              exact ⟨serJ_refl _, hLser⟩
            · intro y hy
              cases List.mem_cons.mp hy with
              | inl h2 =>
                rw [h2]
                exact normdAll_scalar (by intro kvs hx; cases hx) rfl
              | inr h2 => exact hLnorm y h2
        | num i =>
          cases hr1 : normListF n rest m with
          | none => simp [normListF, hr1] at h
          | some r2 =>
            simp [normListF, hr1] at h
            rw [← h]
            obtain ⟨hL2, hLser, hLnorm⟩ := ihL rest m r2 hr1 hok.2
            refine ⟨hL2, ?_, ?_⟩
            · simp only [serList, Bool.and_eq_true]
              exact ⟨serJ_refl _, hLser⟩
            · intro y hy
              cases List.mem_cons.mp hy with
              | inl h2 =>
                rw [h2]
                exact normdAll_scalar (by intro kvs hx; cases hx) rfl
              | inr h2 => exact hLnorm y h2
        | str s0 =>
          cases hr1 : normListF n rest m with
          | none => simp [normListF, hr1] at h
          | some r2 =>
            simp [normListF, hr1] at h
            rw [← h]
            obtain ⟨hL2, hLser, hLnorm⟩ := ihL rest m r2 hr1 hok.2
            refine ⟨hL2, ?_, ?_⟩
            · simp only [serList, Bool.and_eq_true]
              exact ⟨serJ_refl _, hLser⟩
            · intro y hy
              cases List.mem_cons.mp hy with
              | inl h2 =>
                rw [h2]
                exact normdAll_scalar (by intro kvs hx; cases hx) rfl
              | inr h2 => exact hLnorm y h2
        | arr ys =>
          cases hr1 : normListF n rest m with
          | none => simp [normListF, hr1] at h
          | some r2 =>
            simp [normListF, hr1] at h
            rw [← h]
            obtain ⟨hL2, hLser, hLnorm⟩ := ihL rest m r2 hr1 hok.2
            refine ⟨hL2, ?_, ?_⟩
            · simp only [serList, Bool.and_eq_true]
              exact ⟨serJ_refl _, hLser⟩
            · intro y hy
              cases List.mem_cons.mp hy with
              | inl h2 =>
                rw [h2]
                exact normdAll_scalar (by intro kvs hx; cases hx) rfl
              | inr h2 => exact hLnorm y h2
    · -- normDefsF
      intro dvs m r h hok
      cases dvs with
      | nil =>
        simp [normDefsF] at h
        rw [← h]
        exact ⟨rfl, rfl, by simp⟩
      | cons p rest =>
        obtain ⟨k, v⟩ := p
        simp only [schemaOkKvs, Bool.and_eq_true] at hok
        cases v with
        | obj kvs2 =>
          cases hr0 : normF n (.obj kvs2) m with
          | none => simp [normDefsF, hr0] at h
          | some r1 =>
            cases hr1 : normDefsF n rest r1.2 with
            | none => simp [normDefsF, hr0, hr1] at h
            | some r2 =>
              simp [normDefsF, hr0, hr1] at h
              rw [← h]
              obtain ⟨hF2, hFser, hFnorm⟩ := ihF _ _ _ hr0 hok.1
              obtain ⟨hDf2, hDfser, hDfnorm⟩ := ihDf rest r1.2 r2 hr1 hok.2
              rw [hF2] at hDf2
              refine ⟨hDf2, ?_, ?_⟩
              · simp only [serKvs, Bool.and_eq_true, decide_eq_true_eq,
                  Bool.or_eq_true]
                exact ⟨⟨by trivial, Or.inr hFser⟩, hDfser⟩
              · intro q hq
                cases List.mem_cons.mp hq with
                | inl h2 => rw [h2]; exact hFnorm
                | inr h2 => exact hDfnorm q h2
        | null =>
          cases hr1 : normDefsF n rest m with
          | none => simp [normDefsF, hr1] at h
          | some r2 =>
            simp [normDefsF, hr1] at h
            rw [← h]
            obtain ⟨hDf2, hDfser, hDfnorm⟩ := ihDf rest m r2 hr1 hok.2
            refine ⟨hDf2, ?_, ?_⟩
            · simp only [serKvs, Bool.and_eq_true, decide_eq_true_eq,
                Bool.or_eq_true]
              exact ⟨⟨by trivial, Or.inr (serJ_refl _)⟩, hDfser⟩
            · intro q hq
              cases List.mem_cons.mp hq with
              | inl h2 =>
                rw [h2]
                exact normdAll_scalar (by intro kvs hx; cases hx) rfl
              | inr h2 => exact hDfnorm q h2
        | bool b =>
          cases hr1 : normDefsF n rest m with
          | none => simp [normDefsF, hr1] at h
          | some r2 =>
            simp [normDefsF, hr1] at h
            rw [← h]
            obtain ⟨hDf2, hDfser, hDfnorm⟩ := ihDf rest m r2 hr1 hok.2
            refine ⟨hDf2, ?_, ?_⟩
            · simp only [serKvs, Bool.and_eq_true, decide_eq_true_eq,
                Bool.or_eq_true]
              exact ⟨⟨by trivial, Or.inr (serJ_refl _)⟩, hDfser⟩
            · intro q hq
              cases List.mem_cons.mp hq with
              | inl h2 =>
                rw [h2]
                exact normdAll_scalar (by intro kvs hx; cases hx) rfl
              | inr h2 => exact hDfnorm q h2
        | num i =>
          cases hr1 : normDefsF n rest m with
          | none => simp [normDefsF, hr1] at h
          | some r2 =>
            simp [normDefsF, hr1] at h
            rw [← h]
            obtain ⟨hDf2, hDfser, hDfnorm⟩ := ihDf rest m r2 hr1 hok.2
            refine ⟨hDf2, ?_, ?_⟩
            · simp only [serKvs, Bool.and_eq_true, decide_eq_true_eq,
                Bool.or_eq_true]
              exact ⟨⟨by trivial, Or.inr (serJ_refl _)⟩, hDfser⟩
            · intro q hq
              cases List.mem_cons.mp hq with
              | inl h2 =>
                rw [h2]
                exact normdAll_scalar (by intro kvs hx; cases hx) rfl
              | inr h2 => exact hDfnorm q h2
        | str s0 =>
          cases hr1 : normDefsF n rest m with
          | none => simp [normDefsF, hr1] at h
          | some r2 =>
            simp [normDefsF, hr1] at h
            rw [← h]
            obtain ⟨hDf2, hDfser, hDfnorm⟩ := ihDf rest m r2 hr1 hok.2
            refine ⟨hDf2, ?_, ?_⟩
            · simp only [serKvs, Bool.and_eq_true, decide_eq_true_eq,
                Bool.or_eq_true]
              exact ⟨⟨by trivial, Or.inr (serJ_refl _)⟩, hDfser⟩
            · intro q hq
              cases List.mem_cons.mp hq with
              | inl h2 =>
                rw [h2]
                exact normdAll_scalar (by intro kvs hx; cases hx) rfl
              | inr h2 => exact hDfnorm q h2
        | arr ys =>
          cases hr1 : normDefsF n rest m with
          | none => simp [normDefsF, hr1] at h
          | some r2 =>
            simp [normDefsF, hr1] at h
            rw [← h]
            obtain ⟨hDf2, hDfser, hDfnorm⟩ := ihDf rest m r2 hr1 hok.2
            refine ⟨hDf2, ?_, ?_⟩
            · simp only [serKvs, Bool.and_eq_true, decide_eq_true_eq,
                Bool.or_eq_true]
              exact ⟨⟨by trivial, Or.inr (serJ_refl _)⟩, hDfser⟩
            · intro q hq
              cases List.mem_cons.mp hq with
              | inl h2 =>
                rw [h2]
                exact normdAll_scalar (by intro kvs hx; cases hx) rfl
              | inr h2 => exact hDfnorm q h2

end Jig

namespace Jig

theorem fixEntries_all_str : ∀ {rs nrs : List Json},
    fixEntries rs = some nrs → rs.all Json.isStr = true →
    nrs.all Json.isStr = true := by
  intro rs
  induction rs with
  | nil =>
    intro nrs h _
    simp [fixEntries] at h
    rw [h]
    rfl
  | cons x rest ih =>
    intro nrs h hall
    simp only [List.all_cons, Bool.and_eq_true] at hall
    cases x with
    | str s0 =>
      cases hfe : fixEntries rest with
      | none => simp [fixEntries, hfe] at h
      | some r =>
        simp [fixEntries, hfe] at h
        rw [← h]
        simp only [List.all_cons, Bool.and_eq_true]
        constructor
        · split <;> rfl
        · exact ih hfe hall.2
    | null => simp [Json.isStr] at hall
    | bool b => simp [Json.isStr] at hall
    | num i => simp [Json.isStr] at hall
    | arr xs => simp [Json.isStr] at hall
    | obj kvs => simp [Json.isStr] at hall

theorem isEmpty_of_keys_eq : ∀ {A B : List (String × Json)},
    A.map Prod.fst = B.map Prod.fst → A.isEmpty = B.isEmpty := by
  intro A B h
  cases A with
  | nil => cases B with
    | nil => rfl
    | cons q B2 => simp at h
  | cons p A2 => cases B with
    | nil => simp at h
    | cons q B2 => rfl

theorem serJS_obj_shape {pvs : List (String × Json)} {w : Json}
    (h : serJS (Json.obj pvs) w = true) :
    ∃ w2, w = Json.obj w2 ∧ serKvsS pvs w2 = true := by
  cases w with
  | obj w2 => exact ⟨w2, rfl, h⟩
  | null => simp [serJS, Json.beq] at h
  | bool b => simp [serJS, Json.beq] at h
  | num i => simp [serJS, Json.beq] at h
  | str s => simp [serJS, Json.beq] at h
  | arr xs => simp [serJS, Json.beq] at h

theorem serKvsS_keys : ∀ {A B : List (String × Json)},
    serKvsS A B = true → A.map Prod.fst = B.map Prod.fst := by
  intro A
  induction A with
  | nil =>
    intro B h
    cases B with
    | nil => rfl
    | cons q B2 => simp [serKvsS] at h
  | cons p A2 ih =>
    intro B h
    cases B with
    | nil => simp [serKvsS] at h
    | cons q B2 =>
      obtain ⟨k1, v1⟩ := p
      obtain ⟨k2, v2⟩ := q
      simp only [serKvsS, Bool.and_eq_true, decide_eq_true_eq,
        Bool.or_eq_true] at h
      simp only [List.map_cons, h.1.1, ih h.2]

end Jig

namespace Jig

theorem localNormOk_split {l : List (String × Json)}
    (h : localNormOk (Json.obj l) = true) :
    propsOkB l = true ∧ ReqFact l := by
  unfold localNormOk at h
  rw [Bool.and_eq_true] at h
  refine ⟨h.1, ?_⟩
  have h2 := h.2
  unfold ReqFact
  cases hg : getKey l "required" with
  | some rv =>
    rw [hg] at h2
    cases rv with
    | null =>
      cases hg2 : getKey l "properties" with
      | none => trivial
      | some pv =>
        rw [hg2] at h2
        cases pv <;> simp_all
    | arr rs => simp_all
    | bool b => simp_all
    | num i => simp_all
    | str s0 => simp_all
    | obj kvs2 => simp_all
  | none =>
    rw [hg] at h2
    cases hg2 : getKey l "properties" with
    | none => trivial
    | some pv =>
      rw [hg2] at h2
      cases pv <;> simp_all

theorem propsOkB_transfer {l l2 : List (String × Json)}
    (he : getKey l2 "properties" = getKey l "properties") :
    propsOkB l2 = propsOkB l := by
  unfold propsOkB
  rw [he]


theorem fixReqF_props_nonobj {n : Nat} {kvs : List (String × Json)}
    {pv : Json} (hp : getKey kvs "properties" = some pv)
    (hnotobj : ∀ o, pv ≠ Json.obj o) :
    fixReqF (n + 1) (Json.obj kvs)
      = if truthy pv then none
        else
          match getKey kvs "items" with
          | some (.obj ikvs) =>
              (fixReqF n (Json.obj ikvs)).bind
                (fun ni => some (Json.obj (setKey kvs "items" ni)))
          | _ => some (Json.obj kvs) := by
  cases pv
  case obj o => exact absurd rfl (hnotobj o)
  all_goals
    simp only [fixReqF, hp]
    split
    · rfl
    · cases hi : getKey kvs "items" with
      | none => rfl
      | some iv =>
        cases iv <;> simp [Option.bind, bind]

/-- `_fix_required` on a canonical tree: it rewrites in place (never
adds or removes a key anywhere) and the result is still canonical. -/
theorem c3_fix : ∀ n : Nat,
    (∀ j t, fixReqF n j = some t → NormdAll j →
      serJS j t = true ∧ NormdAll t)
    ∧ (∀ l nl, fixPropsF n l = some nl → (∀ p ∈ l, NormdAll p.2) →
      serKvsS l nl = true ∧ (∀ p ∈ nl, NormdAll p.2)) := by
  intro n
  induction n with
  | zero =>
    constructor
    · intro j t h; simp [fixReqF] at h
    · intro l nl h; simp [fixPropsF] at h
  | succ n ih =>
    obtain ⟨ihR, ihP⟩ := ih
    constructor
    · intro j t h hnorm
      cases j with
      | null => simp [fixReqF] at h; rw [← h]; exact ⟨serJS_refl _, hnorm⟩
      | bool b => simp [fixReqF] at h; rw [← h]; exact ⟨serJS_refl _, hnorm⟩
      | num i => simp [fixReqF] at h; rw [← h]; exact ⟨serJS_refl _, hnorm⟩
      | str s0 => simp [fixReqF] at h; rw [← h]; exact ⟨serJS_refl _, hnorm⟩
      | arr xs => simp [fixReqF] at h; rw [← h]; exact ⟨serJS_refl _, hnorm⟩
      | obj kvs =>
        have hsplit := localNormOk_split (normdAll_local hnorm)
        have hfinal : ∀ kvs2 t2, serKvsS kvs kvs2 = true →
            ((getKey kvs2 "required" = getKey kvs "required")
              ∨ (∃ nrs, getKey kvs2 "required" = some (Json.arr nrs)
                  ∧ nrs.all Json.isStr = true)) →
            ((getKey kvs2 "properties" = getKey kvs "properties")
              ∨ (∃ pvs0 npvs, getKey kvs "properties" = some (Json.obj pvs0)
                  ∧ getKey kvs2 "properties" = some (Json.obj npvs)
                  ∧ npvs.map Prod.fst = pvs0.map Prod.fst
                  ∧ (∀ p ∈ npvs, NormdAll p.2))) →
            (∀ key, key ≠ "required" → key ≠ "properties" →
              getKey kvs2 key = getKey kvs key) →
            ((∃ ikvs ni, getKey kvs "items" = some (Json.obj ikvs)
                ∧ fixReqF n (Json.obj ikvs) = some ni
                ∧ t2 = Json.obj (setKey kvs2 "items" ni))
              ∨ ((∀ ikvs, getKey kvs "items" ≠ some (Json.obj ikvs))
                ∧ t2 = Json.obj kvs2)) →
            serJS (Json.obj kvs) t2 = true ∧ NormdAll t2 := by
          intro kvs2 t2 hser hreqd hpropsd hotherd hcase
          have hPB : ∀ T : List (String × Json),
              getKey T "properties" = getKey kvs2 "properties" →
              propsOkB T = true := by
            intro T hTp
            cases hpropsd with
            | inl hpp => rw [propsOkB_transfer (hTp.trans hpp)]; exact hsplit.1
            | inr hpp =>
              obtain ⟨pvs0, npvs, hp0, hp2, hkeys, _⟩ := hpp
              unfold propsOkB
              rw [hTp, hp2]
              obtain ⟨ha, hb⟩ := propsOkB_get hsplit.1 hp0
              rw [Bool.and_eq_true]
              have hA : (npvs.all fun p => !(reservedPropNames.contains p.1))
                  = (pvs0.all fun p => !(reservedPropNames.contains p.1)) :=
                all_fst_eq hkeys (fun k => !(reservedPropNames.contains k))
              exact ⟨hA.trans ha, (nodupKeysB_keys_eq hkeys).trans hb⟩
          have hRF : ∀ T : List (String × Json),
              getKey T "required" = getKey kvs2 "required" →
              getKey T "properties" = getKey kvs2 "properties" →
              ReqFact T := by
            intro T hTr hTp
            cases hreqd with
            | inr hrr =>
              obtain ⟨nrs, hnr, hstr⟩ := hrr
              unfold ReqFact
              rw [hTr, hnr]
              exact hstr
            | inl hrr =>
              have hRk := hsplit.2
              unfold ReqFact at hRk ⊢
              rw [hTr, hrr]
              cases hgr : getKey kvs "required" with
              | some rv =>
                rw [hgr] at hRk
                cases rv with
                | null =>
                  cases hpropsd with
                  | inl hpp =>
                    rw [hTp.trans hpp]
                    exact hRk
                  | inr hpp =>
                    obtain ⟨pvs0, npvs, hp0, hp2, hkeys, _⟩ := hpp
                    rw [hTp, hp2]
                    rw [hp0] at hRk
                    exact (isEmpty_of_keys_eq hkeys).trans hRk
                | arr rs => exact hRk
                | bool b => exact hRk
                | num i => exact hRk
                | str s0 => exact hRk
                | obj rkvs => exact hRk
              | none =>
                rw [hgr] at hRk
                cases hpropsd with
                | inl hpp =>
                  rw [hTp.trans hpp]
                  exact hRk
                | inr hpp =>
                  obtain ⟨pvs0, npvs, hp0, hp2, hkeys, _⟩ := hpp
                  rw [hTp, hp2]
                  rw [hp0] at hRk
                  exact (isEmpty_of_keys_eq hkeys).trans hRk
          have hPC : ∀ T : List (String × Json),
              getKey T "properties" = getKey kvs2 "properties" →
              ∀ pvs1 k v, getKey T "properties" = some (Json.obj pvs1) →
              (k, v) ∈ pvs1 → NormdAll v := by
            intro T hTp pvs1 k v hg hm2
            rw [hTp] at hg
            cases hpropsd with
            | inl hpp => exact normdAll_prop hnorm (hpp ▸ hg) hm2
            | inr hpp =>
              obtain ⟨pvs0, npvs, hp0, hp2, hkeys, hnormv⟩ := hpp
              rw [hp2] at hg
              have hx : npvs = pvs1 := Json.obj.inj (Option.some.inj hg)
              rw [← hx] at hm2
              exact hnormv (k, v) hm2
          cases hcase with
          | inl hc =>
            obtain ⟨ikvs, ni, hik, hfr, rfl⟩ := hc
            obtain ⟨hniser, hninorm⟩ :=
              ihR _ _ hfr (normdAll_items hnorm hik)
            obtain ⟨nikvs, rfl, hnikser⟩ := serJS_obj_shape hniser
            have hTreq : getKey (setKey kvs2 "items" (Json.obj nikvs))
                "required" = getKey kvs2 "required" :=
              getKey_setKey_ne _ _ (by decide)
            have hTprops : getKey (setKey kvs2 "items" (Json.obj nikvs))
                "properties" = getKey kvs2 "properties" :=
              getKey_setKey_ne _ _ (by decide)
            constructor
            · exact serKvsS_setKey_step hser hik
                ((hotherd "items" (by decide) (by decide)).trans hik) hniser
            · apply normdAll_obj
              · exact localNormOk_of_facts (hPB _ hTprops)
                  (hRF _ hTreq hTprops)
              · intro pvs1 k v hg hm2
                exact hPC _ hTprops pvs1 k v hg hm2
              · intro ikvs2 hg
                rw [getKey_setKey_self] at hg
                have hx : Json.obj nikvs = Json.obj ikvs2 :=
                  Option.some.inj hg
                rw [← Json.obj.inj hx]
                exact hninorm
              · intro xs x hg hm2
                rw [getKey_setKey_self] at hg
                exact absurd (Option.some.inj hg) (by simp)
              · intro key xs x hk hg hm2
                have hk0 := hk
                simp at hk
                have hne1 : key ≠ "items" := by
                  rcases hk with rfl | rfl | rfl <;> decide
                have hne2 : key ≠ "required" := by
                  rcases hk with rfl | rfl | rfl <;> decide
                have hne3 : key ≠ "properties" := by
                  rcases hk with rfl | rfl | rfl <;> decide
                rw [getKey_setKey_ne _ _ (Ne.symm hne1),
                  hotherd key hne2 hne3] at hg
                exact normdAll_comp hnorm hk0 hg hm2
              · intro dvs k v hg hm2
                rw [getKey_setKey_ne _ _ (by decide),
                  hotherd "$defs" (by decide) (by decide)] at hg
                exact normdAll_defs hnorm hg hm2
          | inr hc =>
            obtain ⟨hno, rfl⟩ := hc
            constructor
            · exact hser
            · apply normdAll_obj
              · exact localNormOk_of_facts (hPB _ rfl) (hRF _ rfl rfl)
              · intro pvs1 k v hg hm2
                exact hPC _ rfl pvs1 k v hg hm2
              · intro ikvs2 hg
                rw [hotherd "items" (by decide) (by decide)] at hg
                exact absurd hg (hno ikvs2)
              · intro xs x hg hm2
                rw [hotherd "items" (by decide) (by decide)] at hg
                exact normdAll_itemsSeq hnorm hg hm2
              · intro key xs x hk hg hm2
                have hk0 := hk
                simp at hk
                have hne2 : key ≠ "required" := by
                  rcases hk with rfl | rfl | rfl <;> decide
                have hne3 : key ≠ "properties" := by
                  rcases hk with rfl | rfl | rfl <;> decide
                rw [hotherd key hne2 hne3] at hg
                exact normdAll_comp hnorm hk0 hg hm2
              · intro dvs k v hg hm2
                rw [hotherd "$defs" (by decide) (by decide)] at hg
                exact normdAll_defs hnorm hg hm2
        cases hp : getKey kvs "properties" with
        | some pv =>
          cases pv
          case obj pvs =>
            have hkids : ∀ p ∈ pvs, NormdAll p.2 :=
              fun q hq => normdAll_prop hnorm hp hq
            cases hr : getKey kvs "required" with
            | some rv =>
              cases rv
              case arr rs =>
                cases hfe : fixEntries rs with
                | none => simp [fixReqF, hp, hr, hfe] at h
                | some nrs =>
                cases hfp : fixPropsF n pvs with
                | none => simp [fixReqF, hp, hr, hfe, hfp] at h
                | some npvs =>
                obtain ⟨hfpser, hfpnorm⟩ := ihP pvs npvs hfp hkids
                have hstr : rs.all Json.isStr = true := by
                  have hRk := hsplit.2
                  unfold ReqFact at hRk
                  rw [hr] at hRk
                  exact hRk
                have hnstr := fixEntries_all_str hfe hstr
                have hg1 : getKey (setKey kvs "required" (Json.arr nrs))
                    "properties" = some (Json.obj pvs) := by
                  rw [getKey_setKey_ne _ _ (by decide)]
                  exact hp
                have hserk : serKvsS kvs
                    (setKey (setKey kvs "required" (Json.arr nrs))
                      "properties" (Json.obj npvs)) = true :=
                  serKvsS_setKey_step
                    (serKvsS_setKey_req (serKvsS_refl kvs) hr) hp hg1 hfpser
                cases hi : getKey kvs "items" with
                | some iv =>
                  cases iv
                  case obj ikvs =>
                    cases hfr : fixReqF n (Json.obj ikvs) with
                    | none => simp [fixReqF, hp, hr, hfe, hfp, hi, hfr] at h
                    | some ni =>
                      simp [fixReqF, hp, hr, hfe, hfp, hi, hfr] at h
                      exact hfinal _ t hserk
                        (Or.inr ⟨nrs, by
                          rw [getKey_setKey_ne _ _ (by decide),
                            getKey_setKey_self], hnstr⟩)
                        (Or.inr ⟨pvs, npvs, hp, by rw [getKey_setKey_self],
                          (serKvsS_keys hfpser).symm, hfpnorm⟩)
                        (fun key h1 h2 => by
                          rw [getKey_setKey_ne _ _ (Ne.symm h2),
                            getKey_setKey_ne _ _ (Ne.symm h1)])
                        (Or.inl ⟨ikvs, ni, hi, hfr, h.symm⟩)
                  all_goals
                    simp [fixReqF, hp, hr, hfe, hfp, hi] at h
                    exact hfinal _ t hserk
                      (Or.inr ⟨nrs, by
                        rw [getKey_setKey_ne _ _ (by decide),
                          getKey_setKey_self], hnstr⟩)
                      (Or.inr ⟨pvs, npvs, hp, by rw [getKey_setKey_self],
                        (serKvsS_keys hfpser).symm, hfpnorm⟩)
                      (fun key h1 h2 => by
                        rw [getKey_setKey_ne _ _ (Ne.symm h2),
                          getKey_setKey_ne _ _ (Ne.symm h1)])
                      (Or.inr ⟨by intro ikvs hx; rw [hi] at hx; simp at hx,
                        h.symm⟩)
                | none =>
                  simp [fixReqF, hp, hr, hfe, hfp, hi] at h
                  exact hfinal _ t hserk
                    (Or.inr ⟨nrs, by
                      rw [getKey_setKey_ne _ _ (by decide),
                        getKey_setKey_self], hnstr⟩)
                    (Or.inr ⟨pvs, npvs, hp, by rw [getKey_setKey_self],
                      (serKvsS_keys hfpser).symm, hfpnorm⟩)
                    (fun key h1 h2 => by
                      rw [getKey_setKey_ne _ _ (Ne.symm h2),
                        getKey_setKey_ne _ _ (Ne.symm h1)])
                    (Or.inr ⟨by intro ikvs hx; rw [hi] at hx; simp at hx,
                      h.symm⟩)
              all_goals
                cases hfp : fixPropsF n pvs with
                | none => simp [fixReqF, hp, hr, hfp] at h
                | some npvs =>
                  obtain ⟨hfpser, hfpnorm⟩ := ihP pvs npvs hfp hkids
                  have hserk : serKvsS kvs
                      (setKey kvs "properties" (Json.obj npvs)) = true :=
                    serKvsS_setKey_step (serKvsS_refl kvs) hp hp hfpser
                  cases hi : getKey kvs "items" with
                  | some iv =>
                    cases iv
                    case obj ikvs =>
                      cases hfr : fixReqF n (Json.obj ikvs) with
                      | none => simp [fixReqF, hp, hr, hfp, hi, hfr] at h
                      | some ni =>
                        simp [fixReqF, hp, hr, hfp, hi, hfr] at h
                        exact hfinal _ t hserk
                          (Or.inl (getKey_setKey_ne _ _ (by decide)))
                          (Or.inr ⟨pvs, npvs, hp, by rw [getKey_setKey_self],
                            (serKvsS_keys hfpser).symm, hfpnorm⟩)
                          (fun key h1 h2 => getKey_setKey_ne _ _ (Ne.symm h2))
                          (Or.inl ⟨ikvs, ni, hi, hfr, h.symm⟩)
                    all_goals
                      simp [fixReqF, hp, hr, hfp, hi] at h
                      exact hfinal _ t hserk
                        (Or.inl (getKey_setKey_ne _ _ (by decide)))
                        (Or.inr ⟨pvs, npvs, hp, by rw [getKey_setKey_self],
                          (serKvsS_keys hfpser).symm, hfpnorm⟩)
                        (fun key h1 h2 => getKey_setKey_ne _ _ (Ne.symm h2))
                        (Or.inr ⟨by intro ikvs hx; rw [hi] at hx; simp at hx, h.symm⟩)
                  | none =>
                    simp [fixReqF, hp, hr, hfp, hi] at h
                    exact hfinal _ t hserk
                      (Or.inl (getKey_setKey_ne _ _ (by decide)))
                      (Or.inr ⟨pvs, npvs, hp, by rw [getKey_setKey_self],
                        (serKvsS_keys hfpser).symm, hfpnorm⟩)
                      (fun key h1 h2 => getKey_setKey_ne _ _ (Ne.symm h2))
                      (Or.inr ⟨by intro ikvs hx; rw [hi] at hx; simp at hx, h.symm⟩)
            | none =>
                cases hfp : fixPropsF n pvs with
                | none => simp [fixReqF, hp, hr, hfp] at h
                | some npvs =>
                  obtain ⟨hfpser, hfpnorm⟩ := ihP pvs npvs hfp hkids
                  have hserk : serKvsS kvs
                      (setKey kvs "properties" (Json.obj npvs)) = true :=
                    serKvsS_setKey_step (serKvsS_refl kvs) hp hp hfpser
                  cases hi : getKey kvs "items" with
                  | some iv =>
                    cases iv
                    case obj ikvs =>
                      cases hfr : fixReqF n (Json.obj ikvs) with
                      | none => simp [fixReqF, hp, hr, hfp, hi, hfr] at h
                      | some ni =>
                        simp [fixReqF, hp, hr, hfp, hi, hfr] at h
                        exact hfinal _ t hserk
                          (Or.inl (getKey_setKey_ne _ _ (by decide)))
                          (Or.inr ⟨pvs, npvs, hp, by rw [getKey_setKey_self],
                            (serKvsS_keys hfpser).symm, hfpnorm⟩)
                          (fun key h1 h2 => getKey_setKey_ne _ _ (Ne.symm h2))
                          (Or.inl ⟨ikvs, ni, hi, hfr, h.symm⟩)
                    all_goals
                      simp [fixReqF, hp, hr, hfp, hi] at h
                      exact hfinal _ t hserk
                        (Or.inl (getKey_setKey_ne _ _ (by decide)))
                        (Or.inr ⟨pvs, npvs, hp, by rw [getKey_setKey_self],
                          (serKvsS_keys hfpser).symm, hfpnorm⟩)
                        (fun key h1 h2 => getKey_setKey_ne _ _ (Ne.symm h2))
                        (Or.inr ⟨by intro ikvs hx; rw [hi] at hx; simp at hx, h.symm⟩)
                  | none =>
                    simp [fixReqF, hp, hr, hfp, hi] at h
                    exact hfinal _ t hserk
                      (Or.inl (getKey_setKey_ne _ _ (by decide)))
                      (Or.inr ⟨pvs, npvs, hp, by rw [getKey_setKey_self],
                        (serKvsS_keys hfpser).symm, hfpnorm⟩)
                      (fun key h1 h2 => getKey_setKey_ne _ _ (Ne.symm h2))
                      (Or.inr ⟨by intro ikvs hx; rw [hi] at hx; simp at hx, h.symm⟩)
          all_goals
            rw [fixReqF_props_nonobj hp (by intro o hx; cases hx)] at h
            split at h
            · exact absurd h (by simp)
            ·
              cases hi : getKey kvs "items" with
              | some iv =>
                cases iv
                case obj ikvs =>
                  cases hfr : fixReqF n (Json.obj ikvs) with
                  | none => simp [hi, hfr] at h
                  | some ni =>
                    simp [hi, hfr] at h
                    exact hfinal kvs t (serKvsS_refl kvs) (Or.inl rfl) (Or.inl rfl)
                      (fun key h1 h2 => rfl) (Or.inl ⟨ikvs, ni, hi, hfr, h.symm⟩)
                all_goals
                  simp [hi] at h
                  exact hfinal kvs t (serKvsS_refl kvs) (Or.inl rfl) (Or.inl rfl)
                    (fun key h1 h2 => rfl)
                    (Or.inr ⟨by intro ikvs hx; rw [hi] at hx; simp at hx, h.symm⟩)
              | none =>
                simp [hi] at h
                exact hfinal kvs t (serKvsS_refl kvs) (Or.inl rfl) (Or.inl rfl)
                  (fun key h1 h2 => rfl)
                  (Or.inr ⟨by intro ikvs hx; rw [hi] at hx; simp at hx, h.symm⟩)
        | none =>
          simp only [fixReqF, hp] at h
          cases hi : getKey kvs "items" with
          | some iv =>
            cases iv
            case obj ikvs =>
              cases hfr : fixReqF n (Json.obj ikvs) with
              | none => simp [hi, hfr] at h
              | some ni =>
                simp [hi, hfr] at h
                exact hfinal kvs t (serKvsS_refl kvs) (Or.inl rfl) (Or.inl rfl)
                  (fun key h1 h2 => rfl) (Or.inl ⟨ikvs, ni, hi, hfr, h.symm⟩)
            all_goals
              simp [hi] at h
              exact hfinal kvs t (serKvsS_refl kvs) (Or.inl rfl) (Or.inl rfl)
                (fun key h1 h2 => rfl)
                (Or.inr ⟨by intro ikvs hx; rw [hi] at hx; simp at hx, h.symm⟩)
          | none =>
            simp [hi] at h
            exact hfinal kvs t (serKvsS_refl kvs) (Or.inl rfl) (Or.inl rfl)
              (fun key h1 h2 => rfl)
              (Or.inr ⟨by intro ikvs hx; rw [hi] at hx; simp at hx, h.symm⟩)
    · intro l nl h hvals
      cases l with
      | nil =>
        simp [fixPropsF] at h
        subst h
        exact ⟨rfl, by simp⟩
      | cons p rest =>
        obtain ⟨k, v⟩ := p
        cases hr0 : fixReqF n v with
        | none => simp [fixPropsF, hr0] at h
        | some nv =>
          cases hr1 : fixPropsF n rest with
          | none => simp [fixPropsF, hr0, hr1] at h
          | some nrest =>
            simp [fixPropsF, hr0, hr1] at h
            rw [← h]
            obtain ⟨hser1, hnorm2⟩ :=
              ihR v nv hr0 (hvals (k, v) (List.mem_cons_self _ _))
            obtain ⟨hser2, hnorm3⟩ := ihP rest nrest hr1
              (fun q hq => hvals q (List.mem_cons_of_mem _ hq))
            refine ⟨?_, ?_⟩
            · simp only [serKvsS, Bool.and_eq_true, decide_eq_true_eq,
                Bool.or_eq_true]
              exact ⟨⟨by trivial, Or.inr hser1⟩, hser2⟩
            · intro q hq
              cases List.mem_cons.mp hq with
              | inl h2 => rw [h2]; exact hnorm2
              | inr h2 => exact hnorm3 q h2

end Jig

namespace Jig

theorem fixEntries_noresv : ∀ {rs nrs : List Json},
    rs.all entryNotReserved = true → fixEntries rs = some nrs → nrs = rs := by
  intro rs
  induction rs with
  | nil =>
    intro nrs _ h
    simp [fixEntries] at h
    rw [h]
  | cons x rest ih =>
    intro nrs hall h
    simp only [List.all_cons, Bool.and_eq_true] at hall
    cases x with
    | str s0 =>
      cases hfe : fixEntries rest with
      | none => simp [fixEntries, hfe] at h
      | some r =>
        simp [fixEntries, hfe] at h
        have hs0 : s0 ∉ reservedPropNames := by
          have := hall.1
          unfold entryNotReserved at this
          exact of_decide_eq_true this
        rw [← h, if_neg hs0, ih hall.2 hfe]
    | null =>
      cases hfe : fixEntries rest with
      | none => simp [fixEntries, hfe] at h
      | some r =>
        simp [fixEntries, hfe] at h
        rw [← h, ih hall.2 hfe]
    | bool b =>
      cases hfe : fixEntries rest with
      | none => simp [fixEntries, hfe] at h
      | some r =>
        simp [fixEntries, hfe] at h
        rw [← h, ih hall.2 hfe]
    | num i =>
      cases hfe : fixEntries rest with
      | none => simp [fixEntries, hfe] at h
      | some r =>
        simp [fixEntries, hfe] at h
        rw [← h, ih hall.2 hfe]
    | arr xs => simp [fixEntries] at h
    | obj kvs => simp [fixEntries] at h

theorem setKeyJ_self {l : List (String × Json)} {k : String} {v : Json}
    (h : getKey l k = some v) : setKey l k v = l := setKey_self h

/-- A second `_fix_required` pass over an already-fixed tree is the
identity. -/
theorem c3_fix_noop : ∀ n : Nat,
    (∀ j t, fixReqF n j = some t →
      (∀ u, ReachFix j u → localReqOk u = true) → t = j)
    ∧ (∀ l nl, fixPropsF n l = some nl →
      (∀ p ∈ l, ∀ u, ReachFix p.2 u → localReqOk u = true) → nl = l) := by
  intro n
  induction n with
  | zero =>
    constructor
    · intro j t h; simp [fixReqF] at h
    · intro l nl h; simp [fixPropsF] at h
  | succ n ih =>
    obtain ⟨ihR, ihP⟩ := ih
    constructor
    · intro j t h hfd
      cases j with
      | null => simp [fixReqF] at h; rw [← h]
      | bool b => simp [fixReqF] at h; rw [← h]
      | num i => simp [fixReqF] at h; rw [← h]
      | str s0 => simp [fixReqF] at h; rw [← h]
      | arr xs => simp [fixReqF] at h; rw [← h]
      | obj kvs =>
        have hloc := hfd _ (ReachFix.refl _)
        have hitems_tail : ∀ t2, (∀ u, ReachFix (Json.obj kvs) u →
              localReqOk u = true) →
            ((∃ ikvs ni, getKey kvs "items" = some (Json.obj ikvs)
                ∧ fixReqF n (Json.obj ikvs) = some ni
                ∧ t2 = Json.obj (setKey kvs "items" ni))
              ∨ t2 = Json.obj kvs) →
            t2 = Json.obj kvs := by
          intro t2 hfd2 hcase
          cases hcase with
          | inl hc =>
            obtain ⟨ikvs, ni, hik, hfr, rfl⟩ := hc
            have hni : ni = Json.obj ikvs :=
              ihR _ _ hfr (fun u hr => hfd2 u (ReachFix.items hik hr))
            rw [hni, setKeyJ_self hik]
          | inr hc => exact hc
        cases hp : getKey kvs "properties" with
        | some pv =>
          cases pv
          case obj pvs =>
            have hkids : ∀ p ∈ pvs, ∀ u, ReachFix p.2 u →
                localReqOk u = true :=
              fun q hq u hr => hfd u (ReachFix.prop hp hq hr)
            cases hr : getKey kvs "required" with
            | some rv =>
              cases rv
              case arr rs =>
                have hall : rs.all entryNotReserved = true := by
                  simp only [localReqOk, hp, hr] at hloc
                  exact hloc
                cases hfe : fixEntries rs with
                | none => simp [fixReqF, hp, hr, hfe] at h
                | some nrs =>
                have hnrs : nrs = rs := fixEntries_noresv hall hfe
                cases hfp : fixPropsF n pvs with
                | none => simp [fixReqF, hp, hr, hfe, hfp] at h
                | some npvs =>
                have hnp : npvs = pvs := ihP pvs npvs hfp hkids
                apply hitems_tail t hfd
                cases hi : getKey kvs "items" with
                | some iv =>
                  cases iv
                  case obj ikvs =>
                    cases hfr : fixReqF n (Json.obj ikvs) with
                    | none => simp [fixReqF, hp, hr, hfe, hfp, hi, hfr] at h
                    | some ni =>
                      simp [fixReqF, hp, hr, hfe, hfp, hi, hfr] at h
                      refine Or.inl ⟨ikvs, ni, rfl, hfr, ?_⟩
                      rw [← h, hnrs, hnp, setKeyJ_self hr,
                        setKeyJ_self hp]
                  all_goals
                    simp [fixReqF, hp, hr, hfe, hfp, hi] at h
                    refine Or.inr ?_
                    rw [← h, hnrs, hnp, setKeyJ_self hr, setKeyJ_self hp]
                | none =>
                  simp [fixReqF, hp, hr, hfe, hfp, hi] at h
                  refine Or.inr ?_
                  rw [← h, hnrs, hnp, setKeyJ_self hr, setKeyJ_self hp]
              all_goals
                cases hfp : fixPropsF n pvs with
                | none => simp [fixReqF, hp, hr, hfp] at h
                | some npvs =>
                  have hnp : npvs = pvs := ihP pvs npvs hfp hkids
                  apply hitems_tail t hfd
                  cases hi : getKey kvs "items" with
                  | some iv =>
                    cases iv
                    case obj ikvs =>
                      cases hfr : fixReqF n (Json.obj ikvs) with
                      | none => simp [fixReqF, hp, hr, hfp, hi, hfr] at h
                      | some ni =>
                        simp [fixReqF, hp, hr, hfp, hi, hfr] at h
                        refine Or.inl ⟨ikvs, ni, rfl, hfr, ?_⟩
                        rw [← h, hnp, setKeyJ_self hp]
                    all_goals
                      simp [fixReqF, hp, hr, hfp, hi] at h
                      refine Or.inr ?_
                      rw [← h, hnp, setKeyJ_self hp]
                  | none =>
                    simp [fixReqF, hp, hr, hfp, hi] at h
                    refine Or.inr ?_
                    rw [← h, hnp, setKeyJ_self hp]
            | none =>
              cases hfp : fixPropsF n pvs with
              | none => simp [fixReqF, hp, hr, hfp] at h
              | some npvs =>
                have hnp : npvs = pvs := ihP pvs npvs hfp hkids
                apply hitems_tail t hfd
                cases hi : getKey kvs "items" with
                | some iv =>
                  cases iv
                  case obj ikvs =>
                    cases hfr : fixReqF n (Json.obj ikvs) with
                    | none => simp [fixReqF, hp, hr, hfp, hi, hfr] at h
                    | some ni =>
                      simp [fixReqF, hp, hr, hfp, hi, hfr] at h
                      refine Or.inl ⟨ikvs, ni, rfl, hfr, ?_⟩
                      rw [← h, hnp, setKeyJ_self hp]
                  all_goals
                    simp [fixReqF, hp, hr, hfp, hi] at h
                    refine Or.inr ?_
                    rw [← h, hnp, setKeyJ_self hp]
                | none =>
                  simp [fixReqF, hp, hr, hfp, hi] at h
                  refine Or.inr ?_
                  rw [← h, hnp, setKeyJ_self hp]
          all_goals
            rw [fixReqF_props_nonobj hp (by intro o hx; cases hx)] at h
            split at h
            · exact absurd h (by simp)
            · apply hitems_tail t hfd
              cases hi : getKey kvs "items" with
              | some iv =>
                cases iv
                case obj ikvs =>
                  cases hfr : fixReqF n (Json.obj ikvs) with
                  | none => simp [hi, hfr] at h
                  | some ni =>
                    simp [hi, hfr] at h
                    exact Or.inl ⟨ikvs, ni, rfl, hfr, h.symm⟩
                all_goals
                  simp [hi] at h
                  exact Or.inr h.symm
              | none =>
                simp [hi] at h
                exact Or.inr h.symm
        | none =>
          simp only [fixReqF, hp] at h
          apply hitems_tail t hfd
          cases hi : getKey kvs "items" with
          | some iv =>
            cases iv
            case obj ikvs =>
              cases hfr : fixReqF n (Json.obj ikvs) with
              | none => simp [hi, hfr] at h
              | some ni =>
                simp [hi, hfr] at h
                exact Or.inl ⟨ikvs, ni, rfl, hfr, h.symm⟩
            all_goals
              simp [hi] at h
              exact Or.inr h.symm
          | none =>
            simp [hi] at h
            exact Or.inr h.symm
    · intro l nl h hvals
      cases l with
      | nil =>
        simp [fixPropsF] at h
        exact h
      | cons p rest =>
        obtain ⟨k, v⟩ := p
        cases hr0 : fixReqF n v with
        | none => simp [fixPropsF, hr0] at h
        | some nv =>
          cases hr1 : fixPropsF n rest with
          | none => simp [fixPropsF, hr0, hr1] at h
          | some nrest =>
            simp [fixPropsF, hr0, hr1] at h
            have h1 : nv = v :=
              ihR v nv hr0 (hvals (k, v) (List.mem_cons_self _ _))
            have h2 : nrest = rest :=
              ihP rest nrest hr1
                (fun q hq => hvals q (List.mem_cons_of_mem _ hq))
            rw [← h, h1, h2]

end Jig

namespace Jig

theorem c3_req_noop {kvs : List (String × Json)}
    {s s3 : List (String × Json) × RenameMap}
    (h : normStepRequired kvs s = some s3)
    (hloc : localNormOk (Json.obj kvs) = true)
    (hr1 : getKey s.1 "required" = getKey kvs "required")
    (hp1 : getKey s.1 "properties" = getKey kvs "properties") : s3 = s := by
  have hRk := (localNormOk_split hloc).2
  unfold ReqFact at hRk
  cases hgr : getKey kvs "required" with
  | some rv =>
    rw [hgr] at hRk
    cases rv with
    | arr rs =>
      simp [normStepRequired, hgr, hRk] at h
      exact h.symm
    | null =>
      cases hgp : getKey kvs "properties" with
      | some pv =>
        rw [hgp] at hRk
        cases pv with
        | obj pvs =>
          simp [normStepRequired, hgr, hp1, hgp, hRk] at h
          exact h.symm
        | null =>
          simp [normStepRequired, hgr, hp1, hgp] at h
          exact h.symm
        | bool b =>
          simp [normStepRequired, hgr, hp1, hgp] at h
          exact h.symm
        | num i =>
          simp [normStepRequired, hgr, hp1, hgp] at h
          exact h.symm
        | str s0 =>
          simp [normStepRequired, hgr, hp1, hgp] at h
          exact h.symm
        | arr xs =>
          simp [normStepRequired, hgr, hp1, hgp] at h
          exact h.symm
      | none =>
        simp [normStepRequired, hgr, hp1, hgp] at h
        exact h.symm
    | bool b => exact hRk.elim
    | num i => exact hRk.elim
    | str s0 => exact hRk.elim
    | obj rkvs => exact hRk.elim
  | none =>
    rw [hgr] at hRk
    cases hgp : getKey kvs "properties" with
    | some pv =>
      rw [hgp] at hRk
      cases pv with
      | obj pvs =>
        simp [normStepRequired, hgr, hp1, hgp, hRk] at h
        exact h.symm
      | null =>
        simp [normStepRequired, hgr, hp1, hgp] at h
        exact h.symm
      | bool b =>
        simp [normStepRequired, hgr, hp1, hgp] at h
        exact h.symm
      | num i =>
        simp [normStepRequired, hgr, hp1, hgp] at h
        exact h.symm
      | str s0 =>
        simp [normStepRequired, hgr, hp1, hgp] at h
        exact h.symm
      | arr xs =>
        simp [normStepRequired, hgr, hp1, hgp] at h
        exact h.symm
    | none =>
      simp [normStepRequired, hgr, hp1, hgp] at h
      exact h.symm

/-- A second `_norm` pass over a canonical tree is the identity and
keeps the rename map. -/
theorem c3_noop : ∀ n : Nat,
    (∀ j m r, normF n j m = some r → NormdAll j → r = (j, m))
    ∧ (∀ kvs m s1, normStepProps n kvs m = some s1 →
        NormdAll (Json.obj kvs) → s1 = (kvs, m))
    ∧ (∀ kvs s s2, normStepItems n kvs s = some s2 →
        NormdAll (Json.obj kvs) →
        getKey s.1 "items" = getKey kvs "items" → s2 = s)
    ∧ (∀ kvs key s s2, normStepComp n kvs key s = some s2 →
        key ∈ ["anyOf", "oneOf", "allOf"] → NormdAll (Json.obj kvs) →
        getKey s.1 key = getKey kvs key → s2 = s)
    ∧ (∀ kvs s r, normStepDefs n kvs s = some r →
        NormdAll (Json.obj kvs) →
        getKey s.1 "$defs" = getKey kvs "$defs" → r = (Json.obj s.1, s.2))
    ∧ (∀ pvs m acc r, normPropsF n pvs m acc = some r →
        (∀ p ∈ pvs, NormdAll p.2) →
        (pvs.all (fun p => !(reservedPropNames.contains p.1))) = true →
        nodupKeysB pvs = true →
        (∀ p ∈ pvs, p.1 ∉ acc.map Prod.fst) →
        r = (acc ++ pvs, m))
    ∧ (∀ xs m r, normListF n xs m = some r → (∀ x ∈ xs, NormdAll x) →
        r = (xs, m))
    ∧ (∀ dvs m r, normDefsF n dvs m = some r → (∀ p ∈ dvs, NormdAll p.2) →
        r = (dvs, m)) := by
  intro n
  induction n with
  | zero =>
    refine ⟨?_, ?_, ?_, ?_, ?_, ?_, ?_, ?_⟩
    · intro j m r h; simp [normF] at h
    · intro kvs m s1 h; simp [normStepProps] at h
    · intro kvs s s2 h; simp [normStepItems] at h
    · intro kvs key s s2 h; simp [normStepComp] at h
    · intro kvs s r h; simp [normStepDefs] at h
    · intro pvs m acc r h; simp [normPropsF] at h
    · intro xs m r h; simp [normListF] at h
    · intro dvs m r h; simp [normDefsF] at h
  | succ n ih =>
    obtain ⟨ihF, ihP, ihI, ihC, ihD, ihPr, ihL, ihDf⟩ := ih
    refine ⟨?_, ?_, ?_, ?_, ?_, ?_, ?_, ?_⟩
    · -- normF
      intro j m r h hok
      cases j with
      | obj kvs =>
        simp only [normF, bind, Option.bind] at h
        cases h1 : normStepProps n kvs m with
        | none => simp [h1] at h
        | some s1 =>
        simp only [h1] at h
        cases h2 : normStepItems n kvs s1 with
        | none => simp [h2] at h
        | some s2 =>
        simp only [h2] at h
        cases h3 : normStepRequired kvs s2 with
        | none => simp [h3] at h
        | some s3 =>
        simp only [h3] at h
        cases h4 : normStepComp n kvs "anyOf" s3 with
        | none => simp [h4] at h
        | some s4 =>
        simp only [h4] at h
        cases h5 : normStepComp n kvs "oneOf" s4 with
        | none => simp [h5] at h
        | some s5 =>
        simp only [h5] at h
        cases h6 : normStepComp n kvs "allOf" s5 with
        | none => simp [h6] at h
        | some s6 =>
        simp only [h6] at h
        have hs1 : s1 = (kvs, m) := ihP kvs m s1 h1 hok
        have hs2 : s2 = s1 := ihI kvs s1 s2 h2 hok (by rw [hs1])
        have hs3 : s3 = s2 :=
          c3_req_noop h3 (normdAll_local hok) (by rw [hs2, hs1])
            (by rw [hs2, hs1])
        have hs4 : s4 = s3 := ihC kvs "anyOf" s3 s4 h4 (by decide) hok
          (by rw [hs3, hs2, hs1])
        have hs5 : s5 = s4 := ihC kvs "oneOf" s4 s5 h5 (by decide) hok
          (by rw [hs4, hs3, hs2, hs1])
        have hs6 : s6 = s5 := ihC kvs "allOf" s5 s6 h6 (by decide) hok
          (by rw [hs5, hs4, hs3, hs2, hs1])
        have hr := ihD kvs s6 r h hok
          (by rw [hs6, hs5, hs4, hs3, hs2, hs1])
        rw [hr, hs6, hs5, hs4, hs3, hs2, hs1]
      | null => simp [normF] at h; rw [← h]
      | bool b => simp [normF] at h; rw [← h]
      | num i => simp [normF] at h; rw [← h]
      | str s0 => simp [normF] at h; rw [← h]
      | arr xs => simp [normF] at h; rw [← h]
    · -- normStepProps
      intro kvs m s1 h hok
      cases hg : getKey kvs "properties" with
      | some pv =>
        cases pv
        case obj pvs =>
          cases hr0 : normPropsF n pvs m [] with
          | none => simp [normStepProps, hg, hr0] at h
          | some r0 =>
            simp [normStepProps, hg, hr0] at h
            have hpo := propsOkB_get (localNormOk_split
              (normdAll_local hok)).1 hg
            have hr0e : r0 = ([] ++ pvs, m) :=
              ihPr pvs m [] r0 hr0
                (fun q hq => normdAll_prop hok hg hq) hpo.1 hpo.2
                (by intro p hp; simp)
            rw [← h, hr0e]
            simp only [List.nil_append]
            rw [setKeyJ_self hg]
        all_goals
          simp [normStepProps, hg] at h
          exact h.symm
      | none =>
        simp [normStepProps, hg] at h
        exact h.symm
    · -- normStepItems
      intro kvs s s2 h hok hpres
      cases hi : getKey kvs "items" with
      | some iv =>
        cases iv
        case obj ikvs =>
          cases hr0 : normF n (.obj ikvs) s.2 with
          | none => simp [normStepItems, hi, hr0] at h
          | some r0 =>
            simp [normStepItems, hi, hr0] at h
            have hr0e : r0 = (Json.obj ikvs, s.2) :=
              ihF _ _ _ hr0 (normdAll_items hok hi)
            rw [← h, hr0e]
            rw [setKeyJ_self (hpres.trans hi)]
        case arr xs =>
          cases hr0 : normListF n xs s.2 with
          | none => simp [normStepItems, hi, hr0] at h
          | some r0 =>
            simp [normStepItems, hi, hr0] at h
            have hr0e : r0 = (xs, s.2) :=
              ihL xs s.2 r0 hr0
                (fun x hx => normdAll_itemsSeq hok hi hx)
            rw [← h, hr0e]
            rw [setKeyJ_self (hpres.trans hi)]
        all_goals
          simp [normStepItems, hi] at h
          exact h.symm
      | none =>
        simp [normStepItems, hi] at h
        exact h.symm
    · -- normStepComp
      intro kvs key s s2 h hk hok hpres
      cases hi : getKey kvs key with
      | some iv =>
        cases iv
        case arr xs =>
          cases hr0 : normListF n xs s.2 with
          | none => simp [normStepComp, hi, hr0] at h
          | some r0 =>
            simp [normStepComp, hi, hr0] at h
            have hr0e : r0 = (xs, s.2) :=
              ihL xs s.2 r0 hr0
                (fun x hx => normdAll_comp hok hk hi hx)
            rw [← h, hr0e]
            rw [setKeyJ_self (hpres.trans hi)]
        all_goals
          simp [normStepComp, hi] at h
          exact h.symm
      | none =>
        simp [normStepComp, hi] at h
        exact h.symm
    · -- normStepDefs
      intro kvs s r h hok hpres
      cases hd : getKey kvs "$defs" with
      | some dv =>
        cases dv
        case obj dvs =>
          cases hr0 : normDefsF n dvs s.2 with
          | none => simp [normStepDefs, hd, hr0] at h
          | some r0 =>
            simp [normStepDefs, hd, hr0] at h
            have hr0e : r0 = (dvs, s.2) :=
              ihDf dvs s.2 r0 hr0
                (fun q hq => normdAll_defs hok hd hq)
            rw [← h, hr0e]
            rw [setKeyJ_self (hpres.trans hd)]
        all_goals
          simp [normStepDefs, hd] at h
          rw [← h]
      | none =>
        simp [normStepDefs, hd] at h
        rw [← h]
    · -- normPropsF
      intro pvs m acc r h hkids hall hnodup hfresh
      cases pvs with
      | nil =>
        simp [normPropsF] at h
        rw [← h]
        simp
      | cons p rest =>
        obtain ⟨k, v⟩ := p
        simp only [List.all_cons, Bool.and_eq_true, Bool.not_eq_true'] at hall
        obtain ⟨hnd1, hnd2⟩ := nodupKeysB_head hnodup
        have hkrest : k ∉ rest.map Prod.fst := contains_false_not_mem hnd1
        have hknotmem : k ∉ reservedPropNames :=
          contains_false_not_mem hall.1
        cases hr0 : normF n v m with
        | none => simp [normPropsF, hknotmem, hr0] at h
        | some r1 =>
          simp only [normPropsF, if_neg hknotmem, hr0, Option.bind,
            bind] at h
          have hr1e : r1 = (v, m) :=
            ihF v m r1 hr0 (hkids (k, v) (List.mem_cons_self _ _))
          rw [hr1e] at h
          have hacc : setKey acc k v = acc ++ [(k, v)] := by
            apply setKey_of_fresh
            intro q hq hqk
            apply hfresh (k, v) (List.mem_cons_self _ _)
            rw [← hqk]
            exact List.mem_map.mpr ⟨q, hq, rfl⟩
          rw [hacc] at h
          have hrec : r = ((acc ++ [(k, v)]) ++ rest, m) :=
            ihPr rest m (acc ++ [(k, v)]) r h
              (fun q hq => hkids q (List.mem_cons_of_mem _ hq)) hall.2 hnd2
              (by
                intro q hq
                rw [List.map_append]
                intro hmem
                cases List.mem_append.mp hmem with
                | inl h2 => exact hfresh q (List.mem_cons_of_mem _ hq) h2
                | inr h2 =>
                  simp at h2
                  apply hkrest
                  rw [← h2]
                  exact List.mem_map.mpr ⟨q, hq, rfl⟩)
          rw [hrec, List.append_assoc]
          rfl
    · -- normListF
      intro xs m r h hkids
      cases xs with
      | nil =>
        simp [normListF] at h
        rw [← h]
      | cons x rest =>
        cases x
        case obj kvs2 =>
          cases hr0 : normF n (.obj kvs2) m with
          | none => simp [normListF, hr0] at h
          | some r1 =>
            cases hr1 : normListF n rest r1.2 with
            | none => simp [normListF, hr0, hr1] at h
            | some r2 =>
              simp [normListF, hr0, hr1] at h
              have hr1e : r1 = (Json.obj kvs2, m) :=
                ihF _ _ _ hr0
                  (hkids (Json.obj kvs2) (List.mem_cons_self _ _))
              have hr2e : r2 = (rest, r1.2) :=
                ihL rest r1.2 r2 hr1
                  (fun y hy => hkids y (List.mem_cons_of_mem _ hy))
              rw [← h, hr1e, hr2e]
              simp [hr1e]
        all_goals
          cases hr1 : normListF n rest m with
          | none => simp [normListF, hr1] at h
          | some r2 =>
            simp [normListF, hr1] at h
            have hr2e : r2 = (rest, m) :=
              ihL rest m r2 hr1
                (fun y hy => hkids y (List.mem_cons_of_mem _ hy))
            rw [← h, hr2e]
    · -- normDefsF
      intro dvs m r h hkids
      cases dvs with
      | nil =>
        simp [normDefsF] at h
        rw [← h]
      | cons p rest =>
        obtain ⟨k, v⟩ := p
        cases v
        case obj kvs2 =>
          cases hr0 : normF n (.obj kvs2) m with
          | none => simp [normDefsF, hr0] at h
          | some r1 =>
            cases hr1 : normDefsF n rest r1.2 with
            | none => simp [normDefsF, hr0, hr1] at h
            | some r2 =>
              simp [normDefsF, hr0, hr1] at h
              have hr1e : r1 = (Json.obj kvs2, m) :=
                ihF _ _ _ hr0
                  (hkids (k, Json.obj kvs2) (List.mem_cons_self _ _))
              have hr2e : r2 = (rest, r1.2) :=
                ihDf rest r1.2 r2 hr1
                  (fun q hq => hkids q (List.mem_cons_of_mem _ hq))
              rw [← h, hr1e, hr2e]
              simp [hr1e]
        all_goals
          cases hr1 : normDefsF n rest m with
          | none => simp [normDefsF, hr1] at h
          | some r2 =>
            simp [normDefsF, hr1] at h
            have hr2e : r2 = (rest, m) :=
              ihDf rest m r2 hr1
                (fun q hq => hkids q (List.mem_cons_of_mem _ hq))
            rw [← h, hr2e]

end Jig

namespace Jig

/-- C3 is false as stated: the schema {"properties": {"a": {}}, "required": ["type"]} has no reserved property key, and `_norm` (the pass
containing the `required` coercion rule) leaves it entirely unchanged —
yet `normalize_schema_for_backend` returns a schema whose `required`
list reads `["_prop_type"]`, differing from the input beyond the
coercion rule, with an empty rename map offering no account of the
change (`_fix_required` rewrites reserved names inside `required` lists
even when no property key was renamed). -/
theorem claim_C3_counterexample :
    schemaOkJ (Json.obj [("properties", Json.obj [("a", Json.obj [])]),
        ("required", Json.arr [Json.str "type"])]) = true
    ∧ norm (Json.obj [("properties", Json.obj [("a", Json.obj [])]),
        ("required", Json.arr [Json.str "type"])]) []
      = some (Json.obj [("properties", Json.obj [("a", Json.obj [])]),
          ("required", Json.arr [Json.str "type"])], [])
    ∧ normalize_schema_for_backend
        (Json.obj [("properties", Json.obj [("a", Json.obj [])]),
          ("required", Json.arr [Json.str "type"])])
      = some (Json.obj [("properties", Json.obj [("a", Json.obj [])]),
          ("required", Json.arr [Json.str "_prop_type"])], [])
    ∧ Json.arr [Json.str "_prop_type"] ≠ Json.arr [Json.str "type"] :=
  ⟨by decide, by decide, by decide, by decide⟩

/-- C3 (amended): for a schema with no reserved (and no duplicate)
property-dictionary key anywhere, `normalize_schema_for_backend` returns
an empty rename map and a schema structurally identical to the input
except at the values under `required` keys (which the coercion rule and
the `_fix_required` entry rewriting may change) and for a possibly
inserted trailing `required` key; normalization is idempotent: whenever
normalizing the normalized schema returns at all, it changes nothing and
yields an empty rename map. -/
theorem claim_C3 (s t : Json) (m : RenameMap)
    (hok : schemaOkJ s = true)
    (h : normalize_schema_for_backend s = some (t, m)) :
    m = [] ∧ serJ s t = true
    ∧ (∀ p, normalize_schema_for_backend t = some p → p = (t, [])) := by
  cases s with
  | obj kvs =>
    by_cases hk : kvs.isEmpty
    · simp [normalize_schema_for_backend, hk] at h
      obtain ⟨rfl, rfl⟩ := h
      refine ⟨rfl, serJ_refl _, ?_⟩
      intro p hp
      simp [normalize_schema_for_backend, hk] at hp
      rw [← hp]
    · cases hn : norm (.obj kvs) [] with
      | none => simp [normalize_schema_for_backend, hk, hn] at h
      | some r =>
        cases hfx : fixReq r.1 with
        | none => simp [normalize_schema_for_backend, hk, hn, hfx] at h
        | some t0 =>
          simp [normalize_schema_for_backend, hk, hn, hfx] at h
          obtain ⟨rfl, rfl⟩ := h
          simp only [norm] at hn
          obtain ⟨hm, hser, hnormd⟩ :=
            (c3_pass1 (jsize (Json.obj kvs))).1 _ _ _ hn hok
          simp only [fixReq] at hfx
          obtain ⟨hserS, hnormdT⟩ := (c3_fix (jsize r.1)).1 _ _ hfx hnormd
          have hFD : ∀ u, ReachFix t0 u → localReqOk u = true :=
            (fixReqF_reach (jsize r.1)).1 _ _ hfx
          refine ⟨hm, serJ_trans_S _ _ _ hser hserS, ?_⟩
          intro p hp
          cases t0 with
          | obj tkvs =>
            by_cases hke : tkvs.isEmpty
            · simp [normalize_schema_for_backend, hke] at hp
              rw [← hp]
            · cases hn2 : norm (.obj tkvs) [] with
              | none => simp [normalize_schema_for_backend, hke, hn2] at hp
              | some r2 =>
                cases hfx2 : fixReq r2.1 with
                | none =>
                  simp [normalize_schema_for_backend, hke, hn2, hfx2] at hp
                | some t2 =>
                  simp [normalize_schema_for_backend, hke, hn2, hfx2] at hp
                  simp only [norm] at hn2
                  have hr2 : r2 = (Json.obj tkvs, []) :=
                    (c3_noop (jsize (Json.obj tkvs))).1 _ _ _ hn2 hnormdT
                  rw [hr2] at hfx2
                  simp only [fixReq] at hfx2
                  have ht2 : t2 = Json.obj tkvs :=
                    (c3_fix_noop (jsize (Json.obj tkvs))).1 _ _ hfx2 hFD
                  have hr22 : r2.2 = [] := by rw [hr2]
                  rw [← hp, ht2, hr22]
          | null =>
            simp [normalize_schema_for_backend] at hp
            rw [← hp]
          | bool b =>
            simp [normalize_schema_for_backend] at hp
            rw [← hp]
          | num i =>
            simp [normalize_schema_for_backend] at hp
            rw [← hp]
          | str s2 =>
            simp [normalize_schema_for_backend] at hp
            rw [← hp]
          | arr xs =>
            simp [normalize_schema_for_backend] at hp
            rw [← hp]
  | null =>
    simp [normalize_schema_for_backend] at h
    obtain ⟨rfl, rfl⟩ := h
    refine ⟨rfl, serJ_refl _, ?_⟩
    intro p hp
    simp [normalize_schema_for_backend] at hp
    rw [← hp]
  | bool b =>
    simp [normalize_schema_for_backend] at h
    obtain ⟨rfl, rfl⟩ := h
    refine ⟨rfl, serJ_refl _, ?_⟩
    intro p hp
    simp [normalize_schema_for_backend] at hp
    rw [← hp]
  | num i =>
    simp [normalize_schema_for_backend] at h
    obtain ⟨rfl, rfl⟩ := h
    refine ⟨rfl, serJ_refl _, ?_⟩
    intro p hp
    simp [normalize_schema_for_backend] at hp
    rw [← hp]
  | str s2 =>
    simp [normalize_schema_for_backend] at h
    obtain ⟨rfl, rfl⟩ := h
    refine ⟨rfl, serJ_refl _, ?_⟩
    intro p hp
    simp [normalize_schema_for_backend] at hp
    rw [← hp]
  | arr xs =>
    simp [normalize_schema_for_backend] at h
    obtain ⟨rfl, rfl⟩ := h
    refine ⟨rfl, serJ_refl _, ?_⟩
    intro p hp
    simp [normalize_schema_for_backend] at hp
    rw [← hp]

/-- C3 witness: the amended theorem applied to a concrete schema with a
reserved-free property dictionary; the second normalization pass indeed
returns the first pass's output unchanged with an empty map. -/
theorem claim_C3_witness :
    schemaOkJ (Json.obj [("type", Json.str "object"),
        ("properties", Json.obj [("name", Json.obj [("type", Json.str "string")])])])
      = true
    ∧ normalize_schema_for_backend
        (Json.obj [("type", Json.str "object"),
          ("properties", Json.obj [("name", Json.obj [("type", Json.str "string")])])])
      = some (Json.obj [("type", Json.str "object"),
          ("properties", Json.obj [("name", Json.obj [("type", Json.str "string")])]),
          ("required", Json.arr [])], [])
    ∧ serJ
        (Json.obj [("type", Json.str "object"),
          ("properties", Json.obj [("name", Json.obj [("type", Json.str "string")])])])
        (Json.obj [("type", Json.str "object"),
          ("properties", Json.obj [("name", Json.obj [("type", Json.str "string")])]),
          ("required", Json.arr [])]) = true :=
  ⟨by decide, by decide,
   (claim_C3
      (Json.obj [("type", Json.str "object"),
        ("properties", Json.obj [("name", Json.obj [("type", Json.str "string")])])])
      (Json.obj [("type", Json.str "object"),
        ("properties", Json.obj [("name", Json.obj [("type", Json.str "string")])]),
        ("required", Json.arr [])])
      [] (by decide) (by decide)).2.1⟩

end Jig

namespace Jig

/-- The no-rename-collision side condition of C4 at one node: if the node
has a dictionary `properties`, its keys are still mutually distinct after
renaming, so rebuilding `new_props` by dict assignment loses no entry. -/
def renLocalOk (kvs : List (String × Json)) : Bool :=
  match getKey kvs "properties" with
  | some (.obj pvs) => decide ((pvs.map (fun p => renameKey p.1)).Nodup)
  | _ => true

mutual

/-- The rename-collision-freedom condition imposed at every node of the
tree (hereditarily, so it holds at every node the normalizer visits). -/
def renOkJ : Json → Bool
  | .obj kvs => renLocalOk kvs && renOkKvs kvs
  | .arr xs => renOkList xs
  | _ => true

def renOkKvs : List (String × Json) → Bool
  | [] => true
  | (_, v) :: rest => renOkJ v && renOkKvs rest

def renOkList : List Json → Bool
  | [] => true
  | x :: xs => renOkJ x && renOkList xs

end

theorem renOkKvs_mem : ∀ {l : List (String × Json)} {k : String}
    {v : Json}, renOkKvs l = true → (k, v) ∈ l → renOkJ v = true := by
  intro l
  induction l with
  | nil => intro k v _ hm; simp at hm
  | cons p rest ih =>
    intro k v h hm
    simp only [renOkKvs, Bool.and_eq_true] at h
    cases List.mem_cons.mp hm with
    | inl h2 => rw [← h2] at h; exact h.1
    | inr h2 => exact ih h.2 h2

theorem renOkList_mem : ∀ {l : List Json} {x : Json},
    renOkList l = true → x ∈ l → renOkJ x = true := by
  intro l
  induction l with
  | nil => intro x _ hm; simp at hm
  | cons y rest ih =>
    intro x h hm
    simp only [renOkList, Bool.and_eq_true] at h
    cases List.mem_cons.mp hm with
    | inl h2 => rw [← h2] at h; exact h.1
    | inr h2 => exact ih h.2 h2

theorem renOk_getKey {kvs : List (String × Json)} {key : String}
    {v : Json} (h : renOkJ (Json.obj kvs) = true)
    (hg : getKey kvs key = some v) : renOkJ v = true := by
  simp only [renOkJ, Bool.and_eq_true] at h
  exact renOkKvs_mem h.2 (getKey_mem hg)

theorem renOk_val {l : List (String × Json)} {k : String} {v : Json}
    (h : renOkJ (Json.obj l) = true) (hm : (k, v) ∈ l) :
    renOkJ v = true := by
  simp only [renOkJ, Bool.and_eq_true] at h
  exact renOkKvs_mem h.2 hm

theorem renOk_local {kvs : List (String × Json)}
    (h : renOkJ (Json.obj kvs) = true) : renLocalOk kvs = true := by
  simp only [renOkJ, Bool.and_eq_true] at h
  exact h.1

theorem renOk_nodup {kvs pvs : List (String × Json)}
    (h : renOkJ (Json.obj kvs) = true)
    (hg : getKey kvs "properties" = some (Json.obj pvs)) :
    (pvs.map (fun p => renameKey p.1)).Nodup := by
  have hl := renOk_local h
  unfold renLocalOk at hl
  rw [hg] at hl
  exact of_decide_eq_true hl

theorem reachAll_trans {a b c : Json} (h1 : ReachAll a b)
    (h2 : ReachAll b c) : ReachAll a c := by
  induction h1 with
  | refl j => exact h2
  | prop hg hm _ ih => exact ReachAll.prop hg hm (ih h2)
  | items hg _ ih => exact ReachAll.items hg (ih h2)
  | itemsSeq hg hm _ ih => exact ReachAll.itemsSeq hg hm (ih h2)
  | comp hk hg hm _ ih => exact ReachAll.comp hk hg hm (ih h2)
  | defs hg hm _ ih => exact ReachAll.defs hg hm (ih h2)

theorem reachAll_nonobj {x u : Json} (h : ReachAll x u)
    (hx : ∀ kvs, x ≠ Json.obj kvs) : u = x := by
  cases h with
  | refl => rfl
  | prop hg hm hr => exact absurd rfl (hx _)
  | items hg hr => exact absurd rfl (hx _)
  | itemsSeq hg hm hr => exact absurd rfl (hx _)
  | comp hk hg hm hr => exact absurd rfl (hx _)
  | defs hg hm hr => exact absurd rfl (hx _)

theorem normF_one_nonobj {x : Json} {m : RenameMap}
    (hx : ∀ kvs, x ≠ Json.obj kvs) : normF 1 x m = some (x, m) := by
  cases x with
  | obj kvs => exact absurd rfl (hx kvs)
  | null => rfl
  | bool b => rfl
  | num i => rfl
  | str s => rfl
  | arr xs => rfl

end Jig

namespace Jig

theorem requiredFromProps_pres {out o : List (String × Json)}
    (h : requiredFromProps out = some o) :
    ∀ key, key ≠ "required" → getKey o key = getKey out key := by
  intro key hk
  unfold requiredFromProps at h
  cases hg : getKey out "properties" with
  | none =>
    rw [hg] at h
    simp at h
    rw [← h]
    exact getKey_setKey_ne _ _ (Ne.symm hk)
  | some pv =>
    rw [hg] at h
    cases pv with
    | obj npvs =>
      simp at h
      rw [← h]
      exact getKey_setKey_ne _ _ (Ne.symm hk)
    | null => simp at h
    | bool b => simp at h
    | num i => simp at h
    | str s0 => simp at h
    | arr xs => simp at h

theorem requiredOtherShape_pres {out o : List (String × Json)}
    (h : requiredOtherShape out = some o) :
    ∀ key, key ≠ "required" → getKey o key = getKey out key := by
  intro key hk
  unfold requiredOtherShape at h
  cases hg : getKey out "properties" with
  | none =>
    rw [hg] at h
    simp at h
    rw [← h]
    exact getKey_setKey_ne _ _ (Ne.symm hk)
  | some pv =>
    rw [hg] at h
    cases htr : truthy pv with
    | false =>
      simp [htr] at h
      rw [← h]
      exact getKey_setKey_ne _ _ (Ne.symm hk)
    | true =>
      cases pv with
      | obj npvs =>
        simp [htr] at h
        rw [← h]
        exact getKey_setKey_ne _ _ (Ne.symm hk)
      | null => simp [htr] at h
      | bool b => simp [htr] at h
      | num i => simp [htr] at h
      | str s0 => simp [htr] at h
      | arr xs => simp [htr] at h

theorem normStepRequired_pres {kvs : List (String × Json)} {s s3}
    (h : normStepRequired kvs s = some s3) :
    ∀ key, key ≠ "required" → getKey s3.1 key = getKey s.1 key := by
  intro key hk
  unfold normStepRequired at h
  cases hr : getKey kvs "required" with
  | none =>
    rw [hr] at h
    cases hp : getKey s.1 "properties" with
    | none => simp [hp] at h; rw [← h]
    | some pv =>
      cases pv with
      | obj npvs =>
        rw [hp] at h
        cases he : npvs.isEmpty with
        | true => simp [he] at h; rw [← h]
        | false =>
          simp [he] at h
          rw [← h]
          exact getKey_setKey_ne _ _ (Ne.symm hk)
      | null => rw [hp] at h; simp at h; rw [← h]
      | bool b => rw [hp] at h; simp at h; rw [← h]
      | num i => rw [hp] at h; simp at h; rw [← h]
      | str s0 => rw [hp] at h; simp at h; rw [← h]
      | arr xs => rw [hp] at h; simp at h; rw [← h]
  | some rv =>
    rw [hr] at h
    cases rv with
    | arr rs =>
      cases hall : rs.all Json.isStr with
      | true => simp [hall] at h; rw [← h]
      | false =>
        simp [hall] at h
        cases ho : requiredOtherShape s.1 with
        | none => simp [ho] at h
        | some o =>
          simp [ho] at h
          rw [← h]
          exact requiredOtherShape_pres ho key hk
    | bool b =>
      cases b with
      | true =>
        simp at h
        cases ho : requiredFromProps s.1 with
        | none => simp [ho] at h
        | some o =>
          simp [ho] at h
          rw [← h]
          exact requiredFromProps_pres ho key hk
      | false =>
        simp at h
        rw [← h]
        exact getKey_setKey_ne _ _ (Ne.symm hk)
    | obj rkvs =>
      simp at h
      rw [← h]
      exact getKey_setKey_ne _ _ (Ne.symm hk)
    | null =>
      cases hp : getKey s.1 "properties" with
      | none => simp [hp] at h; rw [← h]
      | some pv =>
        cases pv with
        | obj npvs =>
          rw [hp] at h
          cases he : npvs.isEmpty with
          | true => simp [he] at h; rw [← h]
          | false =>
            simp [he] at h
            rw [← h]
            exact getKey_setKey_ne _ _ (Ne.symm hk)
        | null => rw [hp] at h; simp at h; rw [← h]
        | bool b => rw [hp] at h; simp at h; rw [← h]
        | num i => rw [hp] at h; simp at h; rw [← h]
        | str s0 => rw [hp] at h; simp at h; rw [← h]
        | arr xs => rw [hp] at h; simp at h; rw [← h]
    | num i =>
      simp at h
      cases ho : requiredOtherShape s.1 with
      | none => simp [ho] at h
      | some o =>
        simp [ho] at h
        rw [← h]
        exact requiredOtherShape_pres ho key hk
    | str s0 =>
      simp at h
      cases ho : requiredOtherShape s.1 with
      | none => simp [ho] at h
      | some o =>
        simp [ho] at h
        rw [← h]
        exact requiredOtherShape_pres ho key hk

theorem normStepItems_pres {n : Nat} {kvs : List (String × Json)}
    {s s2} (h : normStepItems n kvs s = some s2) :
    ∀ key, key ≠ "items" → getKey s2.1 key = getKey s.1 key := by
  intro key hk
  cases n with
  | zero => simp [normStepItems] at h
  | succ n =>
    cases hi : getKey kvs "items" with
    | none => simp [normStepItems, hi] at h; rw [← h]
    | some iv =>
      cases iv with
      | obj ikvs =>
        cases hr : normF n (.obj ikvs) s.2 with
        | none => simp [normStepItems, hi, hr] at h
        | some r =>
          simp [normStepItems, hi, hr] at h
          rw [← h]
          exact getKey_setKey_ne _ _ (Ne.symm hk)
      | arr xs =>
        cases hr : normListF n xs s.2 with
        | none => simp [normStepItems, hi, hr] at h
        | some r =>
          simp [normStepItems, hi, hr] at h
          rw [← h]
          exact getKey_setKey_ne _ _ (Ne.symm hk)
      | null => simp [normStepItems, hi] at h; rw [← h]
      | bool b => simp [normStepItems, hi] at h; rw [← h]
      | num i => simp [normStepItems, hi] at h; rw [← h]
      | str s0 => simp [normStepItems, hi] at h; rw [← h]

theorem normStepComp_pres {n : Nat} {kvs : List (String × Json)}
    {key : String} {s s2} (h : normStepComp n kvs key s = some s2) :
    ∀ key2, key2 ≠ key → getKey s2.1 key2 = getKey s.1 key2 := by
  intro key2 hk
  cases n with
  | zero => simp [normStepComp] at h
  | succ n =>
    cases hi : getKey kvs key with
    | none => simp [normStepComp, hi] at h; rw [← h]
    | some iv =>
      cases iv with
      | arr xs =>
        cases hr : normListF n xs s.2 with
        | none => simp [normStepComp, hi, hr] at h
        | some r =>
          simp [normStepComp, hi, hr] at h
          rw [← h]
          exact getKey_setKey_ne _ _ (Ne.symm hk)
      | obj kvs2 => simp [normStepComp, hi] at h; rw [← h]
      | null => simp [normStepComp, hi] at h; rw [← h]
      | bool b => simp [normStepComp, hi] at h; rw [← h]
      | num i => simp [normStepComp, hi] at h; rw [← h]
      | str s0 => simp [normStepComp, hi] at h; rw [← h]

theorem normStepDefs_pres {n : Nat} {kvs : List (String × Json)}
    {s : List (String × Json) × RenameMap} {t : Json} {m' : RenameMap}
    (h : normStepDefs n kvs s = some (t, m')) :
    ∃ t2, t = Json.obj t2
      ∧ ∀ key, key ≠ "$defs" → getKey t2 key = getKey s.1 key := by
  cases n with
  | zero => simp [normStepDefs] at h
  | succ n =>
    cases hd : getKey kvs "$defs" with
    | none =>
      simp [normStepDefs, hd] at h
      exact ⟨s.1, h.1.symm, fun key _ => rfl⟩
    | some dv =>
      cases dv with
      | obj dvs =>
        cases hr : normDefsF n dvs s.2 with
        | none => simp [normStepDefs, hd, hr] at h
        | some r =>
          simp [normStepDefs, hd, hr] at h
          exact ⟨setKey s.1 "$defs" (Json.obj r.1), h.1.symm,
            fun key hk => getKey_setKey_ne _ _ (Ne.symm hk)⟩
      | null =>
        simp [normStepDefs, hd] at h
        exact ⟨s.1, h.1.symm, fun key _ => rfl⟩
      | bool b =>
        simp [normStepDefs, hd] at h
        exact ⟨s.1, h.1.symm, fun key _ => rfl⟩
      | num i =>
        simp [normStepDefs, hd] at h
        exact ⟨s.1, h.1.symm, fun key _ => rfl⟩
      | str s0 =>
        simp [normStepDefs, hd] at h
        exact ⟨s.1, h.1.symm, fun key _ => rfl⟩
      | arr xs =>
        simp [normStepDefs, hd] at h
        exact ⟨s.1, h.1.symm, fun key _ => rfl⟩

theorem normStepItems_obj {n : Nat} {kvs : List (String × Json)}
    {ikvs : List (String × Json)} {s s2}
    (h : normStepItems n kvs s = some s2)
    (hi : getKey kvs "items" = some (.obj ikvs)) :
    ∃ n2 rv, n = n2 + 1 ∧ normF n2 (.obj ikvs) s.2 = some rv
      ∧ getKey s2.1 "items" = some rv.1 := by
  cases n with
  | zero => simp [normStepItems] at h
  | succ n =>
    cases hr : normF n (.obj ikvs) s.2 with
    | none => simp [normStepItems, hi, hr] at h
    | some rv =>
      simp [normStepItems, hi, hr] at h
      exact ⟨n, rv, rfl, hr, by rw [← h]; exact getKey_setKey_self _ _ _⟩

theorem normStepItems_arr {n : Nat} {kvs : List (String × Json)}
    {xs : List Json} {s s2}
    (h : normStepItems n kvs s = some s2)
    (hi : getKey kvs "items" = some (.arr xs)) :
    ∃ n2 rv, n = n2 + 1 ∧ normListF n2 xs s.2 = some rv
      ∧ getKey s2.1 "items" = some (Json.arr rv.1) := by
  cases n with
  | zero => simp [normStepItems] at h
  | succ n =>
    cases hr : normListF n xs s.2 with
    | none => simp [normStepItems, hi, hr] at h
    | some rv =>
      simp [normStepItems, hi, hr] at h
      exact ⟨n, rv, rfl, hr, by rw [← h]; exact getKey_setKey_self _ _ _⟩

theorem normStepComp_arr {n : Nat} {kvs : List (String × Json)}
    {key : String} {xs : List Json} {s s2}
    (h : normStepComp n kvs key s = some s2)
    (hi : getKey kvs key = some (.arr xs)) :
    ∃ n2 rv, n = n2 + 1 ∧ normListF n2 xs s.2 = some rv
      ∧ getKey s2.1 key = some (Json.arr rv.1) := by
  cases n with
  | zero => simp [normStepComp] at h
  | succ n =>
    cases hr : normListF n xs s.2 with
    | none => simp [normStepComp, hi, hr] at h
    | some rv =>
      simp [normStepComp, hi, hr] at h
      exact ⟨n, rv, rfl, hr, by rw [← h]; exact getKey_setKey_self _ _ _⟩

theorem normStepDefs_obj {n : Nat} {kvs : List (String × Json)}
    {dvs : List (String × Json)} {s : List (String × Json) × RenameMap}
    {t : Json} {m' : RenameMap}
    (h : normStepDefs n kvs s = some (t, m'))
    (hd : getKey kvs "$defs" = some (.obj dvs)) :
    ∃ n2 rv t2, n = n2 + 1 ∧ normDefsF n2 dvs s.2 = some rv
      ∧ t = Json.obj t2 ∧ getKey t2 "$defs" = some (Json.obj rv.1) := by
  cases n with
  | zero => simp [normStepDefs] at h
  | succ n =>
    cases hr : normDefsF n dvs s.2 with
    | none => simp [normStepDefs, hd, hr] at h
    | some rv =>
      simp [normStepDefs, hd, hr] at h
      exact ⟨n, rv, setKey s.1 "$defs" (Json.obj rv.1), rfl, hr,
        h.1.symm, getKey_setKey_self _ _ _⟩

theorem normF_obj_shape {n : Nat} {kvs : List (String × Json)}
    {m : RenameMap} {r} (h : normF n (.obj kvs) m = some r) :
    ∃ t2, r.1 = Json.obj t2 := by
  cases n with
  | zero => simp [normF] at h
  | succ n =>
    simp only [normF, bind, Option.bind] at h
    cases h1 : normStepProps n kvs m with
    | none => simp [h1] at h
    | some s1 =>
    simp only [h1] at h
    cases h2 : normStepItems n kvs s1 with
    | none => simp [h2] at h
    | some s2 =>
    simp only [h2] at h
    cases h3 : normStepRequired kvs s2 with
    | none => simp [h3] at h
    | some s3 =>
    simp only [h3] at h
    cases h4 : normStepComp n kvs "anyOf" s3 with
    | none => simp [h4] at h
    | some s4 =>
    simp only [h4] at h
    cases h5 : normStepComp n kvs "oneOf" s4 with
    | none => simp [h5] at h
    | some s5 =>
    simp only [h5] at h
    cases h6 : normStepComp n kvs "allOf" s5 with
    | none => simp [h6] at h
    | some s6 =>
    simp only [h6] at h
    obtain ⟨r1, r2⟩ := r
    obtain ⟨t2, ht2, _⟩ := normStepDefs_pres h
    exact ⟨t2, ht2⟩

end Jig

namespace Jig

/-- Inside a successful properties loop without rename collisions, every
property value was normalized by a smaller-budget `normF` run and landed
under its renamed key in the rebuilt dict; accumulator entries survive. -/
theorem normPropsF_sub : ∀ {n : Nat} {pvs : List (String × Json)}
    {m : RenameMap} {acc r},
    normPropsF n pvs m acc = some r →
    (∀ p ∈ pvs, ∀ q ∈ acc, q.1 ≠ renameKey p.1) →
    (pvs.map (fun p => renameKey p.1)).Nodup →
    (∀ q ∈ acc, q ∈ r.1)
    ∧ (∀ k v, (k, v) ∈ pvs → ∃ n2 m2 rv, n2 < n
        ∧ normF n2 v m2 = some rv ∧ (renameKey k, rv.1) ∈ r.1) := by
  intro n
  induction n with
  | zero =>
    intro pvs m acc r h
    simp [normPropsF] at h
  | succ n ih =>
    intro pvs m acc r h hfresh hnodup
    cases pvs with
    | nil =>
      simp [normPropsF] at h
      refine ⟨fun q hq => ?_, fun k v hm => absurd hm (List.not_mem_nil _)⟩
      rw [← h]
      exact hq
    | cons p rest =>
      obtain ⟨k, v⟩ := p
      by_cases hres : k ∈ reservedPropNames
      · have hrk : renameKey k = renameMarker ++ k := by
          simp [renameKey, hres]
        cases hnv : normF n v (insertRename m (renameMarker ++ k) k) with
        | none => simp [normPropsF, hres, hnv] at h
        | some rv =>
          simp [normPropsF, hres, hnv] at h
          have hacc : setKey acc (renameMarker ++ k) rv.1
              = acc ++ [(renameMarker ++ k, rv.1)] := by
            apply setKey_of_fresh
            intro q hq he
            exact hfresh (k, v) (List.mem_cons_self _ _) q hq (by rw [hrk, he])
          rw [hacc] at h
          have hfresh2 : ∀ p2 ∈ rest,
              ∀ q ∈ acc ++ [(renameMarker ++ k, rv.1)],
              q.1 ≠ renameKey p2.1 := by
            intro p2 hp2 q hq
            rcases List.mem_append.mp hq with hq | hq
            · exact hfresh p2 (List.mem_cons_of_mem _ hp2) q hq
            · simp only [List.mem_singleton] at hq
              subst hq
              rw [List.map_cons, List.nodup_cons] at hnodup
              intro he
              have hx : renameKey k ∈ List.map (fun p => renameKey p.1) rest := by
                rw [hrk]
                have he2 : renameMarker ++ k = renameKey p2.1 := he
                rw [he2]
                exact List.mem_map_of_mem _ hp2
              exact hnodup.1 hx
          have hnodup2 : (rest.map (fun p => renameKey p.1)).Nodup := by
            rw [List.map_cons, List.nodup_cons] at hnodup
            exact hnodup.2
          obtain ⟨hmono, hmem⟩ := ih h hfresh2 hnodup2
          refine ⟨fun q hq => hmono q (List.mem_append_left _ hq), ?_⟩
          intro k2 v2 hm
          cases List.mem_cons.mp hm with
          | inl he =>
            obtain ⟨hek, hev⟩ := Prod.mk.injEq .. ▸ he
            subst hek
            subst hev
            refine ⟨n, insertRename m (renameMarker ++ k2) k2, rv,
              Nat.lt_succ_self n, hnv, ?_⟩
            rw [hrk]
            exact hmono _ (List.mem_append_right _ (List.mem_singleton.mpr rfl))
          | inr hr2 =>
            obtain ⟨n2, m2, rv2, hlt, hrun, hmm⟩ := hmem k2 v2 hr2
            exact ⟨n2, m2, rv2, Nat.lt_succ_of_lt hlt, hrun, hmm⟩
      · have hrk : renameKey k = k := by simp [renameKey, hres]
        cases hnv : normF n v m with
        | none => simp [normPropsF, hres, hnv] at h
        | some rv =>
          simp [normPropsF, hres, hnv] at h
          have hacc : setKey acc k rv.1 = acc ++ [(k, rv.1)] := by
            apply setKey_of_fresh
            intro q hq he
            exact hfresh (k, v) (List.mem_cons_self _ _) q hq (by rw [hrk, he])
          rw [hacc] at h
          have hfresh2 : ∀ p2 ∈ rest, ∀ q ∈ acc ++ [(k, rv.1)],
              q.1 ≠ renameKey p2.1 := by
            intro p2 hp2 q hq
            rcases List.mem_append.mp hq with hq | hq
            · exact hfresh p2 (List.mem_cons_of_mem _ hp2) q hq
            · simp only [List.mem_singleton] at hq
              subst hq
              rw [List.map_cons, List.nodup_cons] at hnodup
              intro he
              have hx : renameKey k ∈ List.map (fun p => renameKey p.1) rest := by
                rw [hrk]
                have he2 : k = renameKey p2.1 := he
                rw [he2]
                exact List.mem_map_of_mem _ hp2
              exact hnodup.1 hx
          have hnodup2 : (rest.map (fun p => renameKey p.1)).Nodup := by
            rw [List.map_cons, List.nodup_cons] at hnodup
            exact hnodup.2
          obtain ⟨hmono, hmem⟩ := ih h hfresh2 hnodup2
          refine ⟨fun q hq => hmono q (List.mem_append_left _ hq), ?_⟩
          intro k2 v2 hm
          cases List.mem_cons.mp hm with
          | inl he =>
            obtain ⟨hek, hev⟩ := Prod.mk.injEq .. ▸ he
            subst hek
            subst hev
            refine ⟨n, m, rv, Nat.lt_succ_self n, hnv, ?_⟩
            rw [hrk]
            exact hmono _ (List.mem_append_right _ (List.mem_singleton.mpr rfl))
          | inr hr2 =>
            obtain ⟨n2, m2, rv2, hlt, hrun, hmm⟩ := hmem k2 v2 hr2
            exact ⟨n2, m2, rv2, Nat.lt_succ_of_lt hlt, hrun, hmm⟩

/-- Inside a successful sequence loop, every dict element was normalized
by a smaller-budget run and its output is in the output sequence; every
non-dict element passes through unchanged. -/
theorem normListF_sub : ∀ {n : Nat} {xs : List Json} {m : RenameMap} {r},
    normListF n xs m = some r →
    (∀ ikvs, Json.obj ikvs ∈ xs → ∃ n2 m2 rv, n2 < n
        ∧ normF n2 (Json.obj ikvs) m2 = some rv ∧ rv.1 ∈ r.1)
    ∧ (∀ x ∈ xs, (∀ ikvs, x ≠ Json.obj ikvs) → x ∈ r.1) := by
  intro n
  induction n with
  | zero =>
    intro xs m r h
    simp [normListF] at h
  | succ n ih =>
    intro xs m r h
    cases xs with
    | nil =>
      simp [normListF] at h
      refine ⟨fun ikvs hm => absurd hm (List.not_mem_nil _),
        fun x hx _ => absurd hx (List.not_mem_nil _)⟩
    | cons x rest =>
      cases x
      case obj kvs2 =>
        cases hr0 : normF n (.obj kvs2) m with
        | none => simp [normListF, hr0] at h
        | some rv =>
          cases hr1 : normListF n rest rv.2 with
          | none => simp [normListF, hr0, hr1] at h
          | some r2 =>
            simp [normListF, hr0, hr1] at h
            obtain ⟨ihA, ihB⟩ := ih hr1
            refine ⟨?_, ?_⟩
            · intro ikvs hm
              cases List.mem_cons.mp hm with
              | inl h2 =>
                have hik : ikvs = kvs2 := Json.obj.inj h2
                subst hik
                exact ⟨n, m, rv, Nat.lt_succ_self n, hr0,
                  by rw [← h]; exact List.mem_cons_self _ _⟩
              | inr h2 =>
                obtain ⟨n2, m2, rv2, hlt, hrun, hmm⟩ := ihA ikvs h2
                exact ⟨n2, m2, rv2, Nat.lt_succ_of_lt hlt, hrun,
                  by rw [← h]; exact List.mem_cons_of_mem _ hmm⟩
            · intro x2 hx2 hnx2
              cases List.mem_cons.mp hx2 with
              | inl h2 => exact absurd h2 (hnx2 kvs2)
              | inr h2 =>
                rw [← h]
                exact List.mem_cons_of_mem _ (ihB x2 h2 hnx2)
      all_goals
        cases hr1 : normListF n rest m with
        | none => simp [normListF, hr1] at h
        | some r2 =>
          simp [normListF, hr1] at h
          obtain ⟨ihA, ihB⟩ := ih hr1
          refine ⟨?_, ?_⟩
          · intro ikvs hm
            cases List.mem_cons.mp hm with
            | inl h2 => simp at h2
            | inr h2 =>
              obtain ⟨n2, m2, rv2, hlt, hrun, hmm⟩ := ihA ikvs h2
              exact ⟨n2, m2, rv2, Nat.lt_succ_of_lt hlt, hrun,
                by rw [← h]; exact List.mem_cons_of_mem _ hmm⟩
          · intro x2 hx2 hnx2
            cases List.mem_cons.mp hx2 with
            | inl h2 =>
              rw [← h, h2]
              exact List.mem_cons_self _ _
            | inr h2 =>
              rw [← h]
              exact List.mem_cons_of_mem _ (ihB x2 h2 hnx2)

/-- Inside a successful `$defs` loop, every dict value was normalized by
a smaller-budget run and rebound to its key; non-dict values pass
through. -/
theorem normDefsF_sub : ∀ {n : Nat} {dvs : List (String × Json)}
    {m : RenameMap} {r},
    normDefsF n dvs m = some r →
    (∀ k ikvs, (k, Json.obj ikvs) ∈ dvs → ∃ n2 m2 rv, n2 < n
        ∧ normF n2 (Json.obj ikvs) m2 = some rv ∧ (k, rv.1) ∈ r.1)
    ∧ (∀ k v, (k, v) ∈ dvs → (∀ ikvs, v ≠ Json.obj ikvs) → (k, v) ∈ r.1) := by
  intro n
  induction n with
  | zero =>
    intro dvs m r h
    simp [normDefsF] at h
  | succ n ih =>
    intro dvs m r h
    cases dvs with
    | nil =>
      simp [normDefsF] at h
      refine ⟨fun k ikvs hm => absurd hm (List.not_mem_nil _),
        fun k v hm _ => absurd hm (List.not_mem_nil _)⟩
    | cons p rest =>
      obtain ⟨k0, v0⟩ := p
      cases v0
      case obj kvs2 =>
        cases hr0 : normF n (.obj kvs2) m with
        | none => simp [normDefsF, hr0] at h
        | some rv =>
          cases hr1 : normDefsF n rest rv.2 with
          | none => simp [normDefsF, hr0, hr1] at h
          | some r2 =>
            simp [normDefsF, hr0, hr1] at h
            obtain ⟨ihA, ihB⟩ := ih hr1
            refine ⟨?_, ?_⟩
            · intro k ikvs hm
              cases List.mem_cons.mp hm with
              | inl h2 =>
                obtain ⟨hek, hev⟩ := Prod.mk.injEq .. ▸ h2
                have hik : ikvs = kvs2 := Json.obj.inj hev
                subst hik
                subst hek
                exact ⟨n, m, rv, Nat.lt_succ_self n, hr0,
                  by rw [← h]; exact List.mem_cons_self _ _⟩
              | inr h2 =>
                obtain ⟨n2, m2, rv2, hlt, hrun, hmm⟩ := ihA k ikvs h2
                exact ⟨n2, m2, rv2, Nat.lt_succ_of_lt hlt, hrun,
                  by rw [← h]; exact List.mem_cons_of_mem _ hmm⟩
            · intro k v hm hnv
              cases List.mem_cons.mp hm with
              | inl h2 =>
                obtain ⟨hek, hev⟩ := Prod.mk.injEq .. ▸ h2
                exact absurd hev (hnv kvs2)
              | inr h2 =>
                rw [← h]
                exact List.mem_cons_of_mem _ (ihB k v h2 hnv)
      all_goals
        cases hr1 : normDefsF n rest m with
        | none => simp [normDefsF, hr1] at h
        | some r2 =>
          simp [normDefsF, hr1] at h
          obtain ⟨ihA, ihB⟩ := ih hr1
          refine ⟨?_, ?_⟩
          · intro k ikvs hm
            cases List.mem_cons.mp hm with
            | inl h2 =>
              obtain ⟨hek, hev⟩ := Prod.mk.injEq .. ▸ h2
              simp at hev
            | inr h2 =>
              obtain ⟨n2, m2, rv2, hlt, hrun, hmm⟩ := ihA k ikvs h2
              exact ⟨n2, m2, rv2, Nat.lt_succ_of_lt hlt, hrun,
                by rw [← h]; exact List.mem_cons_of_mem _ hmm⟩
          · intro k v hm hnv
            cases List.mem_cons.mp hm with
            | inl h2 =>
              rw [← h, h2]
              exact List.mem_cons_self _ _
            | inr h2 =>
              rw [← h]
              exact List.mem_cons_of_mem _ (ihB k v h2 hnv)

end Jig

namespace Jig

/-- Every node `_norm` can reach in its input is itself normalized by a
recursive `_norm` call somewhere inside a successful run, and that
call's output is reachable in the overall output (provided no rename
collision anywhere, so rebuilt dicts lose no entry). -/
theorem normF_sub : ∀ n : Nat, ∀ j m r, normF n j m = some r →
    renOkJ j = true → ∀ u, ReachAll j u →
    ∃ n2 m2 r2, normF n2 u m2 = some r2 ∧ ReachAll r.1 r2.1 := by
  intro n
  induction n using Nat.strong_induction_on with
  | _ n ih =>
  intro j m r h hren u hu
  cases n with
  | zero => simp [normF] at h
  | succ n =>
  cases j
  case obj kvs =>
    have h0 := h
    simp only [normF, bind, Option.bind] at h
    cases h1 : normStepProps n kvs m with
    | none => simp [h1] at h
    | some s1 =>
    simp only [h1] at h
    cases h2 : normStepItems n kvs s1 with
    | none => simp [h2] at h
    | some s2 =>
    simp only [h2] at h
    cases h3 : normStepRequired kvs s2 with
    | none => simp [h3] at h
    | some s3 =>
    simp only [h3] at h
    cases h4 : normStepComp n kvs "anyOf" s3 with
    | none => simp [h4] at h
    | some s4 =>
    simp only [h4] at h
    cases h5 : normStepComp n kvs "oneOf" s4 with
    | none => simp [h5] at h
    | some s5 =>
    simp only [h5] at h
    cases h6 : normStepComp n kvs "allOf" s5 with
    | none => simp [h6] at h
    | some s6 =>
    simp only [h6] at h
    obtain ⟨rt, rm⟩ := r
    obtain ⟨t2, hrt, hdp⟩ := normStepDefs_pres h
    subst hrt
    cases hu with
    | refl => exact ⟨n + 1, m, (Json.obj t2, rm), h0, ReachAll.refl _⟩
    | @prop _ pvs k v _ hgp hmem hrest =>
      obtain ⟨n1, q, hn1, hnp, hs1p, _⟩ := normStepProps_obj h1 hgp
      have hnodup := renOk_nodup hren hgp
      have hrenV : renOkJ v = true :=
        renOk_val (renOk_getKey hren hgp) hmem
      obtain ⟨_, hmem2⟩ := normPropsF_sub hnp
        (fun p _ q2 hq2 => absurd hq2 (List.not_mem_nil q2)) hnodup
      obtain ⟨n3, m3, rv, hlt, hrun, hin⟩ := hmem2 k v hmem
      have hlt2 : n3 < n + 1 := by omega
      obtain ⟨n4, m4, r4, hrun4, hreach4⟩ :=
        ih n3 hlt2 v m3 rv hrun hrenV u hrest
      have hedge : getKey t2 "properties" = some (Json.obj q.1) := by
        rw [hdp "properties" (by decide),
            normStepComp_pres h6 "properties" (by decide),
            normStepComp_pres h5 "properties" (by decide),
            normStepComp_pres h4 "properties" (by decide),
            normStepRequired_pres h3 "properties" (by decide),
            normStepItems_pres h2 "properties" (by decide),
            hs1p]
      exact ⟨n4, m4, r4, hrun4,
        reachAll_trans (ReachAll.prop hedge hin (ReachAll.refl rv.1)) hreach4⟩
    | @items _ ikvs _ hgi hrest =>
      obtain ⟨n1, rv, hn1, hrun1, hs2i⟩ := normStepItems_obj h2 hgi
      have hrenI : renOkJ (Json.obj ikvs) = true := renOk_getKey hren hgi
      have hlt2 : n1 < n + 1 := by omega
      obtain ⟨n4, m4, r4, hrun4, hreach4⟩ :=
        ih n1 hlt2 _ _ _ hrun1 hrenI u hrest
      obtain ⟨ikvs2, hik⟩ := normF_obj_shape hrun1
      have hedge : getKey t2 "items" = some (Json.obj ikvs2) := by
        rw [hdp "items" (by decide),
            normStepComp_pres h6 "items" (by decide),
            normStepComp_pres h5 "items" (by decide),
            normStepComp_pres h4 "items" (by decide),
            normStepRequired_pres h3 "items" (by decide),
            hs2i, hik]
      rw [hik] at hreach4
      exact ⟨n4, m4, r4, hrun4,
        reachAll_trans (ReachAll.items hedge (ReachAll.refl _)) hreach4⟩
    | @itemsSeq _ xs x _ hgi hx hrest =>
      obtain ⟨n1, rv, hn1, hrun1, hs2i⟩ := normStepItems_arr h2 hgi
      obtain ⟨subA, subB⟩ := normListF_sub hrun1
      have hedge : getKey t2 "items" = some (Json.arr rv.1) := by
        rw [hdp "items" (by decide),
            normStepComp_pres h6 "items" (by decide),
            normStepComp_pres h5 "items" (by decide),
            normStepComp_pres h4 "items" (by decide),
            normStepRequired_pres h3 "items" (by decide),
            hs2i]
      have hrenL : renOkList xs = true := by
        have hq := renOk_getKey hren hgi
        simpa [renOkJ] using hq
      cases x
      case obj xkvs =>
        obtain ⟨n3, m3, rvx, hlt, hrun, hin⟩ := subA xkvs hx
        have hlt2 : n3 < n + 1 := by omega
        obtain ⟨n4, m4, r4, hrun4, hreach4⟩ :=
          ih n3 hlt2 _ _ _ hrun (renOkList_mem hrenL hx) u hrest
        exact ⟨n4, m4, r4, hrun4,
          reachAll_trans (ReachAll.itemsSeq hedge hin (ReachAll.refl _))
            hreach4⟩
      all_goals
        have hue := reachAll_nonobj hrest (by intro kvs2 hcc; simp at hcc)
        subst hue
        refine ⟨1, m, _, normF_one_nonobj (by intro kvs2 hcc; simp at hcc), ?_⟩
        exact ReachAll.itemsSeq hedge
          (subB _ hx (by intro kvs2 hcc; simp at hcc)) (ReachAll.refl _)
    | @comp _ key xs x _ hkey hgc hx hrest =>
      have hgo : ∀ n1 m1 (rv : List Json × RenameMap), n1 < n + 1 →
          normListF n1 xs m1 = some rv →
          getKey t2 key = some (Json.arr rv.1) →
          ∃ n2 m2 r2, normF n2 u m2 = some r2
            ∧ ReachAll (Json.obj t2, rm).1 r2.1 := by
        intro n1 m1 rv hlt1 hrun1 hedge
        obtain ⟨subA, subB⟩ := normListF_sub hrun1
        have hrenL : renOkList xs = true := by
          have hq := renOk_getKey hren hgc
          simpa [renOkJ] using hq
        cases x
        case obj xkvs =>
          obtain ⟨n3, m3, rvx, hlt, hrun, hin⟩ := subA xkvs hx
          have hlt2 : n3 < n + 1 := by omega
          obtain ⟨n4, m4, r4, hrun4, hreach4⟩ :=
            ih n3 hlt2 _ _ _ hrun (renOkList_mem hrenL hx) u hrest
          exact ⟨n4, m4, r4, hrun4,
            reachAll_trans (ReachAll.comp hkey hedge hin (ReachAll.refl _))
              hreach4⟩
        all_goals
          have hue := reachAll_nonobj hrest (by intro kvs2 hcc; simp at hcc)
          subst hue
          refine ⟨1, m, _, normF_one_nonobj (by intro kvs2 hcc; simp at hcc), ?_⟩
          exact ReachAll.comp hkey hedge
            (subB _ hx (by intro kvs2 hcc; simp at hcc)) (ReachAll.refl _)
      have hkey2 := hkey
      simp only [List.mem_cons, List.not_mem_nil, or_false] at hkey2
      rcases hkey2 with rfl | rfl | rfl
      · obtain ⟨n1, rv, hn1, hrun1, hs4c⟩ := normStepComp_arr h4 hgc
        exact hgo n1 _ rv (by omega) hrun1
          (by rw [hdp "anyOf" (by decide),
                normStepComp_pres h6 "anyOf" (by decide),
                normStepComp_pres h5 "anyOf" (by decide), hs4c])
      · obtain ⟨n1, rv, hn1, hrun1, hs5c⟩ := normStepComp_arr h5 hgc
        exact hgo n1 _ rv (by omega) hrun1
          (by rw [hdp "oneOf" (by decide),
                normStepComp_pres h6 "oneOf" (by decide), hs5c])
      · obtain ⟨n1, rv, hn1, hrun1, hs6c⟩ := normStepComp_arr h6 hgc
        exact hgo n1 _ rv (by omega) hrun1
          (by rw [hdp "allOf" (by decide), hs6c])
    | @defs _ dvs k v _ hgd hmem hrest =>
      obtain ⟨n1, rv, t2A, hn1, hrun1, ht2A, hd2⟩ := normStepDefs_obj h hgd
      have ht2e : t2 = t2A := Json.obj.inj ht2A
      have hd2e : getKey t2 "$defs" = some (Json.obj rv.1) := by
        rw [ht2e]; exact hd2
      obtain ⟨subA, subB⟩ := normDefsF_sub hrun1
      have hrenD : renOkJ (Json.obj dvs) = true := renOk_getKey hren hgd
      cases v
      case obj vkvs =>
        obtain ⟨n3, m3, rvx, hlt, hrun, hin⟩ := subA k vkvs hmem
        have hlt2 : n3 < n + 1 := by omega
        obtain ⟨n4, m4, r4, hrun4, hreach4⟩ :=
          ih n3 hlt2 _ _ _ hrun (renOk_val hrenD hmem) u hrest
        exact ⟨n4, m4, r4, hrun4,
          reachAll_trans (ReachAll.defs hd2e hin (ReachAll.refl _)) hreach4⟩
      all_goals
        have hue := reachAll_nonobj hrest (by intro kvs2 hcc; simp at hcc)
        subst hue
        refine ⟨1, m, _, normF_one_nonobj (by intro kvs2 hcc; simp at hcc), ?_⟩
        exact ReachAll.defs hd2e
          (subB k _ hmem (by intro kvs2 hcc; simp at hcc)) (ReachAll.refl _)
  all_goals
    have hue := reachAll_nonobj hu (by intro kvs2 hcc; simp at hcc)
    subst hue
    exact ⟨n + 1, m, r, h, ReachAll.refl _⟩

end Jig

namespace Jig

/-- Every property value of a successful `_fix_required` properties loop
was processed by a smaller-budget recursive call and rebound to its
key. -/
theorem fixPropsF_mem : ∀ {n : Nat} {l nl : List (String × Json)},
    fixPropsF n l = some nl → ∀ {k v}, (k, v) ∈ l →
    ∃ n2 nv, n2 < n ∧ fixReqF n2 v = some nv ∧ (k, nv) ∈ nl := by
  intro n
  induction n with
  | zero =>
    intro l nl h
    simp [fixPropsF] at h
  | succ n ih =>
    intro l nl h k v hm
    cases l with
    | nil => simp at hm
    | cons p rest =>
      obtain ⟨k0, v0⟩ := p
      cases hnv : fixReqF n v0 with
      | none => simp [fixPropsF, hnv] at h
      | some nv0 =>
        cases hr : fixPropsF n rest with
        | none => simp [fixPropsF, hnv, hr] at h
        | some r2 =>
          simp [fixPropsF, hnv, hr] at h
          cases List.mem_cons.mp hm with
          | inl h2 =>
            obtain ⟨hek, hev⟩ := Prod.mk.injEq .. ▸ h2
            subst hek
            subst hev
            exact ⟨n, nv0, Nat.lt_succ_self n, hnv,
              by rw [← h]; exact List.mem_cons_self _ _⟩
          | inr h2 =>
            obtain ⟨n2, nv, hlt, hfx, hmm⟩ := ih hr h2
            exact ⟨n2, nv, Nat.lt_succ_of_lt hlt, hfx,
              by rw [← h]; exact List.mem_cons_of_mem _ hmm⟩

/-- `_fix_required` only re-assigns `required`, `properties` and `items`:
every other key of an object node keeps its original value (and its
original subtree) untouched. -/
theorem fixReqF_other {n : Nat} {kvs : List (String × Json)} {t : Json}
    (h : fixReqF (n + 1) (.obj kvs) = some t) :
    ∃ t2, t = Json.obj t2
      ∧ ∀ key, key ≠ "required" → key ≠ "properties" → key ≠ "items" →
        getKey t2 key = getKey kvs key := by
  simp only [fixReqF, bind, Option.bind] at h
  have hstep : ∀ kvs1 : List (String × Json),
      (kvs1 = kvs ∨ ∃ w, kvs1 = setKey kvs "required" w) →
      ∀ kvs2 : List (String × Json),
      (kvs2 = kvs1 ∨ ∃ w, kvs2 = setKey kvs1 "properties" w) →
      ∀ t3 : List (String × Json),
      (t3 = kvs2 ∨ ∃ w, t3 = setKey kvs2 "items" w) →
      ∀ key, key ≠ "required" → key ≠ "properties" → key ≠ "items" →
        getKey t3 key = getKey kvs key := by
    intro kvs1 h1 kvs2 h2 t3 h3 key hk1 hk2 hk3
    have e1 : getKey kvs1 key = getKey kvs key := by
      cases h1 with
      | inl he => rw [he]
      | inr he => obtain ⟨w, hw⟩ := he; rw [hw]
                  exact getKey_setKey_ne _ _ (Ne.symm hk1)
    have e2 : getKey kvs2 key = getKey kvs1 key := by
      cases h2 with
      | inl he => rw [he]
      | inr he => obtain ⟨w, hw⟩ := he; rw [hw]
                  exact getKey_setKey_ne _ _ (Ne.symm hk2)
    have e3 : getKey t3 key = getKey kvs2 key := by
      cases h3 with
      | inl he => rw [he]
      | inr he => obtain ⟨w, hw⟩ := he; rw [hw]
                  exact getKey_setKey_ne _ _ (Ne.symm hk3)
    rw [e3, e2, e1]
  cases hp : getKey kvs "properties" with
  | some pv =>
    cases pv
    case obj pvs =>
      cases hr0 : getKey kvs "required" with
      | some rv =>
        cases rv
        case arr rs =>
          cases hfe : fixEntries rs with
          | none => simp [hp, hr0, hfe] at h
          | some nrs =>
            cases hfp : fixPropsF n pvs with
            | none => simp [hp, hr0, hfe, hfp] at h
            | some npvs =>
              simp only [hp, hr0, hfe, hfp] at h
              cases hi : getKey kvs "items" with
              | some iv =>
                cases iv
                case obj ikvs =>
                  cases hfx : fixReqF n (Json.obj ikvs) with
                  | none => simp [hi, hfx] at h
                  | some ni =>
                    simp [hi, hfx] at h
                    refine ⟨_, h.symm, ?_⟩
                    intro key hk1 hk2 hk3
                    exact hstep _ (Or.inr ⟨_, rfl⟩) _ (Or.inr ⟨_, rfl⟩)
                      _ (Or.inr ⟨_, rfl⟩) key hk1 hk2 hk3
                all_goals
                  simp [hi] at h
                  refine ⟨_, h.symm, ?_⟩
                  intro key hk1 hk2 hk3
                  exact hstep _ (Or.inr ⟨_, rfl⟩) _ (Or.inr ⟨_, rfl⟩)
                    _ (Or.inl rfl) key hk1 hk2 hk3
              | none =>
                simp [hi] at h
                refine ⟨_, h.symm, ?_⟩
                intro key hk1 hk2 hk3
                exact hstep _ (Or.inr ⟨_, rfl⟩) _ (Or.inr ⟨_, rfl⟩)
                  _ (Or.inl rfl) key hk1 hk2 hk3
        all_goals
          cases hfp : fixPropsF n pvs with
          | none => simp [hp, hr0, hfp] at h
          | some npvs =>
            simp only [hp, hr0, hfp] at h
            cases hi : getKey kvs "items" with
            | some iv =>
              cases iv
              case obj ikvs =>
                cases hfx : fixReqF n (Json.obj ikvs) with
                | none => simp [hi, hfx] at h
                | some ni =>
                  simp [hi, hfx] at h
                  refine ⟨_, h.symm, ?_⟩
                  intro key hk1 hk2 hk3
                  exact hstep _ (Or.inl rfl) _ (Or.inr ⟨_, rfl⟩)
                    _ (Or.inr ⟨_, rfl⟩) key hk1 hk2 hk3
              all_goals
                simp [hi] at h
                refine ⟨_, h.symm, ?_⟩
                intro key hk1 hk2 hk3
                exact hstep _ (Or.inl rfl) _ (Or.inr ⟨_, rfl⟩)
                  _ (Or.inl rfl) key hk1 hk2 hk3
            | none =>
              simp [hi] at h
              refine ⟨_, h.symm, ?_⟩
              intro key hk1 hk2 hk3
              exact hstep _ (Or.inl rfl) _ (Or.inr ⟨_, rfl⟩)
                _ (Or.inl rfl) key hk1 hk2 hk3
      | none =>
        cases hfp : fixPropsF n pvs with
        | none => simp [hp, hr0, hfp] at h
        | some npvs =>
          simp only [hp, hr0, hfp] at h
          cases hi : getKey kvs "items" with
          | some iv =>
            cases iv
            case obj ikvs =>
              cases hfx : fixReqF n (Json.obj ikvs) with
              | none => simp [hi, hfx] at h
              | some ni =>
                simp [hi, hfx] at h
                refine ⟨_, h.symm, ?_⟩
                intro key hk1 hk2 hk3
                exact hstep _ (Or.inl rfl) _ (Or.inr ⟨_, rfl⟩)
                  _ (Or.inr ⟨_, rfl⟩) key hk1 hk2 hk3
            all_goals
              simp [hi] at h
              refine ⟨_, h.symm, ?_⟩
              intro key hk1 hk2 hk3
              exact hstep _ (Or.inl rfl) _ (Or.inr ⟨_, rfl⟩)
                _ (Or.inl rfl) key hk1 hk2 hk3
          | none =>
            simp [hi] at h
            refine ⟨_, h.symm, ?_⟩
            intro key hk1 hk2 hk3
            exact hstep _ (Or.inl rfl) _ (Or.inr ⟨_, rfl⟩)
              _ (Or.inl rfl) key hk1 hk2 hk3
    all_goals
      simp only [hp] at h
      split at h
      · simp at h
      · cases hi : getKey kvs "items" with
        | some iv =>
          cases iv
          case obj ikvs =>
            cases hfx : fixReqF n (Json.obj ikvs) with
            | none => simp [hi, hfx] at h
            | some ni =>
              simp [hi, hfx] at h
              refine ⟨_, h.symm, ?_⟩
              intro key hk1 hk2 hk3
              exact hstep _ (Or.inl rfl) _ (Or.inl rfl)
                _ (Or.inr ⟨_, rfl⟩) key hk1 hk2 hk3
          all_goals
            simp [hi] at h
            refine ⟨_, h.symm, ?_⟩
            intro key hk1 hk2 hk3
            exact hstep _ (Or.inl rfl) _ (Or.inl rfl)
              _ (Or.inl rfl) key hk1 hk2 hk3
        | none =>
          simp [hi] at h
          refine ⟨_, h.symm, ?_⟩
          intro key hk1 hk2 hk3
          exact hstep _ (Or.inl rfl) _ (Or.inl rfl)
            _ (Or.inl rfl) key hk1 hk2 hk3
  | none =>
    simp only [hp] at h
    cases hi : getKey kvs "items" with
    | some iv =>
      cases iv
      case obj ikvs =>
        cases hfx : fixReqF n (Json.obj ikvs) with
        | none => simp [hi, hfx] at h
        | some ni =>
          simp [hi, hfx] at h
          refine ⟨_, h.symm, ?_⟩
          intro key hk1 hk2 hk3
          exact hstep _ (Or.inl rfl) _ (Or.inl rfl)
            _ (Or.inr ⟨_, rfl⟩) key hk1 hk2 hk3
      all_goals
        simp [hi] at h
        refine ⟨_, h.symm, ?_⟩
        intro key hk1 hk2 hk3
        exact hstep _ (Or.inl rfl) _ (Or.inl rfl)
          _ (Or.inl rfl) key hk1 hk2 hk3
    | none =>
      simp [hi] at h
      refine ⟨_, h.symm, ?_⟩
      intro key hk1 hk2 hk3
      exact hstep _ (Or.inl rfl) _ (Or.inl rfl)
        _ (Or.inl rfl) key hk1 hk2 hk3

end Jig

namespace Jig

/-- A node reachable in the input of a successful `_fix_required` run
whose `required` is a sequence of non-reserved strings reappears in the
output with that `required` sequence intact: on the edges the pass
re-walks the rewrite is the identity there, and on the other edges the
subtree is carried over verbatim. -/
theorem fixReqF_keep : ∀ n : Nat, ∀ {j t : Json}, fixReqF n j = some t →
    ∀ {vkvs : List (String × Json)} {rs : List Json},
    ReachAll j (Json.obj vkvs) →
    getKey vkvs "required" = some (Json.arr rs) →
    (∀ e ∈ rs, ∃ s2, e = Json.str s2 ∧ s2 ∉ reservedPropNames) →
    ∃ wkvs, ReachAll t (Json.obj wkvs)
      ∧ getKey wkvs "required" = some (Json.arr rs) := by
  intro n
  induction n using Nat.strong_induction_on with
  | _ n ih =>
  intro j t h vkvs rs hreach hgr hok
  cases n with
  | zero => simp [fixReqF] at h
  | succ n =>
  cases j
  case obj kvs =>
    obtain ⟨t2, ht2, hPR, hI⟩ := fixReqF_shape h
    obtain ⟨t2A, ht2A, hother⟩ := fixReqF_other h
    rw [ht2] at ht2A
    have ht2e : t2 = t2A := Json.obj.inj ht2A
    subst ht2e
    subst ht2
    cases hreach with
    | refl =>
      refine ⟨t2, ReachAll.refl _, ?_⟩
      cases hPR with
      | inl hc =>
        obtain ⟨pvs, npvs, hp, hfp, htp, hrq⟩ := hc
        cases hrq with
        | inl hc2 =>
          obtain ⟨rs0, nrs, hrs0, hfe, htr⟩ := hc2
          rw [hgr] at hrs0
          have hrse : rs0 = rs := (Json.arr.inj (Option.some.inj hrs0)).symm
          subst hrse
          rw [fixEntries_id hok] at hfe
          have hne := Option.some.inj hfe
          rw [htr, ← hne]
        | inr hc2 =>
          rw [hc2.2, hgr]
      | inr hc =>
        rw [hc.2.2, hgr]
    | @prop _ pvs k v _ hgp hmem hrest =>
      cases hPR with
      | inr hc => exact absurd hgp (hc.1 pvs)
      | inl hc =>
        obtain ⟨pvs2, npvs, hp, hfp, htp, _⟩ := hc
        rw [hgp] at hp
        have hpe : pvs2 = pvs := (Json.obj.inj (Option.some.inj hp)).symm
        subst hpe
        obtain ⟨n2, nv, hlt, hfx2, hmm⟩ := fixPropsF_mem hfp hmem
        obtain ⟨wkvs, hre, hw⟩ := ih n2 (by omega) hfx2 hrest hgr hok
        exact ⟨wkvs, ReachAll.prop htp hmm hre, hw⟩
    | @items _ ikvs _ hgi hrest =>
      cases hI with
      | inr hc => exact absurd hgi (hc.1 ikvs)
      | inl hc =>
        obtain ⟨ikvs2, ni, hi, hfx2, hti⟩ := hc
        rw [hgi] at hi
        have hie : ikvs2 = ikvs := (Json.obj.inj (Option.some.inj hi)).symm
        subst hie
        obtain ⟨wkvs, hre, hw⟩ := ih n (Nat.lt_succ_self n) hfx2 hrest hgr hok
        cases n with
        | zero => simp [fixReqF] at hfx2
        | succ n3 =>
          obtain ⟨ni2, hni2, _, _⟩ := fixReqF_shape hfx2
          subst hni2
          exact ⟨wkvs, ReachAll.items hti hre, hw⟩
    | @itemsSeq _ xs x _ hgi hx hrest =>
      cases hI with
      | inl hc =>
        obtain ⟨ikvs2, ni, hi, _, _⟩ := hc
        rw [hgi] at hi
        exact absurd (Option.some.inj hi) (by simp)
      | inr hc =>
        have hti : getKey t2 "items" = some (Json.arr xs) := by
          rw [hc.2, hgi]
        exact ⟨vkvs, ReachAll.itemsSeq hti hx hrest, hgr⟩
    | @comp _ key xs x _ hkey hgc hx hrest =>
      have hkey2 := hkey
      simp only [List.mem_cons, List.not_mem_nil, or_false] at hkey2
      rcases hkey2 with rfl | rfl | rfl
      · exact ⟨vkvs, ReachAll.comp hkey
          (by rw [hother "anyOf" (by decide) (by decide) (by decide), hgc])
          hx hrest, hgr⟩
      · exact ⟨vkvs, ReachAll.comp hkey
          (by rw [hother "oneOf" (by decide) (by decide) (by decide), hgc])
          hx hrest, hgr⟩
      · exact ⟨vkvs, ReachAll.comp hkey
          (by rw [hother "allOf" (by decide) (by decide) (by decide), hgc])
          hx hrest, hgr⟩
    | @defs _ dvs k v _ hgd hmem hrest =>
      have hcd : getKey t2 "$defs" = getKey kvs "$defs" :=
        hother "$defs" (by decide) (by decide) (by decide)
      exact ⟨vkvs, ReachAll.defs (by rw [hcd, hgd]) hmem hrest, hgr⟩
  all_goals cases hreach

end Jig

namespace Jig

theorem renOk_reach : ∀ {j u : Json}, ReachAll j u →
    renOkJ j = true → renOkJ u = true := by
  intro j u h
  induction h with
  | refl => exact fun hren => hren
  | prop hg hm _ ih =>
    intro hren
    exact ih (renOk_val (renOk_getKey hren hg) hm)
  | items hg _ ih =>
    intro hren
    exact ih (renOk_getKey hren hg)
  | itemsSeq hg hm _ ih =>
    intro hren
    apply ih
    have hq := renOk_getKey hren hg
    exact renOkList_mem (by simpa [renOkJ] using hq) hm
  | comp hk hg hm _ ih =>
    intro hren
    apply ih
    have hq := renOk_getKey hren hg
    exact renOkList_mem (by simpa [renOkJ] using hq) hm
  | defs hg hm _ ih =>
    intro hren
    exact ih (renOk_val (renOk_getKey hren hg) hm)

/-- C4: for every object node of the schema whose `required` field is
the boolean `true` — at the root or nested anywhere `_norm` recurses
(`properties` values, dict or sequence `items`, `anyOf`/`oneOf`/`allOf`
elements, `$defs` values) — the normalized output contains a
corresponding reachable node whose `required` lists exactly that node's
property keys in renamed form, in declaration order, or the empty
sequence when it has no `properties` key (provided renamed keys collide
nowhere in the schema, so no dict rebuild loses an entry). -/
theorem claim_C4_required_true (s t : Json) (m : RenameMap)
    (ukvs : List (String × Json))
    (h : normalize_schema_for_backend s = some (t, m))
    (hren : renOkJ s = true)
    (hu : ReachAll s (Json.obj ukvs))
    (hreq : getKey ukvs "required" = some (Json.bool true)) :
    ∃ vkvs, ReachAll t (Json.obj vkvs)
      ∧ ((∃ pvs, getKey ukvs "properties" = some (Json.obj pvs)
            ∧ getKey vkvs "required"
                = some (Json.arr (pvs.map (fun p => Json.str (renameKey p.1)))))
         ∨ (getKey ukvs "properties" = none
            ∧ getKey vkvs "required" = some (Json.arr []))) := by
  cases s
  case obj kvs =>
    by_cases hk : kvs.isEmpty
    · simp [normalize_schema_for_backend, hk] at h
      obtain ⟨rfl, rfl⟩ := h
      rw [List.isEmpty_iff] at hk
      subst hk
      cases hu with
      | refl => simp [getKey] at hreq
      | prop hgp hmem hrest => simp [getKey] at hgp
      | items hgp hrest => simp [getKey] at hgp
      | itemsSeq hgp hmem hrest => simp [getKey] at hgp
      | comp hkk hgp hmem hrest => simp [getKey] at hgp
      | defs hgp hmem hrest => simp [getKey] at hgp
    · cases hn : norm (.obj kvs) [] with
      | none => simp [normalize_schema_for_backend, hk, hn] at h
      | some r =>
        cases hfx : fixReq r.1 with
        | none => simp [normalize_schema_for_backend, hk, hn, hfx] at h
        | some t0 =>
          simp [normalize_schema_for_backend, hk, hn, hfx] at h
          obtain ⟨rfl, rfl⟩ := h
          simp only [norm] at hn
          obtain ⟨n2, m2, r2, hrun2, hreach2⟩ :=
            normF_sub (jsize (Json.obj kvs)) _ _ _ hn hren _ hu
          obtain ⟨r2p, r2m⟩ := r2
          obtain ⟨t2u, ht2u, hcase⟩ := normF_required_true hrun2 hreq
          subst ht2u
          simp only [fixReq] at hfx
          cases hcase with
          | inl hc =>
            obtain ⟨n3, pvs, q, hg, hnp, hP, hR⟩ := hc
            have hrenu : renOkJ (Json.obj ukvs) = true := renOk_reach hu hren
            have hnodup := renOk_nodup hrenu hg
            have hkeys : q.1.map Prod.fst = pvs.map (fun p => renameKey p.1) := by
              have hx := normPropsF_keys hnp
                (by intro p hp q1 hq1; exact absurd hq1 (List.not_mem_nil q1))
                hnodup
              simpa using hx
            have hoke : ∀ e ∈ q.1.map (fun p => Json.str p.1),
                ∃ s2, e = Json.str s2 ∧ s2 ∉ reservedPropNames := by
              intro e he
              obtain ⟨p, hp, rfl⟩ := List.mem_map.mp he
              refine ⟨p.1, rfl, ?_⟩
              have hmemk : p.1 ∈ q.1.map Prod.fst := List.mem_map_of_mem _ hp
              rw [hkeys] at hmemk
              obtain ⟨p0, _, hpk⟩ := List.mem_map.mp hmemk
              rw [← hpk]
              exact renameKey_not_reserved p0.1
            obtain ⟨wkvs, hwre, hwr⟩ :=
              fixReqF_keep (jsize r.1) hfx hreach2 hR hoke
            refine ⟨wkvs, hwre, Or.inl ⟨pvs, hg, ?_⟩⟩
            rw [hwr]
            have hL := congrArg (List.map Json.str) hkeys
            rw [List.map_map, List.map_map] at hL
            exact congrArg (fun l => some (Json.arr l)) hL
          | inr hc =>
            obtain ⟨hgp, hPn, hRe⟩ := hc
            obtain ⟨wkvs, hwre, hwr⟩ :=
              fixReqF_keep (jsize r.1) hfx hreach2 hRe
                (by intro e he; exact absurd he (List.not_mem_nil e))
            exact ⟨wkvs, hwre, Or.inr ⟨hgp, hwr⟩⟩
  all_goals cases hu

end Jig

namespace Jig

/-- C4 witness at a nested node: the object under the `inner` property
has `required: true` and a property literally named `type`; after
normalization the corresponding reachable node lists exactly
`["_prop_type"]` — the renamed key — as its `required`. -/
theorem claim_C4_required_true_witness :
    normalize_schema_for_backend
        (Json.obj [("type", Json.str "object"),
          ("properties", Json.obj [("inner",
            Json.obj [("type", Json.str "object"),
              ("properties", Json.obj [("type",
                Json.obj [("type", Json.str "string")])]),
              ("required", Json.bool true)])])])
      = some (Json.obj [("type", Json.str "object"),
          ("properties", Json.obj [("inner",
            Json.obj [("type", Json.str "object"),
              ("properties", Json.obj [("_prop_type",
                Json.obj [("type", Json.str "string")])]),
              ("required", Json.arr [Json.str "_prop_type"])])]),
          ("required", Json.arr [])], [("_prop_type", "type")])
    ∧ renOkJ (Json.obj [("type", Json.str "object"),
        ("properties", Json.obj [("inner",
          Json.obj [("type", Json.str "object"),
            ("properties", Json.obj [("type",
              Json.obj [("type", Json.str "string")])]),
            ("required", Json.bool true)])])]) = true
    ∧ getKey [("type", Json.str "object"),
        ("properties", Json.obj [("type",
          Json.obj [("type", Json.str "string")])]),
        ("required", Json.bool true)] "required" = some (Json.bool true)
    ∧ ∃ vkvs, ReachAll
        (Json.obj [("type", Json.str "object"),
          ("properties", Json.obj [("inner",
            Json.obj [("type", Json.str "object"),
              ("properties", Json.obj [("_prop_type",
                Json.obj [("type", Json.str "string")])]),
              ("required", Json.arr [Json.str "_prop_type"])])]),
          ("required", Json.arr [])]) (Json.obj vkvs)
      ∧ ((∃ pvs, getKey [("type", Json.str "object"),
            ("properties", Json.obj [("type",
              Json.obj [("type", Json.str "string")])]),
            ("required", Json.bool true)] "properties"
              = some (Json.obj pvs)
            ∧ getKey vkvs "required"
                = some (Json.arr (pvs.map (fun p => Json.str (renameKey p.1)))))
         ∨ (getKey [("type", Json.str "object"),
              ("properties", Json.obj [("type",
                Json.obj [("type", Json.str "string")])]),
              ("required", Json.bool true)] "properties" = none
            ∧ getKey vkvs "required" = some (Json.arr []))) :=
  ⟨by decide, by decide, by decide,
   claim_C4_required_true
     (Json.obj [("type", Json.str "object"),
       ("properties", Json.obj [("inner",
         Json.obj [("type", Json.str "object"),
           ("properties", Json.obj [("type",
             Json.obj [("type", Json.str "string")])]),
           ("required", Json.bool true)])])])
     (Json.obj [("type", Json.str "object"),
       ("properties", Json.obj [("inner",
         Json.obj [("type", Json.str "object"),
           ("properties", Json.obj [("_prop_type",
             Json.obj [("type", Json.str "string")])]),
           ("required", Json.arr [Json.str "_prop_type"])])]),
       ("required", Json.arr [])])
     [("_prop_type", "type")]
     [("type", Json.str "object"),
      ("properties", Json.obj [("type",
        Json.obj [("type", Json.str "string")])]),
      ("required", Json.bool true)]
     (by decide) (by decide)
     (@ReachAll.prop
       [("type", Json.str "object"),
        ("properties", Json.obj [("inner",
          Json.obj [("type", Json.str "object"),
            ("properties", Json.obj [("type",
              Json.obj [("type", Json.str "string")])]),
            ("required", Json.bool true)])])]
       [("inner",
         Json.obj [("type", Json.str "object"),
           ("properties", Json.obj [("type",
             Json.obj [("type", Json.str "string")])]),
           ("required", Json.bool true)])]
       "inner"
       (Json.obj [("type", Json.str "object"),
         ("properties", Json.obj [("type",
           Json.obj [("type", Json.str "string")])]),
         ("required", Json.bool true)])
       (Json.obj [("type", Json.str "object"),
         ("properties", Json.obj [("type",
           Json.obj [("type", Json.str "string")])]),
         ("required", Json.bool true)])
       (by decide) (by decide) (ReachAll.refl _))
     (by decide)⟩

end Jig
